import Mathlib

/-!
Verification of the algorithmic core of the DS-Animator repository
(`src/AVLTree.cpp`, `src/BST.cpp`, `src/MinHeap.cpp`, `src/LinkedList.cpp`,
`src/Stack.cpp`, `src/Queue.cpp`) against its natural-language specification.

The C++ containers are shallowly embedded: each mutating method becomes a pure
function from the container state (plus the caller-supplied out-parameters,
threaded explicitly) to the new state and outputs.  Machine `int` values are
modelled by `Int`; node identifiers by `Nat`; `nullptr` children by a `nil`
constructor; the caller-visible trace vectors by `List`s.  Node references in
traces and out-parameters are represented by the node's stable `id` field
(identifiers are unique within a container, so a pointer and its id identify
the same node).

For the AVL delete helper we additionally carry a ghost list `rotEvents`
recording, in execution order, every assignment the source makes to the
by-reference `rotation` out-parameter; the non-ghost `rotation` component
behaves exactly as the source's variable.  This instrumentation is needed to
state which of several triggered rotations is the one reported.
-/

set_option maxHeartbeats 1000000

namespace DSAnim

/-- `enum class RotationType` from `AVLTree.h`. -/
inductive RotationType where
  | NONE
  | LEFT
  | RIGHT
  | LEFT_RIGHT
  | RIGHT_LEFT
deriving DecidableEq, Repr

/-! ## AVL tree (`AVLTree.h` / `AVLTree.cpp`)

`struct AVLNode { int value; AVLNode* left; AVLNode* right; int height; int id; ... }`
(the `x, y, targetX, targetY` visual fields play no role in the algorithms and
are omitted).  A null pointer is the `nil` constructor. -/

inductive AVLNode where
  | nil : AVLNode
  | node (value : Int) (left : AVLNode) (right : AVLNode) (height : Int) (id : Nat) : AVLNode
deriving DecidableEq, Repr

namespace AVL

open AVLNode

/-- `AVLTree::getHeight`: `node ? node->height : 0`. -/
def getHeight : AVLNode → Int
  | nil => 0
  | node _ _ _ h _ => h

/-- `AVLTree::getBalance`: `node ? getHeight(node->left) - getHeight(node->right) : 0`. -/
def getBalance : AVLNode → Int
  | nil => 0
  | node _ l r _ _ => getHeight l - getHeight r

/-- `AVLTree::updateHeight`: `node->height = 1 + max(getHeight(l), getHeight(r))`. -/
def updateHeight : AVLNode → AVLNode
  | nil => nil
  | node v l r _ id => node v l r (1 + max (getHeight l) (getHeight r)) id

/-- The `value` field of a node; reading it on `nil` corresponds to a null
dereference in the source, which never occurs on the states where it is used
(the guards `balance > 1` / `balance < -1` force the child to be non-null);
the `0` default is arbitrary and unreachable there. -/
def nodeValue : AVLNode → Int
  | nil => 0
  | node v _ _ _ _ => v

/-- The left child of a node (`nil` for `nil`). -/
def leftOf : AVLNode → AVLNode
  | nil => nil
  | node _ l _ _ _ => l

/-- The right child of a node (`nil` for `nil`). -/
def rightOf : AVLNode → AVLNode
  | nil => nil
  | node _ _ r _ _ => r

/-- Replace the left child (models `node->left = ...`). -/
def setLeft : AVLNode → AVLNode → AVLNode
  | nil, _ => nil
  | node v _ r h id, l => node v l r h id

/-- Replace the right child (models `node->right = ...`). -/
def setRight : AVLNode → AVLNode → AVLNode
  | nil, _ => nil
  | node v l _ h id, r => node v l r h id

/-- `AVLTree::rotateRight` on `y` with `x = y->left`, `T2 = x->right`:
`x->right = y; y->left = T2; updateHeight(y); updateHeight(x)`.
A null `y->left` would be a null dereference in the source; the fallthrough
case returns the input unchanged and is unreachable on the call sites. -/
def rotateRight : AVLNode → AVLNode
  | node yv (node xv t1 t2 xh xid) t3 yh yid =>
      let y2 := updateHeight (node yv t2 t3 yh yid)
      updateHeight (node xv t1 y2 xh xid)
  | t => t

/-- `AVLTree::rotateLeft` on `x` with `y = x->right`, `T2 = y->left`:
`y->left = x; x->right = T2; updateHeight(x); updateHeight(y)`. -/
def rotateLeft : AVLNode → AVLNode
  | node xv t1 (node yv t2 t3 yh yid) xh xid =>
      let x2 := updateHeight (node xv t1 t2 xh xid)
      updateHeight (node yv x2 t3 yh yid)
  | t => t

/-- Result record for `AVLTree::insertHelper`: the returned subtree plus the
final values of the by-reference parameters `success`, `path`, `rotation` and
the member `nextNodeId`.  `rotEvents` is ghost instrumentation listing every
assignment made to `rotation`, in order. -/
structure InsResult where
  tree : AVLNode
  success : Bool
  path : List Nat
  rotation : RotationType
  rotEvents : List RotationType
  nextId : Nat
deriving DecidableEq, Repr

/-- The rebalancing tail of `AVLTree::insertHelper` (lines 98-130): update the
height, compute the balance factor, and apply one of the four rotation cases,
each of which assigns `rotation`.  Returns the new subtree together with the
updated `rotation` and the ghost event list. -/
def rebalanceIns (n : AVLNode) (value : Int) (rotation : RotationType)
    (events : List RotationType) : AVLNode × RotationType × List RotationType :=
  let n := updateHeight n
  let balance := getBalance n
  if balance > 1 ∧ value < nodeValue (leftOf n) then
    (rotateRight n, RotationType.RIGHT, events ++ [RotationType.RIGHT])
  else if balance < -1 ∧ nodeValue (rightOf n) < value then
    (rotateLeft n, RotationType.LEFT, events ++ [RotationType.LEFT])
  else if balance > 1 ∧ nodeValue (leftOf n) < value then
    (rotateRight (setLeft n (rotateLeft (leftOf n))), RotationType.LEFT_RIGHT,
      events ++ [RotationType.LEFT_RIGHT])
  else if balance < -1 ∧ value < nodeValue (rightOf n) then
    (rotateLeft (setRight n (rotateRight (rightOf n))), RotationType.RIGHT_LEFT,
      events ++ [RotationType.RIGHT_LEFT])
  else
    (n, rotation, events)

/-- `AVLTree::insertHelper`.  The extra arguments are the incoming values of
the by-reference out-parameters and of `nextNodeId`. -/
def insertHelper : AVLNode → Int → Bool → List Nat → RotationType → List RotationType →
    Nat → InsResult
  | nil, value, success, path, rotation, events, nid =>
      { tree := node value nil nil 1 nid, success := success, path := path ++ [nid],
        rotation := rotation, rotEvents := events, nextId := nid + 1 }
  | node v l r h id, value, success, path, rotation, events, nid =>
      let path := path ++ [id]
      if value < v then
        let res := insertHelper l value success path rotation events nid
        let (t, rot, evs) := rebalanceIns (node v res.tree r h id) value res.rotation res.rotEvents
        { res with tree := t, rotation := rot, rotEvents := evs }
      else if v < value then
        let res := insertHelper r value success path rotation events nid
        let (t, rot, evs) := rebalanceIns (node v l res.tree h id) value res.rotation res.rotEvents
        { res with tree := t, rotation := rot, rotEvents := evs }
      else
        { tree := node v l r h id, success := false, path := path,
          rotation := rotation, rotEvents := events, nextId := nid }

/-- `AVLTree::findMin`: follow `left` pointers; returns the argument when it
is null. -/
def findMin : AVLNode → AVLNode
  | nil => nil
  | node v nil r h id => node v nil r h id
  | node _ (node lv ll lr lh lid) _ _ _ => findMin (node lv ll lr lh lid)

/-- Result record for `AVLTree::deleteHelper`: the returned subtree plus the
final values of `success`, `path`, `deletedNode` (as a node id) and
`rotation`, with the ghost `rotEvents` list of rotation assignments. -/
structure DelResult where
  tree : AVLNode
  success : Bool
  path : List Nat
  deletedNode : Option Nat
  rotation : RotationType
  rotEvents : List RotationType
deriving DecidableEq, Repr

/-- The rebalancing tail of `AVLTree::deleteHelper` (lines 181-213): update
height, compute balance, and apply the four delete-side rotation cases, which
are selected by the children's balance factors. -/
def rebalanceDel (n : AVLNode) (rotation : RotationType)
    (events : List RotationType) : AVLNode × RotationType × List RotationType :=
  let n := updateHeight n
  let balance := getBalance n
  if balance > 1 ∧ 0 ≤ getBalance (leftOf n) then
    (rotateRight n, RotationType.RIGHT, events ++ [RotationType.RIGHT])
  else if balance > 1 ∧ getBalance (leftOf n) < 0 then
    (rotateRight (setLeft n (rotateLeft (leftOf n))), RotationType.LEFT_RIGHT,
      events ++ [RotationType.LEFT_RIGHT])
  else if balance < -1 ∧ getBalance (rightOf n) ≤ 0 then
    (rotateLeft n, RotationType.LEFT, events ++ [RotationType.LEFT])
  else if balance < -1 ∧ 0 < getBalance (rightOf n) then
    (rotateLeft (setRight n (rotateRight (rightOf n))), RotationType.RIGHT_LEFT,
      events ++ [RotationType.RIGHT_LEFT])
  else
    (n, rotation, events)

/-- `AVLTree::deleteHelper`.  In the one-or-no-child case the source returns
the replacement child without touching heights; in the two-children case it
copies the in-order successor's value into the node and recursively deletes
the successor value from the right subtree, passing the SAME by-reference
`success`, `path`, `deletedNode` and `rotation` references down. -/
def deleteHelper : AVLNode → Int → Bool → List Nat → Option Nat → RotationType →
    List RotationType → DelResult
  | nil, _, _, path, deletedNode, rotation, events =>
      { tree := nil, success := false, path := path, deletedNode := deletedNode,
        rotation := rotation, rotEvents := events }
  | node v l r h id, value, success, path, deletedNode, rotation, events =>
      let path := path ++ [id]
      if value < v then
        let res := deleteHelper l value success path deletedNode rotation events
        let (t, rot, evs) := rebalanceDel (node v res.tree r h id) res.rotation res.rotEvents
        { res with tree := t, rotation := rot, rotEvents := evs }
      else if v < value then
        let res := deleteHelper r value success path deletedNode rotation events
        let (t, rot, evs) := rebalanceDel (node v l res.tree h id) res.rotation res.rotEvents
        { res with tree := t, rotation := rot, rotEvents := evs }
      else
        if l = nil ∨ r = nil then
          let temp := if l ≠ nil then l else r
          { tree := temp, success := success, path := path, deletedNode := some id,
            rotation := rotation, rotEvents := events }
        else
          let temp := findMin r
          let res := deleteHelper r (nodeValue temp) success path (some id) rotation events
          let (t, rot, evs) :=
            rebalanceDel (node (nodeValue temp) l res.tree h id) res.rotation res.rotEvents
          { res with tree := t, rotation := rot, rotEvents := evs }

/-- `AVLTree::searchHelper`: returns the found node (as a subtree pointer) or
`none`, appending each visited node to the path. -/
def searchHelper : AVLNode → Int → List Nat → Option AVLNode × List Nat
  | nil, _, path => (none, path)
  | node v l r h id, value, path =>
      let path := path ++ [id]
      if value < v then searchHelper l value path
      else if v < value then searchHelper r value path
      else (some (node v l r h id), path)

/-- The private members of `class AVLTree`: `root` and `nextNodeId`. -/
structure State where
  root : AVLNode
  nextNodeId : Nat
deriving DecidableEq, Repr

/-- `AVLTree::insert`: `success = true; rotation = NONE; root = insertHelper(...)`. -/
def insert (s : State) (value : Int) :
    State × Bool × List Nat × RotationType × List RotationType :=
  let res := insertHelper s.root value true [] RotationType.NONE [] s.nextNodeId
  ({ root := res.tree, nextNodeId := res.nextId }, res.success, res.path,
    res.rotation, res.rotEvents)

/-- `AVLTree::remove`: `success = true; deletedNode = nullptr; rotation = NONE;
root = deleteHelper(...)`. -/
def remove (s : State) (value : Int) :
    State × Bool × List Nat × Option Nat × RotationType × List RotationType :=
  let res := deleteHelper s.root value true [] none RotationType.NONE []
  ({ root := res.tree, nextNodeId := s.nextNodeId }, res.success, res.path,
    res.deletedNode, res.rotation, res.rotEvents)

/-- `AVLTree::search`: a read-only operation; the state component records that
the method does not write to the tree. -/
def search (s : State) (value : Int) : State × Option AVLNode × List Nat :=
  (s, searchHelper s.root value [])

/-- `AVLTree::clear`: `root = nullptr` (the id counter is not reset). -/
def clear (s : State) : State :=
  { root := AVLNode.nil, nextNodeId := s.nextNodeId }

/-- `AVLTree::inorderTraversal`. -/
def inorderList : AVLNode → List Int
  | nil => []
  | node v l r _ _ => inorderList l ++ v :: inorderList r

/-- A public operation on the AVL tree, as in the spec's reachability clause. -/
inductive Op where
  | ins (v : Int)
  | rem (v : Int)
  | sea (v : Int)
  | clr
deriving DecidableEq, Repr

/-- Apply one public operation, discarding caller-visible outputs. -/
def applyOp (s : State) : Op → State
  | Op.ins v => (insert s v).1
  | Op.rem v => (remove s v).1
  | Op.sea v => (search s v).1
  | Op.clr => clear s

/-- Run a sequence of public operations from a freshly constructed tree
(`root = nullptr`, `nextNodeId = 0`). -/
def runOps (ops : List Op) : State :=
  ops.foldl applyOp { root := AVLNode.nil, nextNodeId := 0 }

/-! ### Specification-side predicates for the AVL tree. -/

/-- The recomputed (actual) height of a subtree: 0 for null, 1 for a leaf. -/
def realHeight : AVLNode → Int
  | nil => 0
  | node _ l r _ _ => 1 + max (realHeight l) (realHeight r)

/-- Every node's cached `height` field equals the recomputed height of its
subtree. -/
def HeightsCorrect : AVLNode → Prop
  | nil => True
  | node _ l r h _ =>
      h = 1 + max (realHeight l) (realHeight r) ∧ HeightsCorrect l ∧ HeightsCorrect r

/-- Every node's balance factor (cached left height minus cached right height)
lies in `{-1, 0, +1}`. -/
def BalancedCached : AVLNode → Prop
  | nil => True
  | node _ l r _ _ =>
      -1 ≤ getHeight l - getHeight r ∧ getHeight l - getHeight r ≤ 1 ∧
      BalancedCached l ∧ BalancedCached r

/-- The multiset of values stored in a subtree. -/
def valuesM : AVLNode → Multiset Int
  | nil => 0
  | node v l r _ _ => v ::ₘ (valuesM l + valuesM r)

/-- Strict BST ordering: at every node, all values on the left are smaller and
all values on the right are larger. -/
def Ordered : AVLNode → Prop
  | nil => True
  | node v l r _ _ =>
      (∀ x ∈ valuesM l, x < v) ∧ (∀ x ∈ valuesM r, v < x) ∧ Ordered l ∧ Ordered r

instance decHeightsCorrect : (t : AVLNode) → Decidable (HeightsCorrect t)
  | nil => .isTrue trivial
  | node v l r h id => by
      have dl := decHeightsCorrect l
      have dr := decHeightsCorrect r
      unfold HeightsCorrect
      infer_instance

instance decBalancedCached : (t : AVLNode) → Decidable (BalancedCached t)
  | nil => .isTrue trivial
  | node v l r h id => by
      have dl := decBalancedCached l
      have dr := decBalancedCached r
      unfold BalancedCached
      infer_instance

instance decOrdered : (t : AVLNode) → Decidable (Ordered t)
  | nil => .isTrue trivial
  | node v l r h id => by
      have dl := decOrdered l
      have dr := decOrdered r
      unfold Ordered
      infer_instance

/-- The list of cached heights of all nodes of the tree (preorder). -/
def heightsList : AVLNode → List Int
  | nil => []
  | node _ l r h _ => h :: (heightsList l ++ heightsList r)

/-- The number of nodes of the tree. -/
def nodeCount : AVLNode → Nat
  | nil => 0
  | node _ l r _ _ => 1 + nodeCount l + nodeCount r

/-- The conjunction of the three structural invariants of the AVL tree. -/
def Inv (s : State) : Prop :=
  Ordered s.root ∧ HeightsCorrect s.root ∧ BalancedCached s.root

/-- The `id` field of a node (default on `nil` unreachable at use sites). -/
def nodeId : AVLNode → Nat
  | nil => 0
  | node _ _ _ _ id => id

/-- The node found by a search for `v` (the pointer `searchHelper` returns);
the path argument does not influence it. -/
def findNode (t : AVLNode) (v : Int) : Option AVLNode :=
  (searchHelper t v []).1

end AVL

/-! ## BST (`BST.h` / `BST.cpp`)

`struct Node { int value; Node* left; Node* right; int id; ... }` (visual
fields omitted). -/

inductive BNode where
  | nil : BNode
  | node (value : Int) (left : BNode) (right : BNode) (id : Nat) : BNode
deriving DecidableEq, Repr

namespace BST

open BNode

/-- The `value` field (default on `nil` unreachable at use sites). -/
def nodeValue : BNode → Int
  | nil => 0
  | node v _ _ _ => v

/-- The `id` field. -/
def nodeId : BNode → Nat
  | nil => 0
  | node _ _ _ id => id

/-- Result record for `BST::insertHelper`. -/
structure InsResult where
  tree : BNode
  success : Bool
  path : List Nat
  nextId : Nat
deriving DecidableEq, Repr

/-- `BST::insertHelper`: standard descent; a null link allocates
`new Node(value, nextNodeId++)`, pushing it on the path; an equal value sets
`success = false`. -/
def insertHelper : BNode → Int → Bool → List Nat → Nat → InsResult
  | nil, value, success, path, nid =>
      { tree := node value nil nil nid, success := success, path := path ++ [nid],
        nextId := nid + 1 }
  | node v l r id, value, success, path, nid =>
      let path := path ++ [id]
      if value < v then
        let res := insertHelper l value success path nid
        { res with tree := node v res.tree r id }
      else if v < value then
        let res := insertHelper r value success path nid
        { res with tree := node v l res.tree id }
      else
        { tree := node v l r id, success := false, path := path, nextId := nid }

/-- `BST::findMinWithPath`: walk to the leftmost node, pushing every node on
the way (including the minimum itself); returns `none` on a null subtree. -/
def findMinWithPath : BNode → List Nat → Option BNode × List Nat
  | nil, path => (none, path)
  | node v nil r id, path => (some (node v nil r id), path ++ [id])
  | node _ (node lv ll lr lid) _ id, path =>
      findMinWithPath (node lv ll lr lid) (path ++ [id])

/-- Result record for `BST::deleteHelper`: final `success`, `path`,
`deletedNode` and `successor` out-parameters (nodes as ids). -/
structure DelResult where
  tree : BNode
  success : Bool
  path : List Nat
  deletedNode : Option Nat
  successor : Option Nat
deriving DecidableEq, Repr

/-- `BST::deleteHelper`.  In the two-children case the source computes the
successor path into a separate vector, appends it to the main path, copies the
successor's value into the node, and recursively deletes the successor value
using FRESH temporary `success`/`path`/`deletedNode`/`successor` variables
(so the caller-visible out-parameters are not overwritten). -/
def deleteHelper : BNode → Int → Bool → List Nat → Option Nat → Option Nat → DelResult
  | nil, _, _, path, deletedNode, successor =>
      { tree := nil, success := false, path := path, deletedNode := deletedNode,
        successor := successor }
  | node v l r id, value, success, path, deletedNode, successor =>
      let path := path ++ [id]
      if value < v then
        let res := deleteHelper l value success path deletedNode successor
        { res with tree := node v res.tree r id }
      else if v < value then
        let res := deleteHelper r value success path deletedNode successor
        { res with tree := node v l res.tree id }
      else
        match l with
        | nil => { tree := r, success := success, path := path,
                   deletedNode := some id, successor := successor }
        | node lv ll lr lid =>
          match r with
          | nil => { tree := node lv ll lr lid, success := success, path := path,
                     deletedNode := some id, successor := successor }
          | node rv rl rr rid =>
              let (succNode, succPath) := findMinWithPath (node rv rl rr rid) []
              let succValue := nodeValue (succNode.getD nil)
              let inner := deleteHelper (node rv rl rr rid) succValue true [] none none
              { tree := node succValue (node lv ll lr lid) inner.tree id,
                success := success, path := path ++ succPath,
                deletedNode := some id, successor := succNode.map nodeId }

/-- `BST::searchHelper`. -/
def searchHelper : BNode → Int → List Nat → Option BNode × List Nat
  | nil, _, path => (none, path)
  | node v l r id, value, path =>
      let path := path ++ [id]
      if value < v then searchHelper l value path
      else if v < value then searchHelper r value path
      else (some (node v l r id), path)

/-- The private members of `class BST`: `root` and `nextNodeId`. -/
structure State where
  root : BNode
  nextNodeId : Nat
deriving DecidableEq, Repr

/-- `BST::insert`. -/
def insert (s : State) (value : Int) : State × Bool × List Nat :=
  let res := insertHelper s.root value true [] s.nextNodeId
  ({ root := res.tree, nextNodeId := res.nextId }, res.success, res.path)

/-- `BST::remove`. -/
def remove (s : State) (value : Int) :
    State × Bool × List Nat × Option Nat × Option Nat :=
  let res := deleteHelper s.root value true [] none none
  ({ root := res.tree, nextNodeId := s.nextNodeId }, res.success, res.path,
    res.deletedNode, res.successor)

/-- `BST::search`: read-only. -/
def search (s : State) (value : Int) : State × Option BNode × List Nat :=
  (s, searchHelper s.root value [])

/-- `BST::inorderTraversal`. -/
def inorderList : BNode → List Int
  | nil => []
  | node v l r _ => inorderList l ++ v :: inorderList r

/-- The multiset of values stored in a subtree. -/
def valuesM : BNode → Multiset Int
  | nil => 0
  | node v l r _ => v ::ₘ (valuesM l + valuesM r)

/-- Strict BST ordering. -/
def Ordered : BNode → Prop
  | nil => True
  | node v l r _ =>
      (∀ x ∈ valuesM l, x < v) ∧ (∀ x ∈ valuesM r, v < x) ∧ Ordered l ∧ Ordered r

instance decOrdered : (t : BNode) → Decidable (Ordered t)
  | nil => .isTrue trivial
  | node v l r id => by
      have dl := decOrdered l
      have dr := decOrdered r
      unfold Ordered
      infer_instance

/-- The node found by a search for `v`; the path argument does not influence
it. -/
def findNode (t : BNode) (v : Int) : Option BNode :=
  (searchHelper t v []).1

end BST

/-! ## Min-heap (`MinHeap.h` / `MinHeap.cpp`)

`struct HeapNode { int value; int id; ... }`; the backing store is
`std::vector<HeapNode*> heap`, modelled as a `List HeapCell`.  The sift loops
are `while` loops; they are embedded with an explicit fuel argument that is
always called with enough fuel (sift-up needs at most `current` steps,
sift-down at most `size` steps), so the fuel never runs out at call sites. -/

structure HeapCell where
  value : Int
  id : Nat
deriving DecidableEq, Repr

namespace MinHeap

/-- `MinHeap::parent`: `(i - 1) / 2` (on `i = 0` both C++ and Nat give 0). -/
def parentIdx (i : Nat) : Nat := (i - 1) / 2

/-- `MinHeap::leftChild`. -/
def leftChild (i : Nat) : Nat := 2 * i + 1

/-- `MinHeap::rightChild`. -/
def rightChild (i : Nat) : Nat := 2 * i + 2

/-- `heap[i]->value` (default cell unreachable: every access is in range). -/
def valAt (h : List HeapCell) (i : Nat) : Int := (h.getD i ⟨0, 0⟩).value

/-- `MinHeap::swap`. -/
def swapAt (h : List HeapCell) (i j : Nat) : List HeapCell :=
  (h.set i (h.getD j ⟨0, 0⟩)).set j (h.getD i ⟨0, 0⟩)

/-- The sift-up `while` loop (used by `insert` and the tail of `remove`):
while `current > 0` and the parent's value is greater, swap with the parent,
move up, and append the new index to the trace.  `fuel ≥ current` suffices. -/
def siftUpF : Nat → List HeapCell → Nat → List Nat → List HeapCell × Nat × List Nat
  | 0, h, current, tr => (h, current, tr)
  | fuel + 1, h, current, tr =>
      if 0 < current ∧ valAt h current < valAt h (parentIdx current) then
        siftUpF fuel (swapAt h current (parentIdx current)) (parentIdx current)
          (tr ++ [parentIdx current])
      else
        (h, current, tr)

/-- The body of one sift-down iteration: `smallest = current`, replaced by
the left child when it exists and is smaller, then by the right child when it
exists and is smaller than the current pick (the two `if`s of the loop). -/
def sdSelect (h : List HeapCell) (current : Nat) : Nat :=
  let s1 := if leftChild current < h.length ∧
      valAt h (leftChild current) < valAt h current then leftChild current else current
  if rightChild current < h.length ∧
      valAt h (rightChild current) < valAt h s1 then rightChild current else s1

/-- The sift-down `while` loop (used by `extractMin` and `remove`): pick the
smallest of self/left/right among existing indices; if a child is smaller,
append its index, swap, continue there.  `fuel ≥ size` suffices. -/
def siftDownF : Nat → List HeapCell → Nat → List Nat → List HeapCell × Nat × List Nat
  | 0, h, current, tr => (h, current, tr)
  | fuel + 1, h, current, tr =>
      let smallest := sdSelect h current
      if smallest ≠ current then
        siftDownF fuel (swapAt h current smallest) smallest (tr ++ [smallest])
      else
        (h, current, tr)

/-- `MinHeap::insert`: append the new cell, push the end index on the trace,
sift up. -/
def insert (h : List HeapCell) (nid : Nat) (value : Int) (siftPath : List Nat) :
    List HeapCell × Nat × List Nat :=
  let h := h ++ [⟨value, nid⟩]
  let current := h.length - 1
  let siftPath := siftPath ++ [current]
  let (h, _, siftPath) := siftUpF current h current siftPath
  (h, nid + 1, siftPath)

/-- `MinHeap::extractMin`: on a non-empty heap, push index 0, move the last
cell to the root, pop, and sift down if still non-empty; returns the detached
minimum cell. -/
def extractMin (h : List HeapCell) (siftPath : List Nat) :
    List HeapCell × Option HeapCell × List Nat :=
  match h with
  | [] => ([], none, siftPath)
  | c :: rest =>
      let minNode := c
      let siftPath := siftPath ++ [0]
      let h1 := ((c :: rest).set 0 ((c :: rest).getLast (by simp))).dropLast
      if h1.isEmpty then
        (h1, some minNode, siftPath)
      else
        let (h2, _, siftPath) := siftDownF h1.length h1 0 siftPath
        (h2, some minNode, siftPath)

/-- `MinHeap::remove`: find the first cell with the value; push its index;
move the last cell into its slot and pop; if the slot is still inside the
heap, sift down from it and then sift up from wherever sift-down stopped. -/
def remove (h : List HeapCell) (value : Int) (siftPath : List Nat) :
    List HeapCell × Bool × List Nat :=
  match h.findIdx? (fun c => c.value = value) with
  | none => (h, false, siftPath)
  | some index =>
      let siftPath := siftPath ++ [index]
      let h1 := (h.set index (h.getLast?.getD ⟨0, 0⟩)).dropLast
      if index < h1.length then
        let (h2, current, siftPath) := siftDownF h1.length h1 index siftPath
        let (h3, _, siftPath) := siftUpF current h2 current siftPath
        (h3, true, siftPath)
      else
        (h1, true, siftPath)

/-- `MinHeap::search`: linear scan appending each visited index; returns the
first matching index or `-1`. -/
def searchGo : List HeapCell → Nat → Int → List Nat → Int × List Nat
  | [], _, _, path => (-1, path)
  | c :: rest, i, value, path =>
      let path := path ++ [i]
      if c.value = value then ((i : Int), path)
      else searchGo rest (i + 1) value path

/-- The private members of `class MinHeap`: the array and `nextNodeId`. -/
structure State where
  heap : List HeapCell
  nextNodeId : Nat
deriving DecidableEq, Repr

/-- `MinHeap::insert` at the class level. -/
def insertOp (s : State) (value : Int) : State × List Nat :=
  let (h, nid, tr) := insert s.heap s.nextNodeId value []
  ({ heap := h, nextNodeId := nid }, tr)

/-- `MinHeap::extractMin` at the class level. -/
def extractMinOp (s : State) : State × Option HeapCell × List Nat :=
  let (h, c, tr) := extractMin s.heap []
  ({ heap := h, nextNodeId := s.nextNodeId }, c, tr)

/-- `MinHeap::remove` at the class level. -/
def removeOp (s : State) (value : Int) : State × Bool × List Nat :=
  let (h, ok, tr) := remove s.heap value []
  ({ heap := h, nextNodeId := s.nextNodeId }, ok, tr)

/-- `MinHeap::search` at the class level: read-only. -/
def searchOp (s : State) (value : Int) : State × Int × List Nat :=
  (s, searchGo s.heap 0 value [])

/-- `MinHeap::getNode`: `heap[index]` when `0 <= index < size`, else null.
The C++ `int` index is an `Int`; negative indices fall into the null branch. -/
def getNode (h : List HeapCell) (index : Int) : Option HeapCell :=
  if 0 ≤ index ∧ index < (h.length : Int) then h.get? index.toNat else none

/-- A public heap operation, for the reachability clause. -/
inductive Op where
  | ins (v : Int)
  | ext
  | rem (v : Int)
  | sea (v : Int)
deriving DecidableEq, Repr

/-- Apply one public heap operation. -/
def applyOp (s : State) : Op → State
  | Op.ins v => (insertOp s v).1
  | Op.ext => (extractMinOp s).1
  | Op.rem v => (removeOp s v).1
  | Op.sea v => (searchOp s v).1

/-- Run a sequence of public heap operations from an empty heap. -/
def runOps (ops : List Op) : State :=
  ops.foldl applyOp { heap := [], nextNodeId := 0 }

/-- The heap-order invariant: for every index `i > 0`,
`value[parent(i)] <= value[i]`. -/
def HeapOrdered (h : List HeapCell) : Prop :=
  ∀ i : Nat, 0 < i → i < h.length → valAt h (parentIdx i) ≤ valAt h i

instance decHeapOrdered (h : List HeapCell) : Decidable (HeapOrdered h) :=
  decidable_of_iff (∀ i, i < h.length → 0 < i → valAt h (parentIdx i) ≤ valAt h i) (by
    unfold HeapOrdered
    exact ⟨fun f i hi hl => f i hl hi, fun f i hl hi => f i hi hl⟩)

/-- Repeatedly extract the minimum until the heap is empty, collecting the
extracted values (fuel `≥ h.length` suffices: each extraction shortens the
heap by one). -/
def drainF : Nat → List HeapCell → List Int
  | 0, _ => []
  | fuel + 1, h =>
      match extractMin h [] with
      | (_, none, _) => []
      | (h', some c, _) => c.value :: drainF fuel h'

/-- Build a heap by inserting a list of values in order (fresh heap). -/
def buildHeap (vs : List Int) : State :=
  runOps (vs.map Op.ins)

end MinHeap

/-! ## Singly linked list (`LinkedList.h` / `LinkedList.cpp`)

`struct ListNode { int value; ListNode* next; int id; ... }`.  The chain of
nodes reachable from `head` is a `List ListCell`; the separately maintained
`tail` pointer and `size` counter are separate state fields, updated exactly
where the source updates them.  Pointer equality `current == tail` is
modelled as cell equality (ids are unique, so distinct live nodes never
compare equal). -/

structure ListCell where
  value : Int
  id : Nat
deriving DecidableEq, Repr

namespace LinkedList

/-- The private members of `class LinkedList`: head chain, tail pointer,
`nextNodeId`, `size`. -/
structure State where
  cells : List ListCell
  tailc : Option ListCell
  nextNodeId : Nat
  size : Int
deriving DecidableEq, Repr

/-- `LinkedList::insertAtHead`. -/
def insertAtHead (s : State) (value : Int) : State × Bool × List ListCell :=
  let newNode : ListCell := ⟨value, s.nextNodeId⟩
  match s.cells with
  | [] =>
      ({ cells := [newNode], tailc := some newNode, nextNodeId := s.nextNodeId + 1,
         size := s.size + 1 }, true, [newNode])
  | c :: rest =>
      ({ cells := newNode :: c :: rest, tailc := s.tailc, nextNodeId := s.nextNodeId + 1,
         size := s.size + 1 }, true, [newNode])

/-- `LinkedList::insertAtTail`: empty case as insert-at-head; otherwise
traverse the whole list into the path, splice after the old tail. -/
def insertAtTail (s : State) (value : Int) : State × Bool × List ListCell :=
  let newNode : ListCell := ⟨value, s.nextNodeId⟩
  match s.cells with
  | [] =>
      ({ cells := [newNode], tailc := some newNode, nextNodeId := s.nextNodeId + 1,
         size := s.size + 1 }, true, [newNode])
  | c :: rest =>
      ({ cells := (c :: rest) ++ [newNode], tailc := some newNode,
         nextNodeId := s.nextNodeId + 1, size := s.size + 1 },
       true, (c :: rest) ++ [newNode])

/-- The search loop of `LinkedList::remove` (`prev`/`current` walk): returns
the list of cells after `prev`, the updated tail, whether a node was removed,
the path entries pushed, and the detached node. -/
def removeGo (value : Int) (tailc : Option ListCell) (prev : ListCell) :
    List ListCell → List ListCell →
    List ListCell × Option ListCell × Bool × List ListCell × Option ListCell
  | [], path => ([], tailc, false, path, none)
  | current :: rest, path =>
      let path := path ++ [current]
      if current.value = value then
        (rest, if tailc = some current then some prev else tailc, true, path, some current)
      else
        let (cs, tl, found, path, del) := removeGo value tailc current rest path
        (current :: cs, tl, found, path, del)

/-- `LinkedList::remove`: empty list fails; a matching head is unlinked
directly (tail nulled if the list became empty); otherwise the `prev`/
`current` loop removes the first match, moving `tail` back to `prev` when the
match was the tail.  `size` is decremented only on success. -/
def removeV (s : State) (value : Int) :
    State × Bool × List ListCell × Option ListCell :=
  match s.cells with
  | [] => (s, false, [], none)
  | hd :: rest =>
      if hd.value = value then
        ({ cells := rest, tailc := if rest = [] then none else s.tailc,
           nextNodeId := s.nextNodeId, size := s.size - 1 }, true, [hd], some hd)
      else
        let (cs, tl, found, path, del) := removeGo value s.tailc hd rest [hd]
        if found then
          ({ cells := hd :: cs, tailc := tl, nextNodeId := s.nextNodeId,
             size := s.size - 1 }, true, path, del)
        else
          (s, false, path, none)

/-- `LinkedList::search`: walk from head appending each visited node. -/
def searchGo (value : Int) : List ListCell → List ListCell → Option ListCell × List ListCell
  | [], path => (none, path)
  | c :: rest, path =>
      let path := path ++ [c]
      if c.value = value then (some c, path)
      else searchGo value rest path

/-- `LinkedList::search` at the class level: read-only. -/
def searchOp (s : State) (value : Int) : State × Option ListCell × List ListCell :=
  (s, searchGo value s.cells [])

/-- The values stored in the list, head to tail. -/
def valuesOf (s : State) : List Int := s.cells.map ListCell.value

/-- Well-formedness of a list state, as maintained by the operations: the
`tail` pointer points at the last reachable node, `size` counts the nodes,
and node ids are pairwise distinct (the allocator never reuses ids). -/
def WF (s : State) : Prop :=
  s.tailc = s.cells.getLast? ∧ s.size = (s.cells.length : Int) ∧
    (s.cells.map ListCell.id).Nodup

instance decWF (s : State) : Decidable (WF s) := by
  unfold WF
  infer_instance

end LinkedList

/-! ## Stack and queue (`Stack.cpp`, `Queue.cpp`) — only their read-only
`search`/`contains` operations matter for the claims. -/

structure ArrCell where
  value : Int
  id : Nat
deriving DecidableEq, Repr

namespace Stack

/-- The private members of `class Stack`. -/
structure State where
  elements : List ArrCell
  nextNodeId : Nat
deriving DecidableEq, Repr

/-- `Stack::search`: walk from top (back) to bottom (front), appending visited
cells, returning the first match. -/
def searchGo (value : Int) : List ArrCell → List ArrCell → Option ArrCell × List ArrCell
  | [], path => (none, path)
  | c :: rest, path =>
      let path := path ++ [c]
      if c.value = value then (some c, path)
      else searchGo value rest path

/-- `Stack::search` at the class level: read-only (top-to-bottom = reverse of
the backing array). -/
def searchOp (s : State) (value : Int) : State × Option ArrCell × List ArrCell :=
  (s, searchGo value s.elements.reverse [])

end Stack

namespace Queue

/-- The private members of `class Queue`. -/
structure State where
  elements : List ArrCell
  nextNodeId : Nat
deriving DecidableEq, Repr

/-- `Queue::search`: walk from front (index 0) to rear. -/
def searchOp (s : State) (value : Int) : State × Option ArrCell × List ArrCell :=
  (s, Stack.searchGo value s.elements [])

end Queue

/-! # Theorems -/

/-! ## C9: search and contains are read-only -/

/-- C10: for every min-heap state and every integer index, `getNode(index)`
returns the cell stored at that array position when `0 <= index < size`, and
returns null for every index outside that range (negative or `>= size`),
without out-of-bounds access or mutation (the in-range branch is a pure
`List.get` at the checked position). -/
theorem C10_getNode_spec (h : List HeapCell) (index : Int) :
    (∀ (hge : 0 ≤ index) (hlt : index.toNat < h.length),
        MinHeap.getNode h index = some (h.get ⟨index.toNat, hlt⟩)) ∧
    ((index < 0 ∨ (h.length : Int) ≤ index) → MinHeap.getNode h index = none) := by
  constructor
  · intro hge hlt
    unfold MinHeap.getNode
    rw [if_pos ⟨hge, by omega⟩]
    exact List.get?_eq_get hlt
  · intro hcase
    unfold MinHeap.getNode
    rw [if_neg]
    intro ⟨h1, h2⟩
    omega

/-- Witness for C10 at a concrete heap and concrete in-range, negative and
too-large indices. -/
theorem C10_getNode_spec_witness :
    MinHeap.getNode [⟨5, 0⟩, ⟨7, 1⟩] 1 = some ⟨7, 1⟩ ∧
    MinHeap.getNode [⟨5, 0⟩, ⟨7, 1⟩] (-3) = none ∧
    MinHeap.getNode [⟨5, 0⟩, ⟨7, 1⟩] 2 = none :=
  ⟨(C10_getNode_spec [⟨5, 0⟩, ⟨7, 1⟩] 1).1 (by decide) (by decide),
   (C10_getNode_spec [⟨5, 0⟩, ⟨7, 1⟩] (-3)).2 (Or.inl (by decide)),
   (C10_getNode_spec [⟨5, 0⟩, ⟨7, 1⟩] 2).2 (Or.inr (by decide))⟩

/-! ## Heap basics: swaps and the sift-up loop -/

namespace MinHeap

theorem length_swapAt (h : List HeapCell) (i j : Nat) :
    (swapAt h i j).length = h.length := by
  simp [swapAt]

theorem valAt_swapAt_fst (h : List HeapCell) (i j : Nat)
    (hi : i < h.length) (hj : j < h.length) :
    valAt (swapAt h i j) j = valAt h i := by
  unfold valAt swapAt
  simp [List.getD_eq_getElem?_getD, List.getElem?_set, hi, hj,
    List.getElem?_eq_getElem]

theorem valAt_swapAt_snd (h : List HeapCell) (i j : Nat)
    (hi : i < h.length) (hj : j < h.length) (hne : i ≠ j) :
    valAt (swapAt h i j) i = valAt h j := by
  unfold valAt swapAt
  simp [List.getD_eq_getElem?_getD, List.getElem?_set, hi, hj,
    List.getElem?_eq_getElem, hne, Ne.symm hne]

theorem valAt_swapAt_other (h : List HeapCell) (i j k : Nat)
    (hki : k ≠ i) (hkj : k ≠ j) :
    valAt (swapAt h i j) k = valAt h k := by
  unfold valAt swapAt
  simp [List.getD_eq_getElem?_getD, List.getElem?_set, Ne.symm hki, Ne.symm hkj]

theorem parentIdx_lt (i : Nat) (hi : 0 < i) : parentIdx i < i := by
  unfold parentIdx
  omega

theorem siftUpF_length (fuel : Nat) :
    ∀ (h : List HeapCell) (c : Nat) (tr : List Nat),
      (siftUpF fuel h c tr).1.length = h.length := by
  induction fuel with
  | zero => intro h c tr; rfl
  | succ fuel ih =>
      intro h c tr
      unfold siftUpF
      split
      · rw [ih]; exact length_swapAt h c (parentIdx c)
      · rfl

/-- Main sift-up loop invariant: the moved value stays `v`, the trace grows
with parent steps, its last entry is the current index, and (with enough
fuel) the loop exits only when the root is reached or the parent is not
greater. -/
theorem siftUpF_spec (v : Int) (fuel : Nat) : ∀ (h : List HeapCell) (c : Nat) (tr : List Nat),
    c < h.length → valAt h c = v → tr.getLast? = some c → c ≤ fuel →
    ((siftUpF fuel h c tr).2.2).getLast? = some (siftUpF fuel h c tr).2.1 ∧
    valAt (siftUpF fuel h c tr).1 (siftUpF fuel h c tr).2.1 = v ∧
    (siftUpF fuel h c tr).2.1 < h.length ∧
    ((siftUpF fuel h c tr).2.2).head? = tr.head? ∧
    (List.Chain' (fun a b => b = parentIdx a ∧ b < a) tr →
      List.Chain' (fun a b => b = parentIdx a ∧ b < a) ((siftUpF fuel h c tr).2.2)) ∧
    ((siftUpF fuel h c tr).2.1 = 0 ∨
      valAt (siftUpF fuel h c tr).1 (parentIdx (siftUpF fuel h c tr).2.1) ≤
        valAt (siftUpF fuel h c tr).1 (siftUpF fuel h c tr).2.1) := by
  induction fuel with
  | zero =>
      intro h c tr hc hv hlast hfuel
      have hc0 : c = 0 := Nat.le_zero.mp hfuel
      subst hc0
      exact ⟨hlast, hv, hc, rfl, fun hch => hch, Or.inl rfl⟩
  | succ fuel ih =>
      intro h c tr hc hv hlast hfuel
      unfold siftUpF
      by_cases hcond : 0 < c ∧ valAt h c < valAt h (parentIdx c)
      · rw [if_pos hcond]
        have hplt : parentIdx c < c := parentIdx_lt c hcond.1
        have hp : parentIdx c < h.length := lt_trans hplt hc
        have hlen : (swapAt h c (parentIdx c)).length = h.length :=
          length_swapAt h c (parentIdx c)
        have h1 : parentIdx c < (swapAt h c (parentIdx c)).length := by rw [hlen]; exact hp
        have h2 : valAt (swapAt h c (parentIdx c)) (parentIdx c) = v := by
          rw [valAt_swapAt_fst h c (parentIdx c) hc hp]; exact hv
        have h3 : (tr ++ [parentIdx c]).getLast? = some (parentIdx c) := by
          simp
        have h4 : parentIdx c ≤ fuel := by omega
        have := ih (swapAt h c (parentIdx c)) (parentIdx c) (tr ++ [parentIdx c]) h1 h2 h3 h4
        refine ⟨this.1, this.2.1, ?_, ?_, ?_, this.2.2.2.2.2⟩
        · rw [← hlen]; exact this.2.2.1
        · rw [this.2.2.2.1]
          cases tr with
          | nil => simp at hlast
          | cons a l => simp
        · intro hch
          refine this.2.2.2.2.1 ?_
          have : List.Chain' (fun a b => b = parentIdx a ∧ b < a) (tr ++ [parentIdx c]) := by
            apply List.Chain'.append hch (List.chain'_singleton _)
            intro x hx y hy
            rw [hlast] at hx
            simp at hx hy
            subst hx; subst hy
            exact ⟨rfl, hplt⟩
          exact this
      · rw [if_neg hcond]
        refine ⟨hlast, hv, hc, rfl, fun hch => hch, ?_⟩
        by_cases hc0 : c = 0
        · exact Or.inl hc0
        · right
          push_neg at hcond
          exact hcond (Nat.pos_of_ne_zero hc0)

end MinHeap

/-! ## C7: the heap insert trace -/

/-- C7: for every min-heap state and inserted value `v`, the trace of
`insert(v)` begins with the index at which `v` was appended (the old size),
each subsequent entry is the destination index of a sift-up swap (the parent
of the previous entry, strictly above it), and the final trace entry is
either index 0 or an index whose parent's value (in the final heap) is `≤ v`
(the inserted value sits at the final trace entry). -/
theorem C7_insert_trace (h : List HeapCell) (nid : Nat) (v : Int) :
    (MinHeap.insert h nid v []).2.2.head? = some h.length ∧
    List.Chain' (fun a b => b = MinHeap.parentIdx a ∧ b < a)
      (MinHeap.insert h nid v []).2.2 ∧
    ∃ (last : Nat), ((MinHeap.insert h nid v []).2.2).getLast? = some last ∧
      MinHeap.valAt (MinHeap.insert h nid v []).1 last = v ∧
      (last = 0 ∨
        MinHeap.valAt (MinHeap.insert h nid v []).1 (MinHeap.parentIdx last) ≤ v) := by
  unfold MinHeap.insert
  simp only [List.length_append, List.length_singleton, Nat.add_sub_cancel,
    List.nil_append]
  have hc : h.length < (h ++ [(⟨v, nid⟩ : HeapCell)]).length := by simp
  have hv : MinHeap.valAt (h ++ [(⟨v, nid⟩ : HeapCell)]) h.length = v := by
    unfold MinHeap.valAt
    rw [List.getD_eq_getElem?_getD, List.getElem?_append_right (le_refl _)]
    simp
  have hspec := MinHeap.siftUpF_spec v h.length (h ++ [(⟨v, nid⟩ : HeapCell)])
    h.length [h.length] hc hv (by simp) (le_refl _)
  refine ⟨?_, ?_, ?_⟩
  · simp only [hspec.2.2.2.1]
    rfl
  · exact hspec.2.2.2.2.1 (List.chain'_singleton _)
  · refine ⟨_, hspec.1, hspec.2.1, ?_⟩
    rcases hspec.2.2.2.2.2 with h0 | hle
    · exact Or.inl h0
    · exact Or.inr (le_of_le_of_eq hle hspec.2.1)

/-! ## C8: linked-list remove -/

namespace LinkedList

/-- The `prev`/`current` loop of `remove` when no node in `rest` matches:
nothing is removed, every visited node is appended to the path. -/
theorem removeGo_notFound (value : Int) (tailc : Option ListCell) :
    ∀ (rest : List ListCell) (prev : ListCell) (path : List ListCell),
      (∀ c ∈ rest, c.value ≠ value) →
      removeGo value tailc prev rest path = (rest, tailc, false, path ++ rest, none) := by
  intro rest
  induction rest with
  | nil => intro prev path _; simp [removeGo]
  | cons c rest2 ih =>
      intro prev path hno
      have hc : c.value ≠ value := hno c (List.mem_cons_self c rest2)
      unfold removeGo
      rw [if_neg hc, ih c (path ++ [c]) (fun x hx => hno x (List.mem_cons_of_mem c hx))]
      simp

/-- The `prev`/`current` loop of `remove` when some node in `rest` matches:
the first matching node (at `findIdx`) is unlinked, the path records the
visited prefix, and the tail pointer ends up at the last node of the
resulting chain `prev :: rest'`. -/
theorem removeGo_found (value : Int) :
    ∀ (rest : List ListCell) (tailc : Option ListCell) (prev : ListCell)
      (path : List ListCell),
      tailc = (prev :: rest).getLast? →
      ((prev :: rest).map ListCell.id).Nodup →
      ∀ c0 ∈ rest, c0.value = value →
      rest.findIdx (fun c => c.value = value) < rest.length ∧
        removeGo value tailc prev rest path =
          (rest.eraseIdx (rest.findIdx (fun c => c.value = value)),
           (prev :: rest.eraseIdx (rest.findIdx (fun c => c.value = value))).getLast?,
           true,
           path ++ rest.take (rest.findIdx (fun c => c.value = value) + 1),
           rest.get? (rest.findIdx (fun c => c.value = value))) := by
  intro rest
  induction rest with
  | nil => intro _ _ _ _ _ c0 hc0 _; exact absurd hc0 (List.not_mem_nil c0)
  | cons c rest2 ih =>
      intro tailc prev path htail hnodup c0 hc0 hval
      by_cases hc : c.value = value
      · have hidx : (c :: rest2).findIdx (fun x => x.value = value) = 0 := by
          simp [List.findIdx_cons, hc]
        rw [hidx]
        refine ⟨by simp, ?_⟩
        unfold removeGo
        rw [if_pos hc]
        simp only [List.eraseIdx_zero, List.tail_cons, List.take_succ_cons,
          List.take_zero]
        rcases rest2 with _ | ⟨b, rest3⟩
        · have htl : tailc = some c := by rw [htail]; rfl
          rw [if_pos htl]
          rfl
        · have hbne : (b :: rest3) ≠ ([] : List ListCell) := by simp
          have htl : tailc = some ((b :: rest3).getLast hbne) := by
            rw [htail, List.getLast?_cons_cons, List.getLast?_cons_cons,
              List.getLast?_eq_getLast _ hbne]
          have hcne : (b :: rest3).getLast hbne ≠ c := by
            intro hEq
            have hmem : c.id ∈ ((b :: rest3).map ListCell.id) := by
              rw [← hEq]
              exact List.mem_map_of_mem ListCell.id (List.getLast_mem hbne)
            have hnd := hnodup
            rw [List.map_cons, List.map_cons, List.nodup_cons, List.nodup_cons] at hnd
            exact hnd.2.1 hmem
          rw [if_neg (by rw [htl]; intro hEq; exact hcne (Option.some.inj hEq))]
          rw [htl, List.getLast?_cons_cons, List.getLast?_eq_getLast _ hbne]
          rfl
      · have hidx : (c :: rest2).findIdx (fun x => x.value = value) =
            rest2.findIdx (fun x => x.value = value) + 1 := by
          simp [List.findIdx_cons, hc]
        have hc0' : c0 ∈ rest2 := by
          rcases List.mem_cons.mp hc0 with rfl | h
          · exact absurd hval hc
          · exact h
        have htail2 : tailc = (c :: rest2).getLast? := by
          rw [htail, List.getLast?_cons_cons]
        have hnodup2 : ((c :: rest2).map ListCell.id).Nodup := by
          rw [List.map_cons, List.nodup_cons] at hnodup
          exact hnodup.2
        obtain ⟨hi2, heq⟩ := ih tailc c (path ++ [c]) htail2 hnodup2 c0 hc0' hval
        rw [hidx]
        refine ⟨by simpa using Nat.succ_lt_succ hi2, ?_⟩
        unfold removeGo
        rw [if_neg hc, heq]
        simp only [List.eraseIdx_cons_succ, List.take_succ_cons, List.get?_cons_succ,
          Prod.mk.injEq, List.getLast?_cons_cons, List.append_assoc,
          List.singleton_append]

/-- C8: for every linked list and value `v` present in the list (with the
list state well-formed: tail points at the last node, size counts the nodes,
node ids distinct), `remove(v)` detaches exactly the first node from the head
whose value equals `v` (handing it back through `deletedNode` with result
`true`), the trace is exactly the nodes visited from the head up to and
including that node, the remaining chain is the original with that one node
removed, the tail pointer again points at the last remaining node (so it is
updated when the removed node was the tail, and becomes null together with
the head when the list empties), size drops by one, and the id counter is
unchanged.  The final conjunct is the concrete scenario: on the list
`10 -> 20 -> 30`, `remove(10)` returns the old head, the new head holds `20`,
size becomes 2, and the trace is exactly `[node(10)]`. -/
theorem C8_list_remove (s : State) (v : Int) (hwf : WF s)
    (hmem : ∃ c ∈ s.cells, c.value = v) :
    s.cells.findIdx (fun c => c.value = v) < s.cells.length ∧
    (removeV s v).2.1 = true ∧
    (removeV s v).2.2.2 = s.cells.get? (s.cells.findIdx (fun c => c.value = v)) ∧
    (removeV s v).1.cells = s.cells.eraseIdx (s.cells.findIdx (fun c => c.value = v)) ∧
    (removeV s v).2.2.1 = s.cells.take (s.cells.findIdx (fun c => c.value = v) + 1) ∧
    (removeV s v).1.tailc =
      (s.cells.eraseIdx (s.cells.findIdx (fun c => c.value = v))).getLast? ∧
    (removeV s v).1.size = s.size - 1 ∧
    (removeV s v).1.nextNodeId = s.nextNodeId ∧
    (removeV { cells := [⟨10, 0⟩, ⟨20, 1⟩, ⟨30, 2⟩], tailc := some ⟨30, 2⟩,
               nextNodeId := 3, size := 3 } 10 =
      ({ cells := [⟨20, 1⟩, ⟨30, 2⟩], tailc := some ⟨30, 2⟩,
         nextNodeId := 3, size := 2 }, true, [⟨10, 0⟩], some ⟨10, 0⟩)) := by
  obtain ⟨c0, hc0, hval⟩ := hmem
  obtain ⟨cells, tailc, nid, size⟩ := s
  obtain ⟨htail, hsize, hnodup⟩ := hwf
  simp only at htail hsize hnodup hc0 ⊢
  match cells, hc0 with
  | hd :: rest, hc0 =>
      by_cases hhd : hd.value = v
      · have hidx : (hd :: rest).findIdx (fun c => c.value = v) = 0 := by
          simp [List.findIdx_cons, hhd]
        rw [hidx]
        refine ⟨by simp, ?_⟩
        have htailgoal : (if rest = [] then none else tailc) = rest.getLast? := by
          rcases rest with _ | ⟨b, rest2⟩
          · simp
          · rw [if_neg (by simp), htail, List.getLast?_cons_cons]
        unfold removeV
        dsimp only
        rw [if_pos hhd]
        exact ⟨rfl, rfl, rfl, rfl, htailgoal, rfl, rfl, by decide⟩
      · have hc0' : c0 ∈ rest := by
          rcases List.mem_cons.mp hc0 with rfl | h
          · exact absurd hval hhd
          · exact h
        have hidx : (hd :: rest).findIdx (fun c => c.value = v) =
            rest.findIdx (fun c => c.value = v) + 1 := by
          simp [List.findIdx_cons, hhd]
        obtain ⟨hi2, heq⟩ := removeGo_found v rest tailc hd [hd]
          htail hnodup c0 hc0' hval
        rw [hidx]
        refine ⟨by simpa using Nat.succ_lt_succ hi2, ?_⟩
        unfold removeV
        dsimp only
        rw [if_neg hhd, heq]
        exact ⟨rfl, rfl, rfl, rfl, rfl, rfl, rfl, by decide⟩

/-- Witness for C8: the concrete removal of the middle and tail elements,
obtained by applying `C8_list_remove` at concrete inputs. -/
theorem C8_list_remove_witness :
    (removeV { cells := [⟨10, 0⟩, ⟨20, 1⟩, ⟨30, 2⟩], tailc := some ⟨30, 2⟩,
               nextNodeId := 3, size := 3 } 30).2.1 = true ∧
    (removeV { cells := [⟨10, 0⟩, ⟨20, 1⟩, ⟨30, 2⟩], tailc := some ⟨30, 2⟩,
               nextNodeId := 3, size := 3 } 30).1.tailc = some ⟨20, 1⟩ := by
  have h := C8_list_remove
    { cells := [⟨10, 0⟩, ⟨20, 1⟩, ⟨30, 2⟩], tailc := some ⟨30, 2⟩,
      nextNodeId := 3, size := 3 } 30 (by decide) ⟨⟨30, 2⟩, by decide, rfl⟩
  refine ⟨h.2.1, ?_⟩
  rw [h.2.2.2.2.2.1]
  decide

end LinkedList

/-! ## C4: which node is handed back as `deletedNode` -/

namespace BST

theorem searchHelper_fst_indep (v : Int) :
    ∀ (t : BNode) (p q : List Nat), (searchHelper t v p).1 = (searchHelper t v q).1 := by
  intro t
  induction t with
  | nil => intro p q; rfl
  | node v' l r id ihl ihr =>
      intro p q
      unfold searchHelper
      by_cases h1 : v < v'
      · rw [if_pos h1, if_pos h1]; exact ihl _ _
      · rw [if_neg h1, if_neg h1]
        by_cases h2 : v' < v
        · rw [if_pos h2, if_pos h2]; exact ihr _ _
        · rw [if_neg h2, if_neg h2]

/-- In `BST::deleteHelper` the `deletedNode` out-parameter ends up holding the
node at which the descent finds the value (the node whose `value` field is
overwritten in the two-children case), or keeps its incoming value if the
value is absent; the temporary references of the inner recursive delete never
leak out. -/
theorem deleteHelper_deletedNode (v : Int) :
    ∀ (t : BNode) (s0 : Bool) (p0 : List Nat) (d0 succ0 : Option Nat),
      (deleteHelper t v s0 p0 d0 succ0).deletedNode =
        (match findNode t v with
         | some n => some (nodeId n)
         | none => d0) := by
  intro t
  induction t with
  | nil => intro s0 p0 d0 succ0; rfl
  | node v' l r id ihl ihr =>
      intro s0 p0 d0 succ0
      unfold deleteHelper
      have hfind : findNode (BNode.node v' l r id) v =
          if v < v' then findNode l v else if v' < v then findNode r v
          else some (BNode.node v' l r id) := by
        unfold findNode
        simp only [searchHelper]
        by_cases h1 : v < v'
        · rw [if_pos h1, if_pos h1]; exact searchHelper_fst_indep v l _ _
        · rw [if_neg h1, if_neg h1]
          by_cases h2 : v' < v
          · rw [if_pos h2, if_pos h2]; exact searchHelper_fst_indep v r _ _
          · rw [if_neg h2, if_neg h2]
      by_cases h1 : v < v'
      · rw [if_pos h1]
        rw [hfind, if_pos h1]
        exact ihl _ _ _ _
      · rw [if_neg h1, hfind, if_neg h1]
        by_cases h2 : v' < v
        · rw [if_pos h2, if_pos h2]
          exact ihr _ _ _ _
        · rw [if_neg h2, if_neg h2]
          match l with
          | BNode.nil => rfl
          | BNode.node lv ll lr lid =>
            match r with
            | BNode.nil => rfl
            | BNode.node rv rl rr rid => rfl

end BST

namespace AVL

theorem searchHelper_fst_indep_avl (v : Int) :
    ∀ (t : AVLNode) (p q : List Nat), (searchHelper t v p).1 = (searchHelper t v q).1 := by
  intro t
  induction t with
  | nil => intro p q; rfl
  | node v' l r h id ihl ihr =>
      intro p q
      unfold searchHelper
      by_cases h1 : v < v'
      · rw [if_pos h1, if_pos h1]; exact ihl _ _
      · rw [if_neg h1, if_neg h1]
        by_cases h2 : v' < v
        · rw [if_pos h2, if_pos h2]; exact ihr _ _
        · rw [if_neg h2, if_neg h2]

theorem findNode_node (v v' : Int) (l r : AVLNode) (h : Int) (id : Nat) :
    findNode (AVLNode.node v' l r h id) v =
      if v < v' then findNode l v else if v' < v then findNode r v
      else some (AVLNode.node v' l r h id) := by
  unfold findNode
  simp only [searchHelper]
  by_cases h1 : v < v'
  · rw [if_pos h1, if_pos h1]; exact searchHelper_fst_indep_avl v l _ _
  · rw [if_neg h1, if_neg h1]
    by_cases h2 : v' < v
    · rw [if_pos h2, if_pos h2]; exact searchHelper_fst_indep_avl v r _ _
    · rw [if_neg h2, if_neg h2]

theorem findMin_mem : ∀ (t : AVLNode), t ≠ AVLNode.nil →
    nodeValue (findMin t) ∈ valuesM t := by
  intro t
  induction t with
  | nil => intro h; exact absurd rfl h
  | node v l r h id ihl ihr =>
      intro _
      match l, ihl with
      | AVLNode.nil, _ =>
          unfold findMin nodeValue valuesM
          exact Multiset.mem_cons_self v _
      | AVLNode.node lv ll lr lh lid, ihl =>
          unfold findMin valuesM
          have := ihl (by intro hc; exact AVLNode.noConfusion hc)
          exact Multiset.mem_cons_of_mem (Multiset.mem_add.mpr (Or.inl this))

/-- Deleting the minimum value of an (ordered, non-empty) subtree sets
`deletedNode` to the minimum node itself. -/
theorem deleteHelper_findMin_deletedNode :
    ∀ (t : AVLNode), Ordered t → t ≠ AVLNode.nil →
      ∀ (s0 : Bool) (p0 : List Nat) (d0 : Option Nat) (rot : RotationType)
        (evs : List RotationType),
        (deleteHelper t (nodeValue (findMin t)) s0 p0 d0 rot evs).deletedNode =
          some (nodeId (findMin t)) := by
  intro t
  induction t with
  | nil => intro _ h; exact absurd rfl h
  | node v l r h id ihl ihr =>
      intro hord _ s0 p0 d0 rot evs
      match l, ihl with
      | AVLNode.nil, _ =>
          have hval : nodeValue (findMin (AVLNode.node v AVLNode.nil r h id)) = v := rfl
          have hmin : findMin (AVLNode.node v AVLNode.nil r h id) =
              AVLNode.node v AVLNode.nil r h id := rfl
          rw [hval, hmin]
          simp [deleteHelper, nodeId]
      | AVLNode.node lv ll lr lh lid, ihl =>
          have hlne : (AVLNode.node lv ll lr lh lid) ≠ AVLNode.nil := by
            intro hc; exact AVLNode.noConfusion hc
          have hmin : findMin (AVLNode.node v (AVLNode.node lv ll lr lh lid) r h id) =
              findMin (AVLNode.node lv ll lr lh lid) := rfl
          rw [hmin]
          have hmem := findMin_mem (AVLNode.node lv ll lr lh lid) hlne
          have hlt : nodeValue (findMin (AVLNode.node lv ll lr lh lid)) < v :=
            hord.1 _ hmem
          simp only [deleteHelper]
          rw [if_pos hlt]
          exact ihl hord.2.2.1 hlne s0 _ d0 rot evs

/-- When the AVL delete finds a node with two children, the shared
`deletedNode` reference is overwritten by the inner recursive delete and ends
up holding the in-order successor (the physically unlinked node). -/
theorem deleteHelper_twoChildren_deletedNode (v : Int) :
    ∀ (t : AVLNode), Ordered t →
      ∀ (n : AVLNode), findNode t v = some n →
        leftOf n ≠ AVLNode.nil → rightOf n ≠ AVLNode.nil →
        ∀ (s0 : Bool) (p0 : List Nat) (d0 : Option Nat) (rot : RotationType)
          (evs : List RotationType),
          (deleteHelper t v s0 p0 d0 rot evs).deletedNode =
            some (nodeId (findMin (rightOf n))) := by
  intro t
  induction t with
  | nil => intro _ n hfind; exact absurd hfind (by unfold findNode searchHelper; simp)
  | node v' l r h id ihl ihr =>
      intro hord n hfind hnl hnr s0 p0 d0 rot evs
      rw [findNode_node] at hfind
      simp only [deleteHelper]
      by_cases h1 : v < v'
      · rw [if_pos h1] at hfind ⊢
        exact ihl hord.2.2.1 n hfind hnl hnr _ _ _ _ _
      · rw [if_neg h1] at hfind ⊢
        by_cases h2 : v' < v
        · rw [if_pos h2] at hfind ⊢
          exact ihr hord.2.2.2 n hfind hnl hnr _ _ _ _ _
        · rw [if_neg h2] at hfind ⊢
          have hn : n = AVLNode.node v' l r h id := (Option.some.inj hfind).symm
          subst hn
          have hl : l ≠ AVLNode.nil := hnl
          have hr : r ≠ AVLNode.nil := hnr
          rw [if_neg (by
            intro hc
            rcases hc with hc | hc
            · exact hl hc
            · exact hr hc)]
          have hrord : Ordered r := hord.2.2.2
          exact deleteHelper_findMin_deletedNode r hrord hr _ _ _ _ _

end AVL

/-- C4 counterexample: on the reachable AVL tree built by inserting
`2, 1, 3` (node ids 0, 1, 2), removing the two-children root `2` hands back
`deletedNode = node 2` — the physically unlinked in-order successor node
(which held `3`) — while the node whose `value` field was overwritten is the
root with id `0`; so the claim's "deletedNode is the overwritten node, not
the physically unlinked successor" is false for the AVL tree. -/
theorem C4_counterexample :
    (AVL.remove (AVL.runOps [AVL.Op.ins 2, AVL.Op.ins 1, AVL.Op.ins 3]) 2).2.2.2.1 =
      some 2 ∧
    (AVL.runOps [AVL.Op.ins 2, AVL.Op.ins 1, AVL.Op.ins 3]).root =
      AVLNode.node 2 (AVLNode.node 1 AVLNode.nil AVLNode.nil 1 1)
        (AVLNode.node 3 AVLNode.nil AVLNode.nil 1 2) 2 0 ∧
    (AVL.remove (AVL.runOps [AVL.Op.ins 2, AVL.Op.ins 1, AVL.Op.ins 3]) 2).1.root =
      AVLNode.node 3 (AVLNode.node 1 AVLNode.nil AVLNode.nil 1 1) AVLNode.nil 2 0 ∧
    (AVL.remove (AVL.runOps [AVL.Op.ins 2, AVL.Op.ins 1, AVL.Op.ins 3]) 2).2.2.2.1 ≠
      some 0 := by
  refine ⟨by decide, by decide, by decide, by decide⟩

/-- C4 (amended): when `remove(v)` deletes a node with two children, the BST
hands back the node whose `value` field was overwritten (the node where the
search for `v` ends) — in fact for every BST, `deletedNode` is exactly the
node the search finds, absent values leaving it untouched — while the AVL
tree hands back the physically unlinked in-order successor node instead,
because its inner recursive delete shares the `deletedNode` reference. -/
theorem C4_deletedNode_amended (sb : BST.State) (sa : AVL.State) (v : Int)
    (n : AVLNode) (hord : AVL.Ordered sa.root)
    (hfound : AVL.findNode sa.root v = some n)
    (hl : AVL.leftOf n ≠ AVLNode.nil) (hr : AVL.rightOf n ≠ AVLNode.nil) :
    (BST.remove sb v).2.2.2.1 = (BST.findNode sb.root v).map BST.nodeId ∧
    (AVL.remove sa v).2.2.2.1 = some (AVL.nodeId (AVL.findMin (AVL.rightOf n))) := by
  constructor
  · unfold BST.remove
    dsimp only
    rw [BST.deleteHelper_deletedNode]
    match BST.findNode sb.root v with
    | some m => rfl
    | none => rfl
  · unfold AVL.remove
    dsimp only
    exact AVL.deleteHelper_twoChildren_deletedNode v sa.root hord n hfound hl hr _ _ _ _ _

/-- Witness for C4 (amended) at the concrete BST and AVL trees holding
`{1, 2, 3}` with the two-children root `2` removed. -/
theorem C4_deletedNode_amended_witness :
    (BST.remove
        { root := BNode.node 2 (BNode.node 1 BNode.nil BNode.nil 1)
            (BNode.node 3 BNode.nil BNode.nil 2) 0,
          nextNodeId := 3 } 2).2.2.2.1 = some 0 ∧
    (AVL.remove
        { root := AVLNode.node 2 (AVLNode.node 1 AVLNode.nil AVLNode.nil 1 1)
            (AVLNode.node 3 AVLNode.nil AVLNode.nil 1 2) 2 0,
          nextNodeId := 3 } 2).2.2.2.1 = some 2 := by
  have h := C4_deletedNode_amended
    { root := BNode.node 2 (BNode.node 1 BNode.nil BNode.nil 1)
        (BNode.node 3 BNode.nil BNode.nil 2) 0,
      nextNodeId := 3 }
    { root := AVLNode.node 2 (AVLNode.node 1 AVLNode.nil AVLNode.nil 1 1)
        (AVLNode.node 3 AVLNode.nil AVLNode.nil 1 2) 2 0,
      nextNodeId := 3 }
    2
    (AVLNode.node 2 (AVLNode.node 1 AVLNode.nil AVLNode.nil 1 1)
      (AVLNode.node 3 AVLNode.nil AVLNode.nil 1 2) 2 0)
    (by decide) (by decide) (by decide) (by decide)
  refine ⟨?_, ?_⟩
  · rw [h.1]; decide
  · rw [h.2]; decide

/-! ## C3: which rotation the delete reports -/

namespace AVL

theorem getLastD_append (δ1 δ2 : List RotationType) (d : RotationType) :
    (δ1 ++ δ2).getLastD d = δ2.getLastD (δ1.getLastD d) := by
  rw [List.getLastD_eq_getLast?, List.getLastD_eq_getLast?, List.getLastD_eq_getLast?,
    List.getLast?_append]
  cases h2 : δ2.getLast? with
  | none => simp
  | some x => simp

/-- Each rebalancing step either appends exactly one rotation event (and
reports it) or appends none (keeping the incoming report). -/
theorem rebalanceDel_events (n : AVLNode) (rot : RotationType)
    (evs : List RotationType) :
    ∃ δ, (rebalanceDel n rot evs).2.2 = evs ++ δ ∧
      (rebalanceDel n rot evs).2.1 = δ.getLastD rot := by
  unfold rebalanceDel
  dsimp only
  by_cases c1 : getBalance (updateHeight n) > 1 ∧ 0 ≤ getBalance (leftOf (updateHeight n))
  · rw [if_pos c1]; exact ⟨[RotationType.RIGHT], rfl, rfl⟩
  rw [if_neg c1]
  by_cases c2 : getBalance (updateHeight n) > 1 ∧ getBalance (leftOf (updateHeight n)) < 0
  · rw [if_pos c2]; exact ⟨[RotationType.LEFT_RIGHT], rfl, rfl⟩
  rw [if_neg c2]
  by_cases c3 : getBalance (updateHeight n) < -1 ∧ getBalance (rightOf (updateHeight n)) ≤ 0
  · rw [if_pos c3]; exact ⟨[RotationType.LEFT], rfl, rfl⟩
  rw [if_neg c3]
  by_cases c4 : getBalance (updateHeight n) < -1 ∧ 0 < getBalance (rightOf (updateHeight n))
  · rw [if_pos c4]; exact ⟨[RotationType.RIGHT_LEFT], rfl, rfl⟩
  rw [if_neg c4]
  exact ⟨[], by simp, rfl⟩

/-- The `rotation` out-parameter of `deleteHelper` always ends as the LAST
rotation event triggered during the unwind (or as the incoming value when no
rotation is triggered); the event list only grows. -/
theorem deleteHelper_events :
    ∀ (t : AVLNode) (v : Int) (s0 : Bool) (p0 : List Nat) (d0 : Option Nat)
      (rot : RotationType) (evs : List RotationType),
      ∃ δ, (deleteHelper t v s0 p0 d0 rot evs).rotEvents = evs ++ δ ∧
        (deleteHelper t v s0 p0 d0 rot evs).rotation = δ.getLastD rot := by
  intro t
  induction t with
  | nil => exact fun v s0 p0 d0 rot evs => ⟨[], by simp [deleteHelper], rfl⟩
  | node v' l r h id ihl ihr =>
      intro v s0 p0 d0 rot evs
      simp only [deleteHelper]
      by_cases h1 : v < v'
      · rw [if_pos h1]
        obtain ⟨δ1, he1, hr1⟩ := ihl v s0 (p0 ++ [id]) d0 rot evs
        obtain ⟨δ2, he2, hr2⟩ := rebalanceDel_events
          (AVLNode.node v' (deleteHelper l v s0 (p0 ++ [id]) d0 rot evs).tree r h id)
          (deleteHelper l v s0 (p0 ++ [id]) d0 rot evs).rotation
          (deleteHelper l v s0 (p0 ++ [id]) d0 rot evs).rotEvents
        exact ⟨δ1 ++ δ2,
          by rw [he2, he1, List.append_assoc],
          by rw [hr2, hr1, getLastD_append]⟩
      · rw [if_neg h1]
        by_cases h2 : v' < v
        · rw [if_pos h2]
          obtain ⟨δ1, he1, hr1⟩ := ihr v s0 (p0 ++ [id]) d0 rot evs
          obtain ⟨δ2, he2, hr2⟩ := rebalanceDel_events
            (AVLNode.node v' l (deleteHelper r v s0 (p0 ++ [id]) d0 rot evs).tree h id)
            (deleteHelper r v s0 (p0 ++ [id]) d0 rot evs).rotation
            (deleteHelper r v s0 (p0 ++ [id]) d0 rot evs).rotEvents
          exact ⟨δ1 ++ δ2,
            by rw [he2, he1, List.append_assoc],
            by rw [hr2, hr1, getLastD_append]⟩
        · rw [if_neg h2]
          by_cases h3 : l = AVLNode.nil ∨ r = AVLNode.nil
          · rw [if_pos h3]
            exact ⟨[], by simp, rfl⟩
          · rw [if_neg h3]
            obtain ⟨δ1, he1, hr1⟩ :=
              ihr (nodeValue (findMin r)) s0 (p0 ++ [id]) (some id) rot evs
            obtain ⟨δ2, he2, hr2⟩ := rebalanceDel_events
              (AVLNode.node (nodeValue (findMin r)) l
                (deleteHelper r (nodeValue (findMin r)) s0 (p0 ++ [id]) (some id) rot evs).tree
                h id)
              (deleteHelper r (nodeValue (findMin r)) s0 (p0 ++ [id]) (some id) rot evs).rotation
              (deleteHelper r (nodeValue (findMin r)) s0 (p0 ++ [id]) (some id) rot evs).rotEvents
            exact ⟨δ1 ++ δ2,
              by rw [he2, he1, List.append_assoc],
              by rw [hr2, hr1, getLastD_append]⟩

end AVL

/-- C3 counterexample: insert `8, 5, 10, 3, 6, 9, 11, 2, 4, 7, 12, 1` into an
empty AVL tree (no rotation fires while building), then remove `9`.  The
unwind triggers a `LEFT` rotation at node `10` (close to the deletion point)
and then a `RIGHT` rotation at the root `8`, so the ghost event list is
`[LEFT, RIGHT]`; the classification reported to the caller is `RIGHT`, the
LAST one, not the first one (`LEFT`) as the claim states. -/
theorem C3_counterexample :
    (AVL.remove (AVL.runOps (List.map AVL.Op.ins
        [8, 5, 10, 3, 6, 9, 11, 2, 4, 7, 12, 1])) 9).2.2.2.2.2 =
      [RotationType.LEFT, RotationType.RIGHT] ∧
    (AVL.remove (AVL.runOps (List.map AVL.Op.ins
        [8, 5, 10, 3, 6, 9, 11, 2, 4, 7, 12, 1])) 9).2.2.2.2.1 =
      RotationType.RIGHT ∧
    RotationType.RIGHT ≠ RotationType.LEFT := by
  refine ⟨by decide, by decide, by decide⟩

/-- C3 (amended): when the rebalancing during the unwind of an AVL remove
performs rotations at more than one ancestor, the rotation classification
reported to the caller is the LAST rotation triggered on the return path (the
one furthest from the deletion point): the reported value always equals the
last entry of the (ghost) list of rotation events, and `NONE` when no
rotation was triggered. -/
theorem C3_rotation_reported_amended (s : AVL.State) (v : Int) :
    (AVL.remove s v).2.2.2.2.1 =
      ((AVL.remove s v).2.2.2.2.2).getLastD RotationType.NONE := by
  unfold AVL.remove
  dsimp only
  obtain ⟨δ, he, hr⟩ := AVL.deleteHelper_events s.root v true [] none
    RotationType.NONE []
  rw [hr, he]
  simp

/-! ## C5: duplicate insert -/

namespace BST

/-- Inserting a value already present in an ordered BST fails, changes
nothing (including the id counter), and extends the trace by the search path,
which ends at the existing node holding the value. -/
theorem insertHelper_dup :
    ∀ (t : BNode) (v : Int), Ordered t → v ∈ valuesM t →
      ∀ (s0 : Bool) (p0 : List Nat) (nid : Nat),
      ∃ (π : List Nat) (n : BNode), findNode t v = some n ∧ nodeValue n = v ∧
        π.getLast? = some (nodeId n) ∧
        insertHelper t v s0 p0 nid =
          { tree := t, success := false, path := p0 ++ π, nextId := nid } := by
  intro t
  induction t with
  | nil => intro v _ hmem; exact absurd hmem (Multiset.not_mem_zero v)
  | node v' l r id ihl ihr =>
      intro v hord hmem s0 p0 nid
      have hfind₀ : findNode (BNode.node v' l r id) v =
          if v < v' then findNode l v else if v' < v then findNode r v
          else some (BNode.node v' l r id) := by
        unfold findNode
        simp only [searchHelper]
        by_cases h1 : v < v'
        · rw [if_pos h1, if_pos h1]; exact searchHelper_fst_indep v l _ _
        · rw [if_neg h1, if_neg h1]
          by_cases h2 : v' < v
          · rw [if_pos h2, if_pos h2]; exact searchHelper_fst_indep v r _ _
          · rw [if_neg h2, if_neg h2]
      by_cases h1 : v < v'
      · have hmeml : v ∈ valuesM l := by
          unfold valuesM at hmem
          rcases Multiset.mem_cons.mp hmem with rfl | hm
          · exact absurd h1 (lt_irrefl v)
          · rcases Multiset.mem_add.mp hm with hm | hm
            · exact hm
            · exact absurd h1 (not_lt_of_gt (hord.2.1 v hm))
        obtain ⟨π, n, hfind, hval, hlast, heq⟩ := ihl v hord.2.2.1 hmeml s0 (p0 ++ [id]) nid
        refine ⟨id :: π, n, ?_, hval, ?_, ?_⟩
        · rw [hfind₀, if_pos h1]; exact hfind
        · have : (([id] : List Nat) ++ π).getLast? = some (nodeId n) := by
            rw [List.getLast?_append, hlast]; rfl
          simpa using this
        · simp only [insertHelper]
          rw [if_pos h1, heq]
          simp
      · by_cases h2 : v' < v
        · have hmemr : v ∈ valuesM r := by
            unfold valuesM at hmem
            rcases Multiset.mem_cons.mp hmem with rfl | hm
            · exact absurd h2 (lt_irrefl v)
            · rcases Multiset.mem_add.mp hm with hm | hm
              · exact absurd h2 (not_lt_of_gt (hord.1 v hm))
              · exact hm
          obtain ⟨π, n, hfind, hval, hlast, heq⟩ := ihr v hord.2.2.2 hmemr s0 (p0 ++ [id]) nid
          refine ⟨id :: π, n, ?_, hval, ?_, ?_⟩
          · rw [hfind₀, if_neg h1, if_pos h2]; exact hfind
          · have : (([id] : List Nat) ++ π).getLast? = some (nodeId n) := by
              rw [List.getLast?_append, hlast]; rfl
            simpa using this
          · simp only [insertHelper]
            rw [if_neg h1, if_pos h2, heq]
            simp
        · have hvv : v = v' := le_antisymm (not_lt.mp h2) (not_lt.mp h1)
          refine ⟨[id], BNode.node v' l r id, ?_, hvv.symm, rfl, ?_⟩
          · rw [hfind₀, if_neg h1, if_neg h2]
          · simp only [insertHelper]
            rw [if_neg h1, if_neg h2]

end BST

namespace AVL

theorem getHeight_eq (t : AVLNode) (hc : HeightsCorrect t) :
    getHeight t = realHeight t := by
  cases t with
  | nil => rfl
  | node v l r h id =>
      unfold getHeight realHeight
      exact hc.1

/-- When the recomputed balance stays within `[-1, 1]`, the insert-side
rebalancing only refreshes the height and triggers nothing. -/
theorem rebalanceIns_noop (n : AVLNode) (v : Int) (rot : RotationType)
    (evs : List RotationType)
    (h1 : getBalance (updateHeight n) ≤ 1) (h2 : -1 ≤ getBalance (updateHeight n)) :
    rebalanceIns n v rot evs = (updateHeight n, rot, evs) := by
  unfold rebalanceIns
  dsimp only
  rw [if_neg (fun hc => absurd hc.1 (by omega)),
    if_neg (fun hc => absurd hc.1 (by omega)),
    if_neg (fun hc => absurd hc.1 (by omega)),
    if_neg (fun hc => absurd hc.1 (by omega))]

/-- When the recomputed balance stays within `[-1, 1]`, the delete-side
rebalancing only refreshes the height and triggers nothing. -/
theorem rebalanceDel_noop (n : AVLNode) (rot : RotationType)
    (evs : List RotationType)
    (h1 : getBalance (updateHeight n) ≤ 1) (h2 : -1 ≤ getBalance (updateHeight n)) :
    rebalanceDel n rot evs = (updateHeight n, rot, evs) := by
  unfold rebalanceDel
  dsimp only
  rw [if_neg (fun hc => absurd hc.1 (by omega)),
    if_neg (fun hc => absurd hc.1 (by omega)),
    if_neg (fun hc => absurd hc.1 (by omega)),
    if_neg (fun hc => absurd hc.1 (by omega))]

/-- On a tree with correct cached heights, refreshing a node's height is a
no-op. -/
theorem updateHeight_self (v : Int) (l r : AVLNode) (h : Int) (id : Nat)
    (hc : HeightsCorrect (AVLNode.node v l r h id)) :
    updateHeight (AVLNode.node v l r h id) = AVLNode.node v l r h id := by
  simp only [updateHeight]
  rw [getHeight_eq l hc.2.1, getHeight_eq r hc.2.2]
  rw [← hc.1]

/-- Inserting a value already present in an ordered AVL tree with correct
heights and balances fails, changes nothing (tree, heights, id counter,
rotation report, events), and extends the trace by the search path, which
ends at the existing node holding the value. -/
theorem insertHelper_dup_avl :
    ∀ (t : AVLNode) (v : Int), Ordered t → HeightsCorrect t → BalancedCached t →
      v ∈ valuesM t →
      ∀ (s0 : Bool) (p0 : List Nat) (rot : RotationType) (evs : List RotationType)
        (nid : Nat),
      ∃ (π : List Nat) (n : AVLNode), findNode t v = some n ∧ nodeValue n = v ∧
        π.getLast? = some (nodeId n) ∧
        insertHelper t v s0 p0 rot evs nid =
          { tree := t, success := false, path := p0 ++ π, rotation := rot,
            rotEvents := evs, nextId := nid } := by
  intro t
  induction t with
  | nil => intro v _ _ _ hmem; exact absurd hmem (Multiset.not_mem_zero v)
  | node v' l r h id ihl ihr =>
      intro v hord hhc hbal hmem s0 p0 rot evs nid
      have hupd : updateHeight (AVLNode.node v' l r h id) = AVLNode.node v' l r h id :=
        updateHeight_self v' l r h id hhc
      have hb1 : getBalance (AVLNode.node v' l r h id) ≤ 1 := hbal.2.1
      have hb2 : -1 ≤ getBalance (AVLNode.node v' l r h id) := hbal.1
      by_cases h1 : v < v'
      · have hmeml : v ∈ valuesM l := by
          unfold valuesM at hmem
          rcases Multiset.mem_cons.mp hmem with rfl | hm
          · exact absurd h1 (lt_irrefl v)
          · rcases Multiset.mem_add.mp hm with hm | hm
            · exact hm
            · exact absurd h1 (not_lt_of_gt (hord.2.1 v hm))
        obtain ⟨π, n, hfind, hval, hlast, heq⟩ :=
          ihl v hord.2.2.1 hhc.2.1 hbal.2.2.1 hmeml s0 (p0 ++ [id]) rot evs nid
        refine ⟨id :: π, n, ?_, hval, ?_, ?_⟩
        · rw [findNode_node, if_pos h1]; exact hfind
        · have hg : (([id] : List Nat) ++ π).getLast? = some (nodeId n) := by
            rw [List.getLast?_append, hlast]; rfl
          simpa using hg
        · simp only [insertHelper]
          rw [if_pos h1, heq]
          dsimp only
          rw [rebalanceIns_noop _ _ _ _ (by rw [hupd]; exact hb1) (by rw [hupd]; exact hb2),
            hupd]
          simp
      · by_cases h2 : v' < v
        · have hmemr : v ∈ valuesM r := by
            unfold valuesM at hmem
            rcases Multiset.mem_cons.mp hmem with rfl | hm
            · exact absurd h2 (lt_irrefl v)
            · rcases Multiset.mem_add.mp hm with hm | hm
              · exact absurd h2 (not_lt_of_gt (hord.1 v hm))
              · exact hm
          obtain ⟨π, n, hfind, hval, hlast, heq⟩ :=
            ihr v hord.2.2.2 hhc.2.2 hbal.2.2.2 hmemr s0 (p0 ++ [id]) rot evs nid
          refine ⟨id :: π, n, ?_, hval, ?_, ?_⟩
          · rw [findNode_node, if_neg h1, if_pos h2]; exact hfind
          · have hg : (([id] : List Nat) ++ π).getLast? = some (nodeId n) := by
              rw [List.getLast?_append, hlast]; rfl
            simpa using hg
          · simp only [insertHelper]
            rw [if_neg h1, if_pos h2, heq]
            dsimp only
            rw [rebalanceIns_noop _ _ _ _ (by rw [hupd]; exact hb1) (by rw [hupd]; exact hb2),
              hupd]
            simp
        · have hvv : v = v' := le_antisymm (not_lt.mp h2) (not_lt.mp h1)
          refine ⟨[id], AVLNode.node v' l r h id, ?_, hvv.symm, rfl, ?_⟩
          · rw [findNode_node, if_neg h1, if_neg h2]
          · simp only [insertHelper]
            rw [if_neg h1, if_neg h2]

end AVL

/-- C5: for every ordered BST and every AVL tree with correct cached heights
and balances (as all reachable trees are), inserting a value `v` already
present returns `false`, leaves the tree — nodes, links, values, ids, cached
heights — and the id counter completely unchanged, the trace's last element
is the existing node holding `v` (the node where the search for `v` ends),
and for the AVL tree the reported rotation classification is `NONE` (and no
rotation event fires). -/
theorem C5_duplicate_insert (sb : BST.State) (sa : AVL.State) (v : Int)
    (hob : BST.Ordered sb.root) (hmb : v ∈ BST.valuesM sb.root)
    (hoa : AVL.Ordered sa.root) (hha : AVL.HeightsCorrect sa.root)
    (hba : AVL.BalancedCached sa.root) (hma : v ∈ AVL.valuesM sa.root) :
    (BST.insert sb v).2.1 = false ∧ (BST.insert sb v).1 = sb ∧
    (∃ n, BST.findNode sb.root v = some n ∧ BST.nodeValue n = v ∧
      ((BST.insert sb v).2.2).getLast? = some (BST.nodeId n)) ∧
    (AVL.insert sa v).2.1 = false ∧ (AVL.insert sa v).1 = sa ∧
    (∃ n, AVL.findNode sa.root v = some n ∧ AVL.nodeValue n = v ∧
      ((AVL.insert sa v).2.2.1).getLast? = some (AVL.nodeId n)) ∧
    (AVL.insert sa v).2.2.2.1 = RotationType.NONE ∧
    (AVL.insert sa v).2.2.2.2 = [] := by
  obtain ⟨πb, nb, hfb, hvb, hlb, heqb⟩ :=
    BST.insertHelper_dup sb.root v hob hmb true [] sb.nextNodeId
  obtain ⟨πa, na, hfa, hva, hla, heqa⟩ :=
    AVL.insertHelper_dup_avl sa.root v hoa hha hba hma true [] RotationType.NONE []
      sa.nextNodeId
  unfold BST.insert AVL.insert
  dsimp only
  rw [heqb, heqa]
  refine ⟨rfl, rfl, ⟨nb, hfb, hvb, by simpa using hlb⟩, rfl, rfl,
    ⟨na, hfa, hva, by simpa using hla⟩, rfl, rfl⟩

/-- Witness for C5 at the concrete BST `{50, 30}` (spec scenario 5) and the
AVL tree `{20, 30, 40}`, inserting the present value 30 into both. -/
theorem C5_duplicate_insert_witness :
    (BST.insert
        { root := BNode.node 50 (BNode.node 30 BNode.nil BNode.nil 1) BNode.nil 0,
          nextNodeId := 2 } 30).2.1 = false ∧
    (AVL.insert
        { root := AVLNode.node 30 (AVLNode.node 20 AVLNode.nil AVLNode.nil 1 1)
            (AVLNode.node 40 AVLNode.nil AVLNode.nil 1 2) 2 0,
          nextNodeId := 3 } 30).2.2.2.1 = RotationType.NONE := by
  have h := C5_duplicate_insert
    { root := BNode.node 50 (BNode.node 30 BNode.nil BNode.nil 1) BNode.nil 0,
      nextNodeId := 2 }
    { root := AVLNode.node 30 (AVLNode.node 20 AVLNode.nil AVLNode.nil 1 1)
        (AVLNode.node 40 AVLNode.nil AVLNode.nil 1 2) 2 0,
      nextNodeId := 3 }
    30 (by decide) (by decide) (by decide) (by decide) (by decide) (by decide)
  exact ⟨h.1, h.2.2.2.2.2.2.1⟩

/-! ## C2: heap invariant and sorted extraction -/

namespace MinHeap

theorem getD_cons_set_perm {α : Type} (d a : α) :
    ∀ (t : List α) (m : Nat), m < t.length →
      List.Perm (t.getD m d :: t.set m a) (a :: t) := by
  intro t
  induction t with
  | nil => intro m hm; simp at hm
  | cons b s ih =>
      intro m hm
      cases m with
      | zero =>
          simp only [List.getD_cons_zero, List.set_cons_zero]
          exact List.Perm.swap a b s
      | succ k =>
          have hk : k < s.length := by simpa using hm
          simp only [List.getD_cons_succ, List.set_cons_succ]
          exact ((List.Perm.swap b (s.getD k d) (s.set k a)).trans
            (List.Perm.cons b (ih k hk))).trans (List.Perm.swap a b s)

theorem set_set_perm {α : Type} (d : α) :
    ∀ (l : List α) (i j : Nat), i < l.length → j < l.length →
      List.Perm ((l.set i (l.getD j d)).set j (l.getD i d)) l := by
  intro l
  induction l with
  | nil => intro i j hi _; simp at hi
  | cons a t ih =>
      intro i j hi hj
      cases i with
      | zero =>
          cases j with
          | zero => simp
          | succ m =>
              have hm : m < t.length := by simpa using hj
              simp only [List.getD_cons_zero, List.getD_cons_succ,
                List.set_cons_zero, List.set_cons_succ]
              exact getD_cons_set_perm d a t m hm
      | succ n =>
          cases j with
          | zero =>
              have hn : n < t.length := by simpa using hi
              simp only [List.getD_cons_zero, List.getD_cons_succ,
                List.set_cons_zero, List.set_cons_succ]
              exact getD_cons_set_perm d a t n hn
          | succ m =>
              have hn : n < t.length := by simpa using hi
              have hm : m < t.length := by simpa using hj
              simp only [List.getD_cons_succ, List.set_cons_succ]
              exact List.Perm.cons a (ih n m hn hm)

theorem swapAt_perm (h : List HeapCell) (i j : Nat)
    (hi : i < h.length) (hj : j < h.length) :
    List.Perm (swapAt h i j) h := by
  unfold swapAt
  exact set_set_perm ⟨0, 0⟩ h i j hi hj

theorem siftUpF_perm (fuel : Nat) :
    ∀ (h : List HeapCell) (c : Nat) (tr : List Nat), c < h.length →
      List.Perm (siftUpF fuel h c tr).1 h := by
  induction fuel with
  | zero => intro h c tr _; exact List.Perm.refl h
  | succ fuel ih =>
      intro h c tr hc
      unfold siftUpF
      by_cases hcond : 0 < c ∧ valAt h c < valAt h (parentIdx c)
      · rw [if_pos hcond]
        have hp : parentIdx c < h.length := lt_trans (parentIdx_lt c hcond.1) hc
        have hlen : (swapAt h c (parentIdx c)).length = h.length :=
          length_swapAt h c (parentIdx c)
        exact (ih _ _ _ (by rw [hlen]; exact hp)).trans
          (swapAt_perm h c (parentIdx c) hc hp)
      · rw [if_neg hcond]

/-- The indices whose parent is `c` (other than `c` itself) are exactly the
two child slots. -/
theorem parentIdx_eq_iff (i c : Nat) (hne : i ≠ c) :
    parentIdx i = c ↔ (i = leftChild c ∨ i = rightChild c) := by
  unfold parentIdx leftChild rightChild
  omega

/-- What the child-selection step guarantees: either nothing is smaller, or
the selected index is an existing strictly-lower-valued child slot that is
no larger than every existing child of `current`. -/
theorem sdSelect_spec (h : List HeapCell) (c : Nat) :
    (sdSelect h c = c ∧
      (∀ i, i < h.length → parentIdx i = c → i ≠ c → valAt h c ≤ valAt h i)) ∨
    (sdSelect h c < h.length ∧ c < sdSelect h c ∧ parentIdx (sdSelect h c) = c ∧
      valAt h (sdSelect h c) < valAt h c ∧
      (∀ i, i < h.length → parentIdx i = c → i ≠ c →
        valAt h (sdSelect h c) ≤ valAt h i)) := by
  unfold sdSelect
  dsimp only
  by_cases hL : leftChild c < h.length ∧ valAt h (leftChild c) < valAt h c
  · rw [if_pos hL]
    by_cases hR : rightChild c < h.length ∧ valAt h (rightChild c) < valAt h (leftChild c)
    · rw [if_pos hR]
      right
      refine ⟨hR.1, by unfold rightChild; omega,
        by unfold parentIdx rightChild; omega, lt_trans hR.2 hL.2, ?_⟩
      intro i hilen hpar hine
      rcases (parentIdx_eq_iff i c hine).mp hpar with rfl | rfl
      · exact le_of_lt hR.2
      · exact le_refl _
    · rw [if_neg hR]
      right
      refine ⟨hL.1, by unfold leftChild; omega,
        by unfold parentIdx leftChild; omega, hL.2, ?_⟩
      intro i hilen hpar hine
      rcases (parentIdx_eq_iff i c hine).mp hpar with rfl | rfl
      · exact le_refl _
      · rcases not_and_or.mp hR with hcase | hcase
        · exact absurd hilen hcase
        · exact not_lt.mp hcase
  · rw [if_neg hL]
    by_cases hR : rightChild c < h.length ∧ valAt h (rightChild c) < valAt h c
    · rw [if_pos hR]
      right
      refine ⟨hR.1, by unfold rightChild; omega,
        by unfold parentIdx rightChild; omega, hR.2, ?_⟩
      intro i hilen hpar hine
      rcases (parentIdx_eq_iff i c hine).mp hpar with rfl | rfl
      · rcases not_and_or.mp hL with hcase | hcase
        · exact absurd hilen hcase
        · exact le_of_lt (lt_of_lt_of_le hR.2 (not_lt.mp hcase))
      · exact le_refl _
    · rw [if_neg hR]
      left
      refine ⟨rfl, ?_⟩
      intro i hilen hpar hine
      rcases (parentIdx_eq_iff i c hine).mp hpar with rfl | rfl
      · rcases not_and_or.mp hL with hcase | hcase
        · exact absurd hilen hcase
        · exact not_lt.mp hcase
      · rcases not_and_or.mp hR with hcase | hcase
        · exact absurd hilen hcase
        · exact not_lt.mp hcase

theorem siftDownF_length (fuel : Nat) :
    ∀ (h : List HeapCell) (c : Nat) (tr : List Nat),
      (siftDownF fuel h c tr).1.length = h.length := by
  induction fuel with
  | zero => intro h c tr; rfl
  | succ fuel ih =>
      intro h c tr
      unfold siftDownF
      dsimp only
      split
      · rw [ih]; exact length_swapAt _ _ _
      · rfl

theorem siftDownF_perm (fuel : Nat) :
    ∀ (h : List HeapCell) (c : Nat) (tr : List Nat),
      List.Perm (siftDownF fuel h c tr).1 h := by
  induction fuel with
  | zero => intro h c tr; exact List.Perm.refl h
  | succ fuel ih =>
      intro h c tr
      unfold siftDownF
      dsimp only
      by_cases hne : sdSelect h c ≠ c
      · rw [if_pos hne]
        rcases sdSelect_spec h c with ⟨heq, _⟩ | ⟨hlen, hgt, _, _, _⟩
        · exact absurd heq hne
        · have hc : c < h.length := lt_trans hgt hlen
          exact (ih _ _ _).trans (swapAt_perm h c (sdSelect h c) hc hlen)
      · rw [if_neg hne]

/-- The sift-up loop restores the heap order: if the heap is ordered except
possibly on the edge into `current`, and the element above `current`
dominates `current`'s children, then after sifting up (with enough fuel) the
whole array is heap-ordered. -/
theorem siftUpF_heapOrder (fuel : Nat) :
    ∀ (h : List HeapCell) (c : Nat) (tr : List Nat),
      c < h.length → c ≤ fuel →
      (∀ i, 0 < i → i < h.length → i ≠ c → valAt h (parentIdx i) ≤ valAt h i) →
      (∀ i, i < h.length → parentIdx i = c → i ≠ c → 0 < c →
        valAt h (parentIdx c) ≤ valAt h i) →
      HeapOrdered (siftUpF fuel h c tr).1 := by
  induction fuel with
  | zero =>
      intro h c tr hc hfuel H1 H2
      have hc0 : c = 0 := Nat.le_zero.mp hfuel
      subst hc0
      intro i hi hlen
      exact H1 i hi hlen (by omega)
  | succ fuel ih =>
      intro h c tr hc hfuel H1 H2
      unfold siftUpF
      by_cases hcond : 0 < c ∧ valAt h c < valAt h (parentIdx c)
      · rw [if_pos hcond]
        obtain ⟨hc0, hvlt⟩ := hcond
        have hplt : parentIdx c < c := parentIdx_lt c hc0
        have hp : parentIdx c < h.length := lt_trans hplt hc
        have hlen' : (swapAt h c (parentIdx c)).length = h.length :=
          length_swapAt h c (parentIdx c)
        have hvp : valAt (swapAt h c (parentIdx c)) (parentIdx c) = valAt h c :=
          valAt_swapAt_fst h c (parentIdx c) hc hp
        have hvc : valAt (swapAt h c (parentIdx c)) c = valAt h (parentIdx c) :=
          valAt_swapAt_snd h c (parentIdx c) hc hp (by omega)
        have hvo : ∀ k, k ≠ c → k ≠ parentIdx c →
            valAt (swapAt h c (parentIdx c)) k = valAt h k :=
          fun k hk1 hk2 => valAt_swapAt_other h c (parentIdx c) k hk1 hk2
        apply ih (swapAt h c (parentIdx c)) (parentIdx c) (tr ++ [parentIdx c])
          (by rw [hlen']; exact hp) (by omega)
        · -- every edge not into the new current (the parent slot) is ordered
          intro i hi hil hip
          rw [hlen'] at hil
          by_cases hic : i = c
          · subst hic
            rw [show parentIdx i = parentIdx i from rfl, hvp, hvc]
            exact le_of_lt hvlt
          · by_cases hpc : parentIdx i = c
            · have hci : c < i := hpc ▸ parentIdx_lt i hi
              rw [hvo i hic (by omega), hpc, hvc]
              exact H2 i hil hpc hic hc0
            · by_cases hpp : parentIdx i = parentIdx c
              · rw [hvo i hic hip, hpp, hvp]
                have hle := H1 i hi hil hic
                rw [hpp] at hle
                exact le_trans (le_of_lt hvlt) hle
              · rw [hvo i hic hip, hvo (parentIdx i) hpc hpp]
                exact H1 i hi hil hic
        · -- the grandparent dominates the children of the new current
          intro i hil hpi hinep hp0
          rw [hlen'] at hil
          have hppltp : parentIdx (parentIdx c) < parentIdx c := parentIdx_lt _ hp0
          have hgp : valAt (swapAt h c (parentIdx c)) (parentIdx (parentIdx c)) =
              valAt h (parentIdx (parentIdx c)) := hvo _ (by omega) (by omega)
          have hgpp : valAt h (parentIdx (parentIdx c)) ≤ valAt h (parentIdx c) :=
            H1 (parentIdx c) hp0 hp (by omega)
          by_cases hic : i = c
          · subst hic
            rw [hgp, hvc]
            exact hgpp
          · rw [hgp, hvo i hic hinep]
            have hi0 : 0 < i := by
              rcases Nat.eq_zero_or_pos i with rfl | hpos
              · exfalso
                have : parentIdx 0 = 0 := rfl
                omega
              · exact hpos
            have hle := H1 i hi0 hil hic
            rw [hpi] at hle
            exact le_trans hgpp hle
      · rw [if_neg hcond]
        intro i hi hil
        by_cases hic : i = c
        · subst hic
          push_neg at hcond
          exact hcond hi
        · exact H1 i hi hil hic

/-- The sift-down loop invariant: starting from a heap ordered except on the
edges incident to `current` (with `current`'s children dominated by the
element above `current`), the loop ends ordered except possibly on the edge
into the final position, whose children are dominated from above; when the
edge into the initial `current` was also ordered, the final state is fully
heap-ordered.  The final position never moves below `current` or out of the
array. -/
theorem siftDownF_spec (fuel : Nat) :
    ∀ (h : List HeapCell) (c : Nat) (tr : List Nat),
      h.length ≤ fuel + c →
      (∀ i, 0 < i → i < h.length → i ≠ c → parentIdx i ≠ c →
        valAt h (parentIdx i) ≤ valAt h i) →
      (∀ i, i < h.length → parentIdx i = c → i ≠ c → 0 < c →
        valAt h (parentIdx c) ≤ valAt h i) →
      (∀ i, 0 < i → i < (siftDownF fuel h c tr).1.length →
        i ≠ (siftDownF fuel h c tr).2.1 →
        valAt (siftDownF fuel h c tr).1 (parentIdx i) ≤
          valAt (siftDownF fuel h c tr).1 i) ∧
      (∀ i, i < (siftDownF fuel h c tr).1.length →
        parentIdx i = (siftDownF fuel h c tr).2.1 →
        i ≠ (siftDownF fuel h c tr).2.1 → 0 < (siftDownF fuel h c tr).2.1 →
        valAt (siftDownF fuel h c tr).1 (parentIdx ((siftDownF fuel h c tr).2.1)) ≤
          valAt (siftDownF fuel h c tr).1 i) ∧
      ((0 < c → valAt h (parentIdx c) ≤ valAt h c) →
        HeapOrdered (siftDownF fuel h c tr).1) ∧
      ((siftDownF fuel h c tr).2.1 = c ∨
        (c < (siftDownF fuel h c tr).2.1 ∧ (siftDownF fuel h c tr).2.1 < h.length)) := by
  induction fuel with
  | zero =>
      intro h c tr hfuel D1 D2
      simp only [siftDownF]
      refine ⟨?_, ?_, ?_, by simp⟩
      · intro i hi hil hine
        apply D1 i hi hil hine
        have := parentIdx_lt i hi
        omega
      · intro i hil hpi hine hc0
        exact D2 i hil hpi hine hc0
      · intro _ i hi hil
        have hic : i ≠ c := by omega
        apply D1 i hi hil hic
        have := parentIdx_lt i hi
        omega
  | succ fuel ih =>
      intro h c tr hfuel D1 D2
      unfold siftDownF
      dsimp only
      rcases sdSelect_spec h c with ⟨heq, hch⟩ | ⟨hslen, hcs, hpar, hval, hch⟩
      · rw [if_neg (by simp [heq])]
        refine ⟨?_, ?_, ?_, Or.inl rfl⟩
        · intro i hi hil hine
          by_cases hpc : parentIdx i = c
          · rw [hpc]; exact hch i hil hpc hine
          · exact D1 i hi hil hine hpc
        · intro i hil hpi hine hc0
          exact D2 i hil hpi hine hc0
        · intro hD3 i hi hil
          by_cases hic : i = c
          · subst hic
            exact hD3 hi
          · by_cases hpc : parentIdx i = c
            · rw [hpc]; exact hch i hil hpc hic
            · exact D1 i hi hil hic hpc
      · have hne : sdSelect h c ≠ c := by omega
        rw [if_pos hne]
        have hc : c < h.length := lt_trans hcs hslen
        have hlen' : (swapAt h c (sdSelect h c)).length = h.length :=
          length_swapAt h c (sdSelect h c)
        have hvs : valAt (swapAt h c (sdSelect h c)) (sdSelect h c) = valAt h c :=
          valAt_swapAt_fst h c (sdSelect h c) hc hslen
        have hvc : valAt (swapAt h c (sdSelect h c)) c = valAt h (sdSelect h c) :=
          valAt_swapAt_snd h c (sdSelect h c) hc hslen (by omega)
        have hvo : ∀ k, k ≠ c → k ≠ sdSelect h c →
            valAt (swapAt h c (sdSelect h c)) k = valAt h k :=
          fun k hk1 hk2 => valAt_swapAt_other h c (sdSelect h c) k hk1 hk2
        have D1' : ∀ i, 0 < i → i < (swapAt h c (sdSelect h c)).length →
            i ≠ sdSelect h c → parentIdx i ≠ sdSelect h c →
            valAt (swapAt h c (sdSelect h c)) (parentIdx i) ≤
              valAt (swapAt h c (sdSelect h c)) i := by
          intro i hi hil his hpis
          rw [hlen'] at hil
          by_cases hic : i = c
          · have hc0 : 0 < c := hic ▸ hi
            have hplt : parentIdx c < c := parentIdx_lt c hc0
            rw [hic, hvo (parentIdx c) (by omega) (by omega), hvc]
            exact D2 (sdSelect h c) hslen hpar (by omega) hc0
          · by_cases hpc : parentIdx i = c
            · rw [hvo i hic his, hpc, hvc]
              exact hch i hil hpc hic
            · rw [hvo i hic his, hvo (parentIdx i) hpc hpis]
              exact D1 i hi hil hic hpc
        have D2' : ∀ i, i < (swapAt h c (sdSelect h c)).length →
            parentIdx i = sdSelect h c → i ≠ sdSelect h c → 0 < sdSelect h c →
            valAt (swapAt h c (sdSelect h c)) (parentIdx (sdSelect h c)) ≤
              valAt (swapAt h c (sdSelect h c)) i := by
          intro i hil hpi his hs0
          rw [hlen'] at hil
          have hi0 : 0 < i := by
            rcases Nat.eq_zero_or_pos i with rfl | hpos
            · exfalso
              have : parentIdx 0 = 0 := rfl
              omega
            · exact hpos
          have hsi : sdSelect h c < i := hpi ▸ parentIdx_lt i hi0
          rw [hpar, hvc, hvo i (by omega) his]
          have hle := D1 i hi0 hil (by omega) (by rw [hpi]; omega)
          rw [hpi] at hle
          exact hle
        have hfuel' : (swapAt h c (sdSelect h c)).length ≤ fuel + sdSelect h c := by
          rw [hlen']; omega
        obtain ⟨A, B, C, D⟩ := ih (swapAt h c (sdSelect h c)) (sdSelect h c)
          (tr ++ [sdSelect h c]) hfuel' D1' D2'
        refine ⟨A, B, ?_, ?_⟩
        · intro _
          apply C
          intro hs0
          rw [hpar, hvc, hvs]
          exact le_of_lt hval
        · rcases D with hD | ⟨hD1, hD2⟩
          · exact Or.inr ⟨by omega, by rw [hD]; exact hslen⟩
          · rw [hlen'] at hD2
            exact Or.inr ⟨by omega, hD2⟩

theorem valAt_append_lt (h : List HeapCell) (x : HeapCell) (i : Nat)
    (hi : i < h.length) : valAt (h ++ [x]) i = valAt h i := by
  unfold valAt
  rw [List.getD_eq_getElem?_getD, List.getD_eq_getElem?_getD,
    List.getElem?_append_left hi]

theorem valAt_dropLast_set (h : List HeapCell) (x : HeapCell) (j k : Nat)
    (hkj : k ≠ j) (hk : k < h.length - 1) :
    valAt ((h.set j x).dropLast) k = valAt h k := by
  unfold valAt
  have hk1 : k < ((h.set j x).dropLast).length := by
    simp only [List.length_dropLast, List.length_set]
    omega
  have hk2 : k < (h.set j x).length := by
    simp only [List.length_set]
    omega
  have hk3 : k < h.length := by omega
  rw [List.getD_eq_getElem?_getD, List.getD_eq_getElem?_getD,
    List.getElem?_eq_getElem hk1, List.getElem?_eq_getElem hk3]
  rw [List.getElem_dropLast]
  simp [List.getElem_set, hkj.symm, Ne.symm hkj]

/-- The root of a heap-ordered array is a minimum. -/
theorem heapOrdered_le (h : List HeapCell) (hord : HeapOrdered h) :
    ∀ i, i < h.length → valAt h 0 ≤ valAt h i := by
  intro i
  induction i using Nat.strong_induction_on with
  | _ i ih =>
      intro hi
      rcases Nat.eq_zero_or_pos i with rfl | hp
      · exact le_refl _
      · exact le_trans
          (ih (parentIdx i) (parentIdx_lt i hp) (lt_trans (parentIdx_lt i hp) hi))
          (hord i hp hi)

theorem heapOrdered_min_mem (h : List HeapCell) (hord : HeapOrdered h) :
    ∀ x ∈ h.map HeapCell.value, valAt h 0 ≤ x := by
  intro x hx
  obtain ⟨cell, hcell, rfl⟩ := List.mem_map.mp hx
  obtain ⟨k, hk, rfl⟩ := List.mem_iff_getElem.mp hcell
  have : valAt h k = h[k].value := by
    unfold valAt
    rw [List.getD_eq_getElem?_getD, List.getElem?_eq_getElem hk]
    rfl
  rw [← this]
  exact heapOrdered_le h hord k hk

theorem insert_perm (h : List HeapCell) (nid : Nat) (v : Int) (tr : List Nat) :
    List.Perm (insert h nid v tr).1 (h ++ [⟨v, nid⟩]) := by
  unfold insert
  dsimp only
  apply siftUpF_perm
  simp

/-- Insertion preserves the heap order. -/
theorem insert_heapOrdered (h : List HeapCell) (nid : Nat) (v : Int)
    (tr : List Nat) (hord : HeapOrdered h) : HeapOrdered (insert h nid v tr).1 := by
  unfold insert
  dsimp only
  have hlen : (h ++ [(⟨v, nid⟩ : HeapCell)]).length = h.length + 1 := by simp
  apply siftUpF_heapOrder
  · omega
  · simp
  · intro i hi hil hine
    rw [hlen] at hil
    simp only [List.length_append, List.length_singleton] at hine
    have hin : i < h.length := by omega
    have hpn : parentIdx i < h.length := lt_trans (parentIdx_lt i hi) hin
    rw [valAt_append_lt h _ i hin, valAt_append_lt h _ _ hpn]
    exact hord i hi hin
  · intro i hil hpi hine _
    exfalso
    simp only [List.length_append, List.length_singleton] at hil hpi hine
    have := (parentIdx_eq_iff i (h.length) hine).mp hpi
    unfold leftChild rightChild at this
    omega

/-- Extract-min on a non-empty ordered heap returns the root, leaves a
permutation of the rest, and preserves the heap order. -/
theorem extractMin_spec (c : HeapCell) (rest : List HeapCell)
    (hord : HeapOrdered (c :: rest)) (tr : List Nat) :
    (extractMin (c :: rest) tr).2.1 = some c ∧
    List.Perm (extractMin (c :: rest) tr).1 rest ∧
    HeapOrdered (extractMin (c :: rest) tr).1 := by
  unfold extractMin
  dsimp only
  rcases rest with _ | ⟨b, rest2⟩
  · refine ⟨rfl, by simp, ?_⟩
    intro i hi hil
    exact absurd hil (by simp)
  · have hrne : (b :: rest2) ≠ ([] : List HeapCell) := by simp
    have hLcons : ((c :: b :: rest2).getLast (by simp)) = (b :: rest2).getLast hrne := by
      rw [List.getLast_cons]
    have hset : ((c :: b :: rest2).set 0 ((c :: b :: rest2).getLast (by simp))) =
        ((c :: b :: rest2).getLast (by simp)) :: b :: rest2 := rfl
    have h1eq : (((c :: b :: rest2).set 0
          ((c :: b :: rest2).getLast (by simp))).dropLast) =
        ((c :: b :: rest2).getLast (by simp)) :: (b :: rest2).dropLast := by
      rw [hset]
      have : (b :: rest2) = (b :: rest2).dropLast ++ [(b :: rest2).getLast hrne] :=
        (List.dropLast_append_getLast hrne).symm
      rfl
    have hlen1 : (((c :: b :: rest2).set 0
          ((c :: b :: rest2).getLast (by simp))).dropLast).length =
        (b :: rest2).length := by
      simp
    have hperm1 : List.Perm
        (((c :: b :: rest2).set 0 ((c :: b :: rest2).getLast (by simp))).dropLast)
        (b :: rest2) := by
      rw [h1eq, hLcons]
      exact (List.perm_append_singleton _ _).symm.trans
        (by rw [List.dropLast_append_getLast hrne])
    have hne1 : (((c :: b :: rest2).set 0
          ((c :: b :: rest2).getLast (by simp))).dropLast).isEmpty = false := by
      rw [h1eq]
      rfl
    rw [if_neg (by rw [hne1]; simp)]
    dsimp only
    have hD1 : ∀ i, 0 < i →
        i < (((c :: b :: rest2).set 0
          ((c :: b :: rest2).getLast (by simp))).dropLast).length →
        i ≠ 0 → parentIdx i ≠ 0 →
        valAt (((c :: b :: rest2).set 0
          ((c :: b :: rest2).getLast (by simp))).dropLast) (parentIdx i) ≤
        valAt (((c :: b :: rest2).set 0
          ((c :: b :: rest2).getLast (by simp))).dropLast) i := by
      intro i hi hil _ hpne
      rw [hlen1] at hil
      have hilen : i < (c :: b :: rest2).length - 1 := by
        simp at hil ⊢
        omega
      have hplen : parentIdx i < (c :: b :: rest2).length - 1 :=
        lt_trans (parentIdx_lt i hi) hilen
      rw [valAt_dropLast_set _ _ 0 i (by omega) hilen,
        valAt_dropLast_set _ _ 0 (parentIdx i) hpne hplen]
      exact hord i hi (by simp at hilen ⊢; omega)
    obtain ⟨A, B, C, D⟩ := siftDownF_spec
      ((((c :: b :: rest2).set 0 ((c :: b :: rest2).getLast (by simp))).dropLast).length)
      (((c :: b :: rest2).set 0 ((c :: b :: rest2).getLast (by simp))).dropLast)
      0 (tr ++ [0]) (by omega) hD1 (by intro i _ _ _ hcon; omega)
    refine ⟨rfl, ?_, ?_⟩
    · exact (siftDownF_perm _ _ _ _).trans hperm1
    · exact C (by intro hcon; omega)

/-- `MinHeap::remove` preserves the heap order: the removed slot is repaired
by the sift-down phase followed by the sift-up phase. -/
theorem remove_heapOrdered (h : List HeapCell) (v : Int) (tr : List Nat)
    (hord : HeapOrdered h) : HeapOrdered (remove h v tr).1 := by
  unfold remove
  rcases hfind : h.findIdx? (fun c => c.value = v) with _ | index
  · rw [hfind]
    exact hord
  · rw [hfind]
    dsimp only
    have hidx : index < h.length :=
      (List.findIdx?_eq_some_iff_findIdx_eq.mp hfind).1
    have hhne : h ≠ [] := by
      intro hcon
      rw [hcon] at hidx
      simp at hidx
    have hL : h.getLast?.getD (⟨0, 0⟩ : HeapCell) = h.getLast hhne := by
      rw [List.getLast?_eq_getLast h hhne]
      rfl
    have hlen1 : ((h.set index (h.getLast?.getD ⟨0, 0⟩)).dropLast).length =
        h.length - 1 := by
      simp
    by_cases hrange : index < ((h.set index (h.getLast?.getD ⟨0, 0⟩)).dropLast).length
    · rw [if_pos hrange]
      dsimp only
      rw [hlen1] at hrange
      have hD1 : ∀ i, 0 < i →
          i < ((h.set index (h.getLast?.getD ⟨0, 0⟩)).dropLast).length →
          i ≠ index → parentIdx i ≠ index →
          valAt ((h.set index (h.getLast?.getD ⟨0, 0⟩)).dropLast) (parentIdx i) ≤
            valAt ((h.set index (h.getLast?.getD ⟨0, 0⟩)).dropLast) i := by
        intro i hi hil hine hpne
        rw [hlen1] at hil
        have hplen : parentIdx i < h.length - 1 := lt_trans (parentIdx_lt i hi) hil
        rw [valAt_dropLast_set _ _ index i hine hil,
          valAt_dropLast_set _ _ index (parentIdx i) hpne hplen]
        exact hord i hi (by omega)
      have hD2 : ∀ i, i < ((h.set index (h.getLast?.getD ⟨0, 0⟩)).dropLast).length →
          parentIdx i = index → i ≠ index → 0 < index →
          valAt ((h.set index (h.getLast?.getD ⟨0, 0⟩)).dropLast) (parentIdx index) ≤
            valAt ((h.set index (h.getLast?.getD ⟨0, 0⟩)).dropLast) i := by
        intro i hil hpi hine hidx0
        rw [hlen1] at hil
        have hppi : parentIdx index < h.length - 1 :=
          lt_trans (parentIdx_lt index hidx0) hrange
        have hi0 : 0 < i := by
          rcases Nat.eq_zero_or_pos i with rfl | hpos
          · exfalso
            have : parentIdx 0 = 0 := rfl
            omega
          · exact hpos
        have hpltidx : parentIdx index < index := parentIdx_lt index hidx0
        rw [valAt_dropLast_set _ _ index i hine hil,
          valAt_dropLast_set _ _ index (parentIdx index) (by omega) hppi]
        have h1 : valAt h (parentIdx index) ≤ valAt h index :=
          hord index hidx0 hidx
        have h2 : valAt h index ≤ valAt h i := by
          have := hord i hi0 (by omega)
          rw [hpi] at this
          exact this
        exact le_trans h1 h2
      obtain ⟨A, B, _, D⟩ := siftDownF_spec
        (((h.set index (h.getLast?.getD ⟨0, 0⟩)).dropLast).length)
        ((h.set index (h.getLast?.getD ⟨0, 0⟩)).dropLast)
        index (tr ++ [index]) (by omega) hD1 hD2
      have hlen2 : (siftDownF (((h.set index (h.getLast?.getD ⟨0, 0⟩)).dropLast).length)
          ((h.set index (h.getLast?.getD ⟨0, 0⟩)).dropLast) index
          (tr ++ [index])).1.length =
          ((h.set index (h.getLast?.getD ⟨0, 0⟩)).dropLast).length :=
        siftDownF_length _ _ _ _
      apply siftUpF_heapOrder
      · rw [hlen2]
        rcases D with hD | ⟨_, hD2'⟩
        · rw [hD, hlen1]
          exact hrange
        · exact hD2'
      · exact le_refl _
      · exact A
      · exact B
    · rw [if_neg hrange]
      rw [hlen1] at hrange
      intro i hi hil
      rw [hlen1] at hil
      have hiix : i ≠ index := by omega
      have hpix : parentIdx i ≠ index := by
        have := parentIdx_lt i hi
        omega
      have hplen : parentIdx i < h.length - 1 := lt_trans (parentIdx_lt i hi) hil
      rw [valAt_dropLast_set _ _ index i hiix hil,
        valAt_dropLast_set _ _ index (parentIdx i) hpix hplen]
      exact hord i hi (by omega)

/-- Every public heap operation preserves the heap order. -/
theorem applyOp_heapOrdered (s : State) (op : Op) (hord : HeapOrdered s.heap) :
    HeapOrdered (applyOp s op).heap := by
  cases op with
  | ins v => exact insert_heapOrdered s.heap s.nextNodeId v [] hord
  | ext =>
      unfold applyOp extractMinOp
      dsimp only
      rcases hh : s.heap with _ | ⟨c, rest⟩
      · intro i hi hil
        rw [show extractMin [] [] = ([], none, []) from rfl] at hil
        exact absurd hil (by simp)
      · rw [hh] at hord
        exact (extractMin_spec c rest hord []).2.2
  | rem v => exact remove_heapOrdered s.heap v [] hord
  | sea v => exact hord

theorem foldl_heapOrdered (ops : List Op) :
    ∀ (s : State), HeapOrdered s.heap →
      HeapOrdered (List.foldl applyOp s ops).heap := by
  induction ops with
  | nil => intro s h; exact h
  | cons op rest ih =>
      intro s h
      exact ih (applyOp s op) (applyOp_heapOrdered s op h)

theorem foldl_ins_values (vs : List Int) :
    ∀ (s : State),
      List.Perm ((List.foldl applyOp s (vs.map Op.ins)).heap.map HeapCell.value)
        (s.heap.map HeapCell.value ++ vs) := by
  induction vs with
  | nil => intro s; simp
  | cons v rest ih =>
      intro s
      have hstep := ih (applyOp s (Op.ins v))
      have hins : List.Perm ((applyOp s (Op.ins v)).heap.map HeapCell.value)
          (s.heap.map HeapCell.value ++ [v]) := by
        have hp := insert_perm s.heap s.nextNodeId v []
        have := hp.map HeapCell.value
        simpa using this
      have hmid : List.Perm ((s.heap.map HeapCell.value ++ [v]) ++ rest)
          (s.heap.map HeapCell.value ++ (v :: rest)) := by
        rw [List.append_assoc, List.singleton_append]
      have : List.Perm
          ((List.foldl applyOp (applyOp s (Op.ins v)) (rest.map Op.ins)).heap.map
            HeapCell.value)
          (s.heap.map HeapCell.value ++ (v :: rest)) :=
        (hstep.trans (hins.append_right rest)).trans hmid
      simpa using this

/-- Draining a heap-ordered array by repeated extract-min yields a
non-decreasing list that is a permutation of the stored values. -/
theorem drainF_spec (n : Nat) :
    ∀ (h : List HeapCell), h.length ≤ n → HeapOrdered h →
      List.Sorted (· ≤ ·) (drainF n h) ∧
      List.Perm (drainF n h) (h.map HeapCell.value) := by
  induction n with
  | zero =>
      intro h hlen _
      have : h = [] := List.eq_nil_of_length_eq_zero (by omega)
      subst this
      exact ⟨List.sorted_nil, by simp [drainF]⟩
  | succ n ih =>
      intro h hlen hord
      rcases h with _ | ⟨c, rest⟩
      · exact ⟨by simp [drainF, extractMin], by simp [drainF, extractMin]⟩
      · obtain ⟨hmin, hperm, hord2⟩ := extractMin_spec c rest hord []
        have hdrain : drainF (n + 1) (c :: rest) =
            c.value :: drainF n (extractMin (c :: rest) []).1 := by
          rcases hext : extractMin (c :: rest) [] with ⟨h2, oc, tr2⟩
          rw [hext] at hmin
          subst hmin
          simp only [drainF, hext]
        have hlen2 : (extractMin (c :: rest) []).1.length ≤ n := by
          have := hperm.length_eq
          simp only [List.length_cons] at hlen
          omega
        obtain ⟨hsorted, hperm2⟩ := ih (extractMin (c :: rest) []).1 hlen2 hord2
        rw [hdrain]
        constructor
        · rw [List.sorted_cons]
          refine ⟨?_, hsorted⟩
          intro b hb
          have hb2 : b ∈ (extractMin (c :: rest) []).1.map HeapCell.value :=
            hperm2.mem_iff.mp hb
          have hb3 : b ∈ (c :: rest).map HeapCell.value := by
            have := (hperm.map HeapCell.value).mem_iff.mp hb2
            exact List.mem_cons_of_mem _ this
          have := heapOrdered_min_mem (c :: rest) hord b hb3
          simpa [valAt] using this
        · exact List.Perm.cons c.value (hperm2.trans (hperm.map HeapCell.value))

end MinHeap

/-- C2: after any sequence of public min-heap operations (insert,
extract-min, remove, search) starting from an empty heap, the heap-order
invariant holds: for every index `i > 0`, `value[parent(i)] <= value[i]`
with `parent(i) = (i-1)/2` (the backing store is a dense list, so indices
`0..size-1` are exactly the occupied cells); moreover, for any sequence of
inserts, repeatedly calling extract-min until empty yields a non-decreasing
sequence of values that is a permutation of the multiset of inserted
values. -/
theorem C2_heap_invariant_and_sorted_drain :
    (∀ ops : List MinHeap.Op, MinHeap.HeapOrdered (MinHeap.runOps ops).heap) ∧
    (∀ vs : List Int,
      List.Sorted (· ≤ ·)
        (MinHeap.drainF (MinHeap.buildHeap vs).heap.length (MinHeap.buildHeap vs).heap) ∧
      List.Perm
        (MinHeap.drainF (MinHeap.buildHeap vs).heap.length (MinHeap.buildHeap vs).heap)
        vs) := by
  have hrun : ∀ ops : List MinHeap.Op, MinHeap.HeapOrdered (MinHeap.runOps ops).heap := by
    intro ops
    apply MinHeap.foldl_heapOrdered
    intro i hi hil
    exact absurd hil (by simp)
  refine ⟨hrun, ?_⟩
  intro vs
  have hord : MinHeap.HeapOrdered (MinHeap.buildHeap vs).heap :=
    hrun (vs.map MinHeap.Op.ins)
  obtain ⟨hsorted, hperm⟩ := MinHeap.drainF_spec (MinHeap.buildHeap vs).heap.length
    (MinHeap.buildHeap vs).heap (le_refl _) hord
  have hvals : List.Perm ((MinHeap.buildHeap vs).heap.map HeapCell.value) vs := by
    have := MinHeap.foldl_ins_values vs { heap := [], nextNodeId := 0 }
    simpa using this
  exact ⟨hsorted, hperm.trans hvals⟩

/-! ## AVL infrastructure: rotations preserve values and order, repair
lemmas for the four rotation cases, and the main insert/delete inductions
(for C1 and C6). -/

namespace AVL

theorem realHeight_nonneg : ∀ (t : AVLNode), 0 ≤ realHeight t := by
  intro t
  induction t with
  | nil => exact le_refl 0
  | node v l r h id ihl ihr =>
      unfold realHeight
      have := le_max_left (realHeight l) (realHeight r)
      omega

theorem valuesM_updateHeight (t : AVLNode) : valuesM (updateHeight t) = valuesM t := by
  cases t <;> rfl

theorem realHeight_updateHeight (t : AVLNode) :
    realHeight (updateHeight t) = realHeight t := by
  cases t <;> rfl

theorem ordered_updateHeight (t : AVLNode) : Ordered (updateHeight t) ↔ Ordered t := by
  cases t <;> exact Iff.rfl

theorem mem_valuesM_node (x v : Int) (l r : AVLNode) (h : Int) (id : Nat) :
    x ∈ valuesM (AVLNode.node v l r h id) ↔ x = v ∨ x ∈ valuesM l ∨ x ∈ valuesM r := by
  simp only [valuesM]
  simp [Multiset.mem_cons, Multiset.mem_add]

theorem valuesM_rotateRight (t : AVLNode) : valuesM (rotateRight t) = valuesM t := by
  match t with
  | AVLNode.nil => rfl
  | AVLNode.node yv AVLNode.nil t3 yh yid => rfl
  | AVLNode.node yv (AVLNode.node xv t1 t2 xh xid) t3 yh yid =>
      show valuesM (updateHeight (AVLNode.node xv t1
        (updateHeight (AVLNode.node yv t2 t3 yh yid)) xh xid)) = _
      rw [valuesM_updateHeight]
      simp only [valuesM, valuesM_updateHeight]
      ext a
      simp [Multiset.count_cons, Multiset.count_add]
      ring

theorem valuesM_rotateLeft (t : AVLNode) : valuesM (rotateLeft t) = valuesM t := by
  match t with
  | AVLNode.nil => rfl
  | AVLNode.node xv t1 AVLNode.nil xh xid => rfl
  | AVLNode.node xv t1 (AVLNode.node yv t2 t3 yh yid) xh xid =>
      show valuesM (updateHeight (AVLNode.node yv
        (updateHeight (AVLNode.node xv t1 t2 xh xid)) t3 yh yid)) = _
      rw [valuesM_updateHeight]
      simp only [valuesM, valuesM_updateHeight]
      ext a
      simp [Multiset.count_cons, Multiset.count_add]
      ring

theorem ordered_rotateRight (t : AVLNode) (hord : Ordered t) :
    Ordered (rotateRight t) := by
  match t with
  | AVLNode.nil => exact hord
  | AVLNode.node yv AVLNode.nil t3 yh yid => exact hord
  | AVLNode.node yv (AVLNode.node xv t1 t2 xh xid) t3 yh yid =>
      obtain ⟨hxlt, hygt, hxord, ht3⟩ := hord
      obtain ⟨ht1lt, ht2gt, ht1, ht2⟩ := hxord
      have hxy : xv < yv := hxlt xv (by rw [mem_valuesM_node]; left; rfl)
      show Ordered (updateHeight (AVLNode.node xv t1
        (updateHeight (AVLNode.node yv t2 t3 yh yid)) xh xid))
      rw [ordered_updateHeight]
      refine ⟨ht1lt, ?_, ht1, ?_⟩
      · intro x hx
        rw [valuesM_updateHeight, mem_valuesM_node] at hx
        rcases hx with rfl | hx | hx
        · exact hxy
        · exact ht2gt x hx
        · exact lt_trans hxy (hygt x hx)
      · rw [ordered_updateHeight]
        refine ⟨?_, hygt, ht2, ht3⟩
        intro x hx
        exact hxlt x (by rw [mem_valuesM_node]; right; right; exact hx)

theorem ordered_rotateLeft (t : AVLNode) (hord : Ordered t) :
    Ordered (rotateLeft t) := by
  match t with
  | AVLNode.nil => exact hord
  | AVLNode.node xv t1 AVLNode.nil xh xid => exact hord
  | AVLNode.node xv t1 (AVLNode.node yv t2 t3 yh yid) xh xid =>
      obtain ⟨hxlt, hxgt, ht1, hyord⟩ := hord
      obtain ⟨ht2lt, ht3gt, ht2, ht3⟩ := hyord
      have hxy : xv < yv := hxgt yv (by rw [mem_valuesM_node]; left; rfl)
      show Ordered (updateHeight (AVLNode.node yv
        (updateHeight (AVLNode.node xv t1 t2 xh xid)) t3 yh yid))
      rw [ordered_updateHeight]
      refine ⟨?_, ht3gt, ?_, ht3⟩
      · intro x hx
        rw [valuesM_updateHeight, mem_valuesM_node] at hx
        rcases hx with rfl | hx | hx
        · exact hxy
        · exact lt_trans (hxlt x hx) hxy
        · exact ht2lt x hx
      · rw [ordered_updateHeight]
        refine ⟨hxlt, ?_, ht1, ht2⟩
        intro x hx
        exact hxgt x (by rw [mem_valuesM_node]; right; left; exact hx)

/-- Each insert-side rebalancing step appends exactly one rotation event (and
reports it) or appends none. -/
theorem rebalanceIns_events (n : AVLNode) (v : Int) (rot : RotationType)
    (evs : List RotationType) :
    ∃ δ, (rebalanceIns n v rot evs).2.2 = evs ++ δ ∧
      (rebalanceIns n v rot evs).2.1 = δ.getLastD rot := by
  unfold rebalanceIns
  dsimp only
  by_cases c1 : getBalance (updateHeight n) > 1 ∧ v < nodeValue (leftOf (updateHeight n))
  · rw [if_pos c1]; exact ⟨[RotationType.RIGHT], rfl, rfl⟩
  rw [if_neg c1]
  by_cases c2 : getBalance (updateHeight n) < -1 ∧ nodeValue (rightOf (updateHeight n)) < v
  · rw [if_pos c2]; exact ⟨[RotationType.LEFT], rfl, rfl⟩
  rw [if_neg c2]
  by_cases c3 : getBalance (updateHeight n) > 1 ∧ nodeValue (leftOf (updateHeight n)) < v
  · rw [if_pos c3]; exact ⟨[RotationType.LEFT_RIGHT], rfl, rfl⟩
  rw [if_neg c3]
  by_cases c4 : getBalance (updateHeight n) < -1 ∧ v < nodeValue (rightOf (updateHeight n))
  · rw [if_pos c4]; exact ⟨[RotationType.RIGHT_LEFT], rfl, rfl⟩
  rw [if_neg c4]
  exact ⟨[], by simp, rfl⟩

theorem getBalance_eq_real (t : AVLNode) (hc : HeightsCorrect t) :
    getBalance t = realHeight (leftOf t) - realHeight (rightOf t) := by
  cases t with
  | nil => rfl
  | node v l r h id =>
      show getHeight l - getHeight r = _
      rw [getHeight_eq l hc.2.1, getHeight_eq r hc.2.2]
      rfl

theorem hc_updateHeight (v : Int) (l r : AVLNode) (h : Int) (id : Nat)
    (hcl : HeightsCorrect l) (hcr : HeightsCorrect r) :
    HeightsCorrect (updateHeight (AVLNode.node v l r h id)) := by
  show HeightsCorrect (AVLNode.node v l r (1 + max (getHeight l) (getHeight r)) id)
  exact ⟨by rw [getHeight_eq l hcl, getHeight_eq r hcr], hcl, hcr⟩

theorem bal_updateHeight (v : Int) (l r : AVLNode) (h : Int) (id : Nat)
    (hbl : BalancedCached l) (hbr : BalancedCached r)
    (hd : -1 ≤ getHeight l - getHeight r) (hd2 : getHeight l - getHeight r ≤ 1) :
    BalancedCached (updateHeight (AVLNode.node v l r h id)) := by
  show BalancedCached (AVLNode.node v l r (1 + max (getHeight l) (getHeight r)) id)
  exact ⟨hd, hd2, hbl, hbr⟩

theorem realHeight_node (v : Int) (l r : AVLNode) (h : Int) (id : Nat) :
    realHeight (AVLNode.node v l r h id) = 1 + max (realHeight l) (realHeight r) := rfl

/-- Repair lemma for the single right rotation (left-left case): with the
left subtree two levels higher than the right and left child not
right-heavy, `rotateRight` after the height refresh restores order, height
correctness and balance; the height lands at `rh r + 2` (left balance `1`)
or `rh r + 3` (left balance `0`). -/
theorem repair_right (u : Int) (l r : AVLNode) (h : Int) (id : Nat)
    (hcl : HeightsCorrect l) (hcr : HeightsCorrect r)
    (hbl : BalancedCached l) (hbr : BalancedCached r)
    (hord : Ordered (AVLNode.node u l r h id))
    (hdiff : realHeight l = realHeight r + 2)
    (hlbal : 0 ≤ realHeight (leftOf l) - realHeight (rightOf l)) :
    Ordered (rotateRight (updateHeight (AVLNode.node u l r h id))) ∧
    HeightsCorrect (rotateRight (updateHeight (AVLNode.node u l r h id))) ∧
    BalancedCached (rotateRight (updateHeight (AVLNode.node u l r h id))) ∧
    valuesM (rotateRight (updateHeight (AVLNode.node u l r h id))) =
      valuesM (AVLNode.node u l r h id) ∧
    realHeight r + 2 ≤ realHeight (rotateRight (updateHeight (AVLNode.node u l r h id))) ∧
    realHeight (rotateRight (updateHeight (AVLNode.node u l r h id))) ≤ realHeight r + 3 ∧
    (realHeight (leftOf l) - realHeight (rightOf l) = 1 →
      realHeight (rotateRight (updateHeight (AVLNode.node u l r h id))) =
        realHeight r + 2) := by
  match l, hcl, hbl, hlbal, hdiff with
  | AVLNode.nil, _, _, _, hdiff =>
      exfalso
      have := realHeight_nonneg r
      have h0 : realHeight AVLNode.nil = 0 := rfl
      omega
  | AVLNode.node lv ll lr lh lid, hcl, hbl, hlbal, hdiff =>
      have hm : rotateRight (updateHeight (AVLNode.node u
            (AVLNode.node lv ll lr lh lid) r h id)) =
          AVLNode.node lv ll
            (AVLNode.node u lr r (1 + max (getHeight lr) (getHeight r)) id)
            (1 + max (getHeight ll) (1 + max (getHeight lr) (getHeight r))) lid := rfl
      have hgll : getHeight ll = realHeight ll := getHeight_eq ll hcl.2.1
      have hglr : getHeight lr = realHeight lr := getHeight_eq lr hcl.2.2
      have hgr : getHeight r = realHeight r := getHeight_eq r hcr
      have hrl : realHeight (AVLNode.node lv ll lr lh lid) =
          1 + max (realHeight ll) (realHeight lr) := rfl
      have hlb : realHeight (leftOf (AVLNode.node lv ll lr lh lid)) = realHeight ll := rfl
      have hrb : realHeight (rightOf (AVLNode.node lv ll lr lh lid)) = realHeight lr := rfl
      rw [hlb, hrb] at hlbal ⊢
      rw [hrl] at hdiff
      have hmax1 := max_choice (realHeight ll) (realHeight lr)
      have hmax1a := le_max_left (realHeight ll) (realHeight lr)
      have hmax1b := le_max_right (realHeight ll) (realHeight lr)
      have hb1 : -1 ≤ getHeight ll - getHeight lr := hbl.1
      have hb2 : getHeight ll - getHeight lr ≤ 1 := hbl.2.1
      rw [hgll, hglr] at hb1 hb2
      have hmax2 := max_choice (realHeight lr) (realHeight r)
      have hmax2a := le_max_left (realHeight lr) (realHeight r)
      have hmax2b := le_max_right (realHeight lr) (realHeight r)
      refine ⟨?_, ?_, ?_, ?_, ?_, ?_, ?_⟩
      · exact ordered_rotateRight _ ((ordered_updateHeight _).mpr hord)
      · rw [hm]
        refine ⟨?_, hcl.2.1, ?_, hcl.2.2, hcr⟩
        · rw [hgll, realHeight_node, hglr, hgr]
        · rw [hglr, hgr]
      · rw [hm]
        have hinner : getHeight (AVLNode.node u lr r
            (1 + max (getHeight lr) (getHeight r)) id) =
            1 + max (realHeight lr) (realHeight r) := by
          rw [show getHeight (AVLNode.node u lr r
            (1 + max (getHeight lr) (getHeight r)) id) =
            1 + max (getHeight lr) (getHeight r) from rfl, hglr, hgr]
        refine ⟨?_, ?_, hbl.2.2.1, ?_, ?_, hbl.2.2.2, hbr⟩
        · rw [hgll, hinner]
          omega
        · rw [hgll, hinner]
          omega
        · rw [hglr, hgr]
          omega
        · rw [hglr, hgr]
          omega
      · rw [show rotateRight (updateHeight (AVLNode.node u
            (AVLNode.node lv ll lr lh lid) r h id)) =
            rotateRight (updateHeight (AVLNode.node u
            (AVLNode.node lv ll lr lh lid) r h id)) from rfl,
          valuesM_rotateRight, valuesM_updateHeight]
      · rw [hm, realHeight_node, realHeight_node]
        have hmax3 := max_choice (realHeight ll)
          (1 + max (realHeight lr) (realHeight r))
        have hmax3a := le_max_left (realHeight ll)
          (1 + max (realHeight lr) (realHeight r))
        omega
      · rw [hm, realHeight_node, realHeight_node]
        have hmax3 := max_choice (realHeight ll)
          (1 + max (realHeight lr) (realHeight r))
        have hmax3b := le_max_right (realHeight ll)
          (1 + max (realHeight lr) (realHeight r))
        omega
      · intro hbal1
        rw [hm, realHeight_node, realHeight_node]
        have hmax3 := max_choice (realHeight ll)
          (1 + max (realHeight lr) (realHeight r))
        have hmax3a := le_max_left (realHeight ll)
          (1 + max (realHeight lr) (realHeight r))
        omega

/-- Mirror of `repair_right`: single left rotation (right-right case). -/
theorem repair_left (u : Int) (l r : AVLNode) (h : Int) (id : Nat)
    (hcl : HeightsCorrect l) (hcr : HeightsCorrect r)
    (hbl : BalancedCached l) (hbr : BalancedCached r)
    (hord : Ordered (AVLNode.node u l r h id))
    (hdiff : realHeight r = realHeight l + 2)
    (hrbal : realHeight (leftOf r) - realHeight (rightOf r) ≤ 0) :
    Ordered (rotateLeft (updateHeight (AVLNode.node u l r h id))) ∧
    HeightsCorrect (rotateLeft (updateHeight (AVLNode.node u l r h id))) ∧
    BalancedCached (rotateLeft (updateHeight (AVLNode.node u l r h id))) ∧
    valuesM (rotateLeft (updateHeight (AVLNode.node u l r h id))) =
      valuesM (AVLNode.node u l r h id) ∧
    realHeight l + 2 ≤ realHeight (rotateLeft (updateHeight (AVLNode.node u l r h id))) ∧
    realHeight (rotateLeft (updateHeight (AVLNode.node u l r h id))) ≤ realHeight l + 3 ∧
    (realHeight (leftOf r) - realHeight (rightOf r) = -1 →
      realHeight (rotateLeft (updateHeight (AVLNode.node u l r h id))) =
        realHeight l + 2) := by
  match r, hcr, hbr, hrbal, hdiff with
  | AVLNode.nil, _, _, _, hdiff =>
      exfalso
      have := realHeight_nonneg l
      have h0 : realHeight AVLNode.nil = 0 := rfl
      omega
  | AVLNode.node rv rl rr rh' rid, hcr, hbr, hrbal, hdiff =>
      have hm : rotateLeft (updateHeight (AVLNode.node u l
            (AVLNode.node rv rl rr rh' rid) h id)) =
          AVLNode.node rv
            (AVLNode.node u l rl (1 + max (getHeight l) (getHeight rl)) id)
            rr (1 + max (1 + max (getHeight l) (getHeight rl)) (getHeight rr)) rid := rfl
      have hgrl : getHeight rl = realHeight rl := getHeight_eq rl hcr.2.1
      have hgrr : getHeight rr = realHeight rr := getHeight_eq rr hcr.2.2
      have hgl : getHeight l = realHeight l := getHeight_eq l hcl
      have hrr0 : realHeight (AVLNode.node rv rl rr rh' rid) =
          1 + max (realHeight rl) (realHeight rr) := rfl
      have hlb : realHeight (leftOf (AVLNode.node rv rl rr rh' rid)) = realHeight rl := rfl
      have hrb : realHeight (rightOf (AVLNode.node rv rl rr rh' rid)) = realHeight rr := rfl
      rw [hlb, hrb] at hrbal ⊢
      rw [hrr0] at hdiff
      have hmax1 := max_choice (realHeight rl) (realHeight rr)
      have hmax1a := le_max_left (realHeight rl) (realHeight rr)
      have hmax1b := le_max_right (realHeight rl) (realHeight rr)
      have hb1 : -1 ≤ getHeight rl - getHeight rr := hbr.1
      have hb2 : getHeight rl - getHeight rr ≤ 1 := hbr.2.1
      rw [hgrl, hgrr] at hb1 hb2
      have hmax2 := max_choice (realHeight l) (realHeight rl)
      have hmax2a := le_max_left (realHeight l) (realHeight rl)
      have hmax2b := le_max_right (realHeight l) (realHeight rl)
      refine ⟨?_, ?_, ?_, ?_, ?_, ?_, ?_⟩
      · exact ordered_rotateLeft _ ((ordered_updateHeight _).mpr hord)
      · rw [hm]
        refine ⟨?_, ?_, hcr.2.2⟩
        · rw [realHeight_node, hgl, hgrl, hgrr]
        · exact ⟨by rw [hgl, hgrl], hcl, hcr.2.1⟩
      · rw [hm]
        have hinner : getHeight (AVLNode.node u l rl
            (1 + max (getHeight l) (getHeight rl)) id) =
            1 + max (realHeight l) (realHeight rl) := by
          rw [show getHeight (AVLNode.node u l rl
            (1 + max (getHeight l) (getHeight rl)) id) =
            1 + max (getHeight l) (getHeight rl) from rfl, hgl, hgrl]
        refine ⟨?_, ?_, ?_, hbr.2.2.2⟩
        · rw [hinner, hgrr]
          omega
        · rw [hinner, hgrr]
          omega
        · exact ⟨by rw [hgl, hgrl]; omega, by rw [hgl, hgrl]; omega, hbl, hbr.2.2.1⟩
      · rw [valuesM_rotateLeft, valuesM_updateHeight]
      · rw [hm, realHeight_node, realHeight_node]
        have hmax3 := max_choice (1 + max (realHeight l) (realHeight rl))
          (realHeight rr)
        have hmax3a := le_max_left (1 + max (realHeight l) (realHeight rl))
          (realHeight rr)
        omega
      · rw [hm, realHeight_node, realHeight_node]
        have hmax3 := max_choice (1 + max (realHeight l) (realHeight rl))
          (realHeight rr)
        have hmax3b := le_max_right (1 + max (realHeight l) (realHeight rl))
          (realHeight rr)
        omega
      · intro hbal1
        rw [hm, realHeight_node, realHeight_node]
        have hmax3 := max_choice (1 + max (realHeight l) (realHeight rl))
          (realHeight rr)
        have hmax3a := le_max_left (1 + max (realHeight l) (realHeight rl))
          (realHeight rr)
        omega

/-- Repair lemma for the left-right double rotation: with the left subtree
two levels higher and the left child right-heavy, rotating the left child
left and then the node right restores all invariants and puts the height at
exactly `rh r + 2`. -/
theorem repair_leftRight (u : Int) (l r : AVLNode) (h : Int) (id : Nat)
    (hcl : HeightsCorrect l) (hcr : HeightsCorrect r)
    (hbl : BalancedCached l) (hbr : BalancedCached r)
    (hord : Ordered (AVLNode.node u l r h id))
    (hdiff : realHeight l = realHeight r + 2)
    (hlbal : realHeight (leftOf l) - realHeight (rightOf l) < 0) :
    Ordered (rotateRight (setLeft (updateHeight (AVLNode.node u l r h id))
      (rotateLeft (leftOf (updateHeight (AVLNode.node u l r h id)))))) ∧
    HeightsCorrect (rotateRight (setLeft (updateHeight (AVLNode.node u l r h id))
      (rotateLeft (leftOf (updateHeight (AVLNode.node u l r h id)))))) ∧
    BalancedCached (rotateRight (setLeft (updateHeight (AVLNode.node u l r h id))
      (rotateLeft (leftOf (updateHeight (AVLNode.node u l r h id)))))) ∧
    valuesM (rotateRight (setLeft (updateHeight (AVLNode.node u l r h id))
      (rotateLeft (leftOf (updateHeight (AVLNode.node u l r h id)))))) =
      valuesM (AVLNode.node u l r h id) ∧
    realHeight (rotateRight (setLeft (updateHeight (AVLNode.node u l r h id))
      (rotateLeft (leftOf (updateHeight (AVLNode.node u l r h id)))))) =
      realHeight r + 2 := by
  match l, hcl, hbl, hlbal, hdiff with
  | AVLNode.nil, _, _, _, hdiff =>
      exfalso
      have := realHeight_nonneg r
      have h0 : realHeight AVLNode.nil = 0 := rfl
      omega
  | AVLNode.node lv ll AVLNode.nil lh lid, _, _, hlbal, _ =>
      exfalso
      have := realHeight_nonneg ll
      have h0 : realHeight (leftOf (AVLNode.node lv ll AVLNode.nil lh lid)) =
          realHeight ll := rfl
      have h1 : realHeight (rightOf (AVLNode.node lv ll AVLNode.nil lh lid)) = 0 := rfl
      omega
  | AVLNode.node lv ll (AVLNode.node w X Y wh wid) lh lid, hcl, hbl, hlbal, hdiff =>
      have hm : rotateRight (setLeft (updateHeight (AVLNode.node u
            (AVLNode.node lv ll (AVLNode.node w X Y wh wid) lh lid) r h id))
            (rotateLeft (leftOf (updateHeight (AVLNode.node u
            (AVLNode.node lv ll (AVLNode.node w X Y wh wid) lh lid) r h id))))) =
          AVLNode.node w
            (AVLNode.node lv ll X (1 + max (getHeight ll) (getHeight X)) lid)
            (AVLNode.node u Y r (1 + max (getHeight Y) (getHeight r)) id)
            (1 + max (1 + max (getHeight ll) (getHeight X))
              (1 + max (getHeight Y) (getHeight r))) wid := rfl
      have hsl : setLeft (updateHeight (AVLNode.node u
            (AVLNode.node lv ll (AVLNode.node w X Y wh wid) lh lid) r h id))
            (rotateLeft (leftOf (updateHeight (AVLNode.node u
            (AVLNode.node lv ll (AVLNode.node w X Y wh wid) lh lid) r h id)))) =
          AVLNode.node u
            (rotateLeft (AVLNode.node lv ll (AVLNode.node w X Y wh wid) lh lid)) r
            (1 + max (getHeight (AVLNode.node lv ll (AVLNode.node w X Y wh wid) lh lid))
              (getHeight r)) id := rfl
      have hgll : getHeight ll = realHeight ll := getHeight_eq ll hcl.2.1
      have hgX : getHeight X = realHeight X := getHeight_eq X hcl.2.2.2.1
      have hgY : getHeight Y = realHeight Y := getHeight_eq Y hcl.2.2.2.2
      have hgr : getHeight r = realHeight r := getHeight_eq r hcr
      have hwh : wh = 1 + max (realHeight X) (realHeight Y) := hcl.2.2.1
      have hlb : realHeight (leftOf (AVLNode.node lv ll
          (AVLNode.node w X Y wh wid) lh lid)) = realHeight ll := rfl
      have hrb : realHeight (rightOf (AVLNode.node lv ll
          (AVLNode.node w X Y wh wid) lh lid)) =
          1 + max (realHeight X) (realHeight Y) := rfl
      rw [hlb, hrb] at hlbal
      have hrl : realHeight (AVLNode.node lv ll (AVLNode.node w X Y wh wid) lh lid) =
          1 + max (realHeight ll) (1 + max (realHeight X) (realHeight Y)) := rfl
      rw [hrl] at hdiff
      have hb1 : -1 ≤ getHeight ll - wh := hbl.1
      have hb2 : getHeight ll - wh ≤ 1 := hbl.2.1
      rw [hgll, hwh] at hb1 hb2
      have hb3 : -1 ≤ getHeight X - getHeight Y := hbl.2.2.2.1
      have hb4 : getHeight X - getHeight Y ≤ 1 := hbl.2.2.2.2.1
      rw [hgX, hgY] at hb3 hb4
      have hmax1 := max_choice (realHeight X) (realHeight Y)
      have hmax1a := le_max_left (realHeight X) (realHeight Y)
      have hmax1b := le_max_right (realHeight X) (realHeight Y)
      have hmax2 := max_choice (realHeight ll)
        (1 + max (realHeight X) (realHeight Y))
      have hmax2a := le_max_left (realHeight ll)
        (1 + max (realHeight X) (realHeight Y))
      have hmax3 := max_choice (realHeight ll) (realHeight X)
      have hmax3a := le_max_left (realHeight ll) (realHeight X)
      have hmax3b := le_max_right (realHeight ll) (realHeight X)
      have hmax4 := max_choice (realHeight Y) (realHeight r)
      have hmax4a := le_max_left (realHeight Y) (realHeight r)
      have hmax4b := le_max_right (realHeight Y) (realHeight r)
      have hmax5 := max_choice (1 + max (realHeight ll) (realHeight X))
        (1 + max (realHeight Y) (realHeight r))
      have hmax5a := le_max_left (1 + max (realHeight ll) (realHeight X))
        (1 + max (realHeight Y) (realHeight r))
      refine ⟨?_, ?_, ?_, ?_, ?_⟩
      · apply ordered_rotateRight
        rw [hsl]
        refine ⟨?_, hord.2.1, ordered_rotateLeft _ hord.2.2.1, hord.2.2.2⟩
        intro z hz
        rw [valuesM_rotateLeft] at hz
        exact hord.1 z hz
      · rw [hm]
        refine ⟨?_, ⟨?_, hcl.2.1, hcl.2.2.2.1⟩, ?_, hcl.2.2.2.2, hcr⟩
        · rw [realHeight_node, realHeight_node, hgll, hgX, hgY, hgr]
        · rw [hgll, hgX]
        · rw [hgY, hgr]
      · rw [hm]
        refine ⟨?_, ?_, ⟨?_, ?_, hbl.2.2.1, hbl.2.2.2.2.2.1⟩,
          ?_, ?_, hbl.2.2.2.2.2.2, hbr⟩
        · show -1 ≤ (1 + max (getHeight ll) (getHeight X)) -
            (1 + max (getHeight Y) (getHeight r))
          rw [hgll, hgX, hgY, hgr]
          omega
        · show (1 + max (getHeight ll) (getHeight X)) -
            (1 + max (getHeight Y) (getHeight r)) ≤ 1
          rw [hgll, hgX, hgY, hgr]
          omega
        · rw [hgll, hgX]
          omega
        · rw [hgll, hgX]
          omega
        · rw [hgY, hgr]
          omega
        · rw [hgY, hgr]
          omega
      · rw [valuesM_rotateRight, hsl]
        simp only [valuesM, valuesM_rotateLeft]
        ext a
        simp [Multiset.count_cons, Multiset.count_add]
        ring
      · rw [hm, realHeight_node, realHeight_node, realHeight_node]
        omega

/-- Mirror of `repair_leftRight`: right-left double rotation. -/
theorem repair_rightLeft (u : Int) (l r : AVLNode) (h : Int) (id : Nat)
    (hcl : HeightsCorrect l) (hcr : HeightsCorrect r)
    (hbl : BalancedCached l) (hbr : BalancedCached r)
    (hord : Ordered (AVLNode.node u l r h id))
    (hdiff : realHeight r = realHeight l + 2)
    (hrbal : 0 < realHeight (leftOf r) - realHeight (rightOf r)) :
    Ordered (rotateLeft (setRight (updateHeight (AVLNode.node u l r h id))
      (rotateRight (rightOf (updateHeight (AVLNode.node u l r h id)))))) ∧
    HeightsCorrect (rotateLeft (setRight (updateHeight (AVLNode.node u l r h id))
      (rotateRight (rightOf (updateHeight (AVLNode.node u l r h id)))))) ∧
    BalancedCached (rotateLeft (setRight (updateHeight (AVLNode.node u l r h id))
      (rotateRight (rightOf (updateHeight (AVLNode.node u l r h id)))))) ∧
    valuesM (rotateLeft (setRight (updateHeight (AVLNode.node u l r h id))
      (rotateRight (rightOf (updateHeight (AVLNode.node u l r h id)))))) =
      valuesM (AVLNode.node u l r h id) ∧
    realHeight (rotateLeft (setRight (updateHeight (AVLNode.node u l r h id))
      (rotateRight (rightOf (updateHeight (AVLNode.node u l r h id)))))) =
      realHeight l + 2 := by
  match r, hcr, hbr, hrbal, hdiff with
  | AVLNode.nil, _, _, _, hdiff =>
      exfalso
      have := realHeight_nonneg l
      have h0 : realHeight AVLNode.nil = 0 := rfl
      omega
  | AVLNode.node rv AVLNode.nil rr rh' rid, _, _, hrbal, _ =>
      exfalso
      have := realHeight_nonneg rr
      have h0 : realHeight (leftOf (AVLNode.node rv AVLNode.nil rr rh' rid)) = 0 := rfl
      have h1 : realHeight (rightOf (AVLNode.node rv AVLNode.nil rr rh' rid)) =
          realHeight rr := rfl
      omega
  | AVLNode.node rv (AVLNode.node w X Y wh wid) rr rh' rid, hcr, hbr, hrbal, hdiff =>
      have hm : rotateLeft (setRight (updateHeight (AVLNode.node u l
            (AVLNode.node rv (AVLNode.node w X Y wh wid) rr rh' rid) h id))
            (rotateRight (rightOf (updateHeight (AVLNode.node u l
            (AVLNode.node rv (AVLNode.node w X Y wh wid) rr rh' rid) h id))))) =
          AVLNode.node w
            (AVLNode.node u l X (1 + max (getHeight l) (getHeight X)) id)
            (AVLNode.node rv Y rr (1 + max (getHeight Y) (getHeight rr)) rid)
            (1 + max (1 + max (getHeight l) (getHeight X))
              (1 + max (getHeight Y) (getHeight rr))) wid := rfl
      have hsr : setRight (updateHeight (AVLNode.node u l
            (AVLNode.node rv (AVLNode.node w X Y wh wid) rr rh' rid) h id))
            (rotateRight (rightOf (updateHeight (AVLNode.node u l
            (AVLNode.node rv (AVLNode.node w X Y wh wid) rr rh' rid) h id)))) =
          AVLNode.node u l
            (rotateRight (AVLNode.node rv (AVLNode.node w X Y wh wid) rr rh' rid))
            (1 + max (getHeight l)
              (getHeight (AVLNode.node rv (AVLNode.node w X Y wh wid) rr rh' rid))) id := rfl
      have hgX : getHeight X = realHeight X := getHeight_eq X hcr.2.1.2.1
      have hgY : getHeight Y = realHeight Y := getHeight_eq Y hcr.2.1.2.2
      have hgrr : getHeight rr = realHeight rr := getHeight_eq rr hcr.2.2
      have hgl : getHeight l = realHeight l := getHeight_eq l hcl
      have hwh : wh = 1 + max (realHeight X) (realHeight Y) := hcr.2.1.1
      have hlb : realHeight (leftOf (AVLNode.node rv
          (AVLNode.node w X Y wh wid) rr rh' rid)) =
          1 + max (realHeight X) (realHeight Y) := rfl
      have hrb : realHeight (rightOf (AVLNode.node rv
          (AVLNode.node w X Y wh wid) rr rh' rid)) = realHeight rr := rfl
      rw [hlb, hrb] at hrbal
      have hrr0 : realHeight (AVLNode.node rv (AVLNode.node w X Y wh wid) rr rh' rid) =
          1 + max (1 + max (realHeight X) (realHeight Y)) (realHeight rr) := rfl
      rw [hrr0] at hdiff
      have hb1 : -1 ≤ wh - getHeight rr := hbr.1
      have hb2 : wh - getHeight rr ≤ 1 := hbr.2.1
      rw [hgrr, hwh] at hb1 hb2
      have hb3 : -1 ≤ getHeight X - getHeight Y := hbr.2.2.1.1
      have hb4 : getHeight X - getHeight Y ≤ 1 := hbr.2.2.1.2.1
      rw [hgX, hgY] at hb3 hb4
      have hmax1 := max_choice (realHeight X) (realHeight Y)
      have hmax1a := le_max_left (realHeight X) (realHeight Y)
      have hmax1b := le_max_right (realHeight X) (realHeight Y)
      have hmax2 := max_choice (1 + max (realHeight X) (realHeight Y))
        (realHeight rr)
      have hmax2a := le_max_left (1 + max (realHeight X) (realHeight Y))
        (realHeight rr)
      have hmax3 := max_choice (realHeight l) (realHeight X)
      have hmax3a := le_max_left (realHeight l) (realHeight X)
      have hmax3b := le_max_right (realHeight l) (realHeight X)
      have hmax4 := max_choice (realHeight Y) (realHeight rr)
      have hmax4a := le_max_left (realHeight Y) (realHeight rr)
      have hmax4b := le_max_right (realHeight Y) (realHeight rr)
      have hmax5 := max_choice (1 + max (realHeight l) (realHeight X))
        (1 + max (realHeight Y) (realHeight rr))
      have hmax5a := le_max_left (1 + max (realHeight l) (realHeight X))
        (1 + max (realHeight Y) (realHeight rr))
      refine ⟨?_, ?_, ?_, ?_, ?_⟩
      · apply ordered_rotateLeft
        rw [hsr]
        refine ⟨hord.1, ?_, hord.2.2.1, ordered_rotateRight _ hord.2.2.2⟩
        intro z hz
        rw [valuesM_rotateRight] at hz
        exact hord.2.1 z hz
      · rw [hm]
        refine ⟨?_, ⟨?_, hcl, hcr.2.1.2.1⟩, ?_, hcr.2.1.2.2, hcr.2.2⟩
        · rw [realHeight_node, realHeight_node, hgl, hgX, hgY, hgrr]
        · rw [hgl, hgX]
        · rw [hgY, hgrr]
      · rw [hm]
        refine ⟨?_, ?_, ⟨?_, ?_, hbl, hbr.2.2.1.2.2.1⟩,
          ?_, ?_, hbr.2.2.1.2.2.2, hbr.2.2.2⟩
        · show -1 ≤ (1 + max (getHeight l) (getHeight X)) -
            (1 + max (getHeight Y) (getHeight rr))
          rw [hgl, hgX, hgY, hgrr]
          omega
        · show (1 + max (getHeight l) (getHeight X)) -
            (1 + max (getHeight Y) (getHeight rr)) ≤ 1
          rw [hgl, hgX, hgY, hgrr]
          omega
        · rw [hgl, hgX]
          omega
        · rw [hgl, hgX]
          omega
        · rw [hgY, hgrr]
          omega
        · rw [hgY, hgrr]
          omega
      · rw [valuesM_rotateLeft, hsr]
        simp only [valuesM, valuesM_rotateRight]
        ext a
        simp [Multiset.count_cons, Multiset.count_add]
        ring
      · rw [hm, realHeight_node, realHeight_node, realHeight_node]
        omega

/-- On a tree with correct cached heights and cached balances in range, the
recomputed root balance is also in range. -/
theorem realBal_bounds (t : AVLNode) (hc : HeightsCorrect t) (hb : BalancedCached t) :
    -1 ≤ realHeight (leftOf t) - realHeight (rightOf t) ∧
    realHeight (leftOf t) - realHeight (rightOf t) ≤ 1 := by
  cases t with
  | nil =>
      have h0 : realHeight (leftOf AVLNode.nil) = 0 := rfl
      have h1 : realHeight (rightOf AVLNode.nil) = 0 := rfl
      omega
  | node v l r h id =>
      have h1 := hb.1
      have h2 := hb.2.1
      rw [getHeight_eq l hc.2.1, getHeight_eq r hc.2.2] at h1 h2
      exact ⟨h1, h2⟩

/-- Full specification of the delete-side rebalancing step: at a node whose
children satisfy the invariants, whose subtree is ordered, and whose children
heights differ by at most 2, the result is ordered, height-correct, balanced,
value-preserving, its height is `max` or `1 + max` of the children heights,
and when the children differ by at most 1 the step is a pure height refresh. -/
theorem rebalanceDel_spec (u : Int) (l r : AVLNode) (h : Int) (id : Nat)
    (rot : RotationType) (evs : List RotationType)
    (hcl : HeightsCorrect l) (hcr : HeightsCorrect r)
    (hbl : BalancedCached l) (hbr : BalancedCached r)
    (hord : Ordered (AVLNode.node u l r h id))
    (hd1 : realHeight l - realHeight r ≤ 2) (hd2 : realHeight r - realHeight l ≤ 2) :
    Ordered (rebalanceDel (AVLNode.node u l r h id) rot evs).1 ∧
    HeightsCorrect (rebalanceDel (AVLNode.node u l r h id) rot evs).1 ∧
    BalancedCached (rebalanceDel (AVLNode.node u l r h id) rot evs).1 ∧
    valuesM (rebalanceDel (AVLNode.node u l r h id) rot evs).1 =
      valuesM (AVLNode.node u l r h id) ∧
    max (realHeight l) (realHeight r) ≤
      realHeight (rebalanceDel (AVLNode.node u l r h id) rot evs).1 ∧
    realHeight (rebalanceDel (AVLNode.node u l r h id) rot evs).1 ≤
      1 + max (realHeight l) (realHeight r) ∧
    (realHeight l - realHeight r ≤ 1 → realHeight r - realHeight l ≤ 1 →
      rebalanceDel (AVLNode.node u l r h id) rot evs =
        (updateHeight (AVLNode.node u l r h id), rot, evs)) := by
  have hBal : getBalance (updateHeight (AVLNode.node u l r h id)) =
      realHeight l - realHeight r := by
    show getHeight l - getHeight r = _
    rw [getHeight_eq l hcl, getHeight_eq r hcr]
  have hLB : getBalance (leftOf (updateHeight (AVLNode.node u l r h id))) =
      realHeight (leftOf l) - realHeight (rightOf l) := getBalance_eq_real l hcl
  have hRB : getBalance (rightOf (updateHeight (AVLNode.node u l r h id))) =
      realHeight (leftOf r) - realHeight (rightOf r) := getBalance_eq_real r hcr
  have hmaxc := max_choice (realHeight l) (realHeight r)
  have hmaxa := le_max_left (realHeight l) (realHeight r)
  have hmaxb := le_max_right (realHeight l) (realHeight r)
  by_cases hsm : realHeight l - realHeight r ≤ 1 ∧ realHeight r - realHeight l ≤ 1
  · have hno : rebalanceDel (AVLNode.node u l r h id) rot evs =
        (updateHeight (AVLNode.node u l r h id), rot, evs) :=
      rebalanceDel_noop _ _ _ (by rw [hBal]; omega) (by rw [hBal]; omega)
    have hh : realHeight (updateHeight (AVLNode.node u l r h id)) =
        1 + max (realHeight l) (realHeight r) := by
      rw [realHeight_updateHeight]; rfl
    rw [hno]
    dsimp only
    refine ⟨(ordered_updateHeight _).mpr hord, hc_updateHeight u l r h id hcl hcr,
      bal_updateHeight u l r h id hbl hbr ?_ ?_, valuesM_updateHeight _,
      ?_, ?_, fun _ _ => rfl⟩
    · rw [getHeight_eq l hcl, getHeight_eq r hcr]; omega
    · rw [getHeight_eq l hcl, getHeight_eq r hcr]; omega
    · omega
    · omega
  · by_cases hL : realHeight l = realHeight r + 2
    · by_cases hc1 : 0 ≤ realHeight (leftOf l) - realHeight (rightOf l)
      · have hres : rebalanceDel (AVLNode.node u l r h id) rot evs =
            (rotateRight (updateHeight (AVLNode.node u l r h id)),
              RotationType.RIGHT, evs ++ [RotationType.RIGHT]) := by
          unfold rebalanceDel
          dsimp only
          rw [if_pos ⟨by rw [hBal]; omega, by rw [hLB]; omega⟩]
        obtain ⟨o1, o2, o3, o4, o5, o6, _⟩ :=
          repair_right u l r h id hcl hcr hbl hbr hord hL hc1
        rw [hres]
        dsimp only
        exact ⟨o1, o2, o3, o4, by omega, by omega, fun hx _ => absurd hx (by omega)⟩
      · have hres : rebalanceDel (AVLNode.node u l r h id) rot evs =
            (rotateRight (setLeft (updateHeight (AVLNode.node u l r h id))
              (rotateLeft (leftOf (updateHeight (AVLNode.node u l r h id))))),
              RotationType.LEFT_RIGHT, evs ++ [RotationType.LEFT_RIGHT]) := by
          unfold rebalanceDel
          dsimp only
          rw [if_neg (fun hcc => absurd hcc.2 (by rw [hLB]; omega)),
            if_pos ⟨by rw [hBal]; omega, by rw [hLB]; omega⟩]
        obtain ⟨o1, o2, o3, o4, o5⟩ :=
          repair_leftRight u l r h id hcl hcr hbl hbr hord hL (by omega)
        rw [hres]
        dsimp only
        exact ⟨o1, o2, o3, o4, by omega, by omega, fun hx _ => absurd hx (by omega)⟩
    · have hR : realHeight r = realHeight l + 2 := by omega
      by_cases hc3 : realHeight (leftOf r) - realHeight (rightOf r) ≤ 0
      · have hres : rebalanceDel (AVLNode.node u l r h id) rot evs =
            (rotateLeft (updateHeight (AVLNode.node u l r h id)),
              RotationType.LEFT, evs ++ [RotationType.LEFT]) := by
          unfold rebalanceDel
          dsimp only
          rw [if_neg (fun hcc => absurd hcc.1 (by rw [hBal]; omega)),
            if_neg (fun hcc => absurd hcc.1 (by rw [hBal]; omega)),
            if_pos ⟨by rw [hBal]; omega, by rw [hRB]; omega⟩]
        obtain ⟨o1, o2, o3, o4, o5, o6, _⟩ :=
          repair_left u l r h id hcl hcr hbl hbr hord hR hc3
        rw [hres]
        dsimp only
        exact ⟨o1, o2, o3, o4, by omega, by omega, fun _ hy => absurd hy (by omega)⟩
      · have hres : rebalanceDel (AVLNode.node u l r h id) rot evs =
            (rotateLeft (setRight (updateHeight (AVLNode.node u l r h id))
              (rotateRight (rightOf (updateHeight (AVLNode.node u l r h id))))),
              RotationType.RIGHT_LEFT, evs ++ [RotationType.RIGHT_LEFT]) := by
          unfold rebalanceDel
          dsimp only
          rw [if_neg (fun hcc => absurd hcc.1 (by rw [hBal]; omega)),
            if_neg (fun hcc => absurd hcc.1 (by rw [hBal]; omega)),
            if_neg (fun hcc => absurd hcc.2 (by rw [hRB]; omega)),
            if_pos ⟨by rw [hBal]; omega, by rw [hRB]; omega⟩]
        obtain ⟨o1, o2, o3, o4, o5⟩ :=
          repair_rightLeft u l r h id hcl hcr hbl hbr hord hR (by omega)
        rw [hres]
        dsimp only
        exact ⟨o1, o2, o3, o4, by omega, by omega, fun _ hy => absurd hy (by omega)⟩

/-- Full specification of the insert-side rebalancing step.  The two
direction hypotheses say that when a child got two levels higher, the
inserted value went into that child's taller side (which is what the
recursion guarantees); under them the step restores all invariants, and a
triggered rotation brings the height to exactly `max` of the children
heights while appending one event. -/
theorem rebalanceIns_spec (u : Int) (l r : AVLNode) (h : Int) (id : Nat)
    (v : Int) (rot : RotationType) (evs : List RotationType)
    (hcl : HeightsCorrect l) (hcr : HeightsCorrect r)
    (hbl : BalancedCached l) (hbr : BalancedCached r)
    (hord : Ordered (AVLNode.node u l r h id))
    (hd1 : realHeight l - realHeight r ≤ 2) (hd2 : realHeight r - realHeight l ≤ 2)
    (hdirL : realHeight l = realHeight r + 2 →
      (v < nodeValue l ∧ 0 < realHeight (leftOf l) - realHeight (rightOf l)) ∨
      (nodeValue l < v ∧ realHeight (leftOf l) - realHeight (rightOf l) < 0))
    (hdirR : realHeight r = realHeight l + 2 →
      (nodeValue r < v ∧ realHeight (leftOf r) - realHeight (rightOf r) < 0) ∨
      (v < nodeValue r ∧ 0 < realHeight (leftOf r) - realHeight (rightOf r))) :
    Ordered (rebalanceIns (AVLNode.node u l r h id) v rot evs).1 ∧
    HeightsCorrect (rebalanceIns (AVLNode.node u l r h id) v rot evs).1 ∧
    BalancedCached (rebalanceIns (AVLNode.node u l r h id) v rot evs).1 ∧
    valuesM (rebalanceIns (AVLNode.node u l r h id) v rot evs).1 =
      valuesM (AVLNode.node u l r h id) ∧
    (realHeight l - realHeight r ≤ 1 → realHeight r - realHeight l ≤ 1 →
      rebalanceIns (AVLNode.node u l r h id) v rot evs =
        (updateHeight (AVLNode.node u l r h id), rot, evs)) ∧
    (¬(realHeight l - realHeight r ≤ 1 ∧ realHeight r - realHeight l ≤ 1) →
      realHeight (rebalanceIns (AVLNode.node u l r h id) v rot evs).1 =
        max (realHeight l) (realHeight r) ∧
      ∃ X, (rebalanceIns (AVLNode.node u l r h id) v rot evs).2.2 = evs ++ [X]) := by
  have hBal : getBalance (updateHeight (AVLNode.node u l r h id)) =
      realHeight l - realHeight r := by
    show getHeight l - getHeight r = _
    rw [getHeight_eq l hcl, getHeight_eq r hcr]
  have hnvL : nodeValue (leftOf (updateHeight (AVLNode.node u l r h id))) =
      nodeValue l := rfl
  have hnvR : nodeValue (rightOf (updateHeight (AVLNode.node u l r h id))) =
      nodeValue r := rfl
  have hmaxc := max_choice (realHeight l) (realHeight r)
  have hmaxa := le_max_left (realHeight l) (realHeight r)
  have hmaxb := le_max_right (realHeight l) (realHeight r)
  by_cases hsm : realHeight l - realHeight r ≤ 1 ∧ realHeight r - realHeight l ≤ 1
  · have hno : rebalanceIns (AVLNode.node u l r h id) v rot evs =
        (updateHeight (AVLNode.node u l r h id), rot, evs) :=
      rebalanceIns_noop _ _ _ _ (by rw [hBal]; omega) (by rw [hBal]; omega)
    rw [hno]
    dsimp only
    refine ⟨(ordered_updateHeight _).mpr hord, hc_updateHeight u l r h id hcl hcr,
      bal_updateHeight u l r h id hbl hbr ?_ ?_, valuesM_updateHeight _,
      fun _ _ => rfl, fun hx => absurd hsm hx⟩
    · rw [getHeight_eq l hcl, getHeight_eq r hcr]; omega
    · rw [getHeight_eq l hcl, getHeight_eq r hcr]; omega
  · by_cases hL : realHeight l = realHeight r + 2
    · have hlbb := realBal_bounds l hcl hbl
      rcases hdirL hL with ⟨hva, hba⟩ | ⟨hvb, hbb⟩
      · have hres : rebalanceIns (AVLNode.node u l r h id) v rot evs =
            (rotateRight (updateHeight (AVLNode.node u l r h id)),
              RotationType.RIGHT, evs ++ [RotationType.RIGHT]) := by
          unfold rebalanceIns
          dsimp only
          rw [if_pos ⟨by rw [hBal]; omega, hva⟩]
        obtain ⟨o1, o2, o3, o4, o5, o6, o7⟩ :=
          repair_right u l r h id hcl hcr hbl hbr hord hL (by omega)
        have o8 := o7 (by omega)
        rw [hres]
        dsimp only
        exact ⟨o1, o2, o3, o4, fun hx _ => absurd hx (by omega),
          fun _ => ⟨by omega, RotationType.RIGHT, rfl⟩⟩
      · have hres : rebalanceIns (AVLNode.node u l r h id) v rot evs =
            (rotateRight (setLeft (updateHeight (AVLNode.node u l r h id))
              (rotateLeft (leftOf (updateHeight (AVLNode.node u l r h id))))),
              RotationType.LEFT_RIGHT, evs ++ [RotationType.LEFT_RIGHT]) := by
          unfold rebalanceIns
          dsimp only
          rw [if_neg (fun hcc => absurd hcc.2 (by rw [hnvL]; omega)),
            if_neg (fun hcc => absurd hcc.1 (by rw [hBal]; omega)),
            if_pos ⟨by rw [hBal]; omega, hvb⟩]
        obtain ⟨o1, o2, o3, o4, o5⟩ :=
          repair_leftRight u l r h id hcl hcr hbl hbr hord hL (by omega)
        rw [hres]
        dsimp only
        exact ⟨o1, o2, o3, o4, fun hx _ => absurd hx (by omega),
          fun _ => ⟨by omega, RotationType.LEFT_RIGHT, rfl⟩⟩
    · have hR : realHeight r = realHeight l + 2 := by omega
      have hrbb := realBal_bounds r hcr hbr
      rcases hdirR hR with ⟨hva, hba⟩ | ⟨hvb, hbb⟩
      · have hres : rebalanceIns (AVLNode.node u l r h id) v rot evs =
            (rotateLeft (updateHeight (AVLNode.node u l r h id)),
              RotationType.LEFT, evs ++ [RotationType.LEFT]) := by
          unfold rebalanceIns
          dsimp only
          rw [if_neg (fun hcc => absurd hcc.1 (by rw [hBal]; omega)),
            if_pos ⟨by rw [hBal]; omega, hva⟩]
        obtain ⟨o1, o2, o3, o4, o5, o6, o7⟩ :=
          repair_left u l r h id hcl hcr hbl hbr hord hR (by omega)
        have o8 := o7 (by omega)
        rw [hres]
        dsimp only
        exact ⟨o1, o2, o3, o4, fun _ hy => absurd hy (by omega),
          fun _ => ⟨by omega, RotationType.LEFT, rfl⟩⟩
      · have hres : rebalanceIns (AVLNode.node u l r h id) v rot evs =
            (rotateLeft (setRight (updateHeight (AVLNode.node u l r h id))
              (rotateRight (rightOf (updateHeight (AVLNode.node u l r h id))))),
              RotationType.RIGHT_LEFT, evs ++ [RotationType.RIGHT_LEFT]) := by
          unfold rebalanceIns
          dsimp only
          rw [if_neg (fun hcc => absurd hcc.1 (by rw [hBal]; omega)),
            if_neg (fun hcc => absurd hcc.2 (by rw [hnvR]; omega)),
            if_neg (fun hcc => absurd hcc.1 (by rw [hBal]; omega)),
            if_pos ⟨by rw [hBal]; omega, hvb⟩]
        obtain ⟨o1, o2, o3, o4, o5⟩ :=
          repair_rightLeft u l r h id hcl hcr hbl hbr hord hR (by omega)
        rw [hres]
        dsimp only
        exact ⟨o1, o2, o3, o4, fun _ hy => absurd hy (by omega),
          fun _ => ⟨by omega, RotationType.RIGHT_LEFT, rfl⟩⟩

/-- A tree of positive recomputed height is not null. -/
theorem realHeight_pos_ne_nil (t : AVLNode) (hpos : 0 < realHeight t) :
    t ≠ AVLNode.nil := by
  intro he
  rw [he] at hpos
  exact absurd hpos (by decide)

/-- Full specification of `insertHelper` on a valid tree not containing the
inserted value: the result is ordered, height-correct and balanced, its
values are the old ones plus `v`, its height grows by at most one, and when
it grows at a non-null node the root value is on the opposite side of `v`
and the recomputed balance leans towards the insertion side. -/
theorem insertHelper_spec :
    ∀ (t : AVLNode) (v : Int) (s0 : Bool) (p0 : List Nat) (rot0 : RotationType)
      (evs0 : List RotationType) (nid : Nat),
      Ordered t → HeightsCorrect t → BalancedCached t → v ∉ valuesM t →
      Ordered (insertHelper t v s0 p0 rot0 evs0 nid).tree ∧
      HeightsCorrect (insertHelper t v s0 p0 rot0 evs0 nid).tree ∧
      BalancedCached (insertHelper t v s0 p0 rot0 evs0 nid).tree ∧
      valuesM (insertHelper t v s0 p0 rot0 evs0 nid).tree = v ::ₘ valuesM t ∧
      realHeight t ≤ realHeight (insertHelper t v s0 p0 rot0 evs0 nid).tree ∧
      realHeight (insertHelper t v s0 p0 rot0 evs0 nid).tree ≤ realHeight t + 1 ∧
      (realHeight (insertHelper t v s0 p0 rot0 evs0 nid).tree = realHeight t + 1 →
        t ≠ AVLNode.nil →
        (v < nodeValue (insertHelper t v s0 p0 rot0 evs0 nid).tree ∧
          0 < realHeight (leftOf (insertHelper t v s0 p0 rot0 evs0 nid).tree) -
            realHeight (rightOf (insertHelper t v s0 p0 rot0 evs0 nid).tree)) ∨
        (nodeValue (insertHelper t v s0 p0 rot0 evs0 nid).tree < v ∧
          realHeight (leftOf (insertHelper t v s0 p0 rot0 evs0 nid).tree) -
            realHeight (rightOf (insertHelper t v s0 p0 rot0 evs0 nid).tree) < 0)) ∧
      (realHeight (insertHelper t v s0 p0 rot0 evs0 nid).tree = realHeight t + 1 →
        t ≠ AVLNode.nil →
        (v < nodeValue t →
          (insertHelper t v s0 p0 rot0 evs0 nid).tree =
            updateHeight (setLeft t
              (insertHelper (leftOf t) v s0 (p0 ++ [nodeId t]) rot0 evs0
                nid).tree)) ∧
        (nodeValue t < v →
          (insertHelper t v s0 p0 rot0 evs0 nid).tree =
            updateHeight (setRight t
              (insertHelper (rightOf t) v s0 (p0 ++ [nodeId t]) rot0 evs0
                nid).tree))) := by
  intro t
  induction t with
  | nil =>
      intro v s0 p0 rot0 evs0 nid _ _ _ _
      simp only [insertHelper]
      refine ⟨⟨?_, ?_, trivial, trivial⟩, ⟨by decide, trivial, trivial⟩,
        ⟨by decide, by decide, trivial, trivial⟩, by simp [valuesM], ?_, ?_, ?_, ?_⟩
      · intro x hx
        exact absurd hx (by simp [valuesM])
      · intro x hx
        exact absurd hx (by simp [valuesM])
      · show (0 : Int) ≤ 1 + max 0 0
        norm_num
      · show 1 + max 0 0 ≤ (0 : Int) + 1
        norm_num
      · exact fun _ hne => absurd rfl hne
      · exact fun _ hne => absurd rfl hne
  | node u l r h id ihl ihr =>
      intro v s0 p0 rot0 evs0 nid hord hc hb hnv
      have hvl : v ∉ valuesM l := fun hm => hnv
        (Multiset.mem_cons_of_mem (Multiset.mem_add.mpr (Or.inl hm)))
      have hvr : v ∉ valuesM r := fun hm => hnv
        (Multiset.mem_cons_of_mem (Multiset.mem_add.mpr (Or.inr hm)))
      have hblr1 : realHeight l - realHeight r ≤ 1 := by
        have := hb.2.1
        rw [getHeight_eq l hc.2.1, getHeight_eq r hc.2.2] at this
        omega
      have hblr2 : realHeight r - realHeight l ≤ 1 := by
        have := hb.1
        rw [getHeight_eq l hc.2.1, getHeight_eq r hc.2.2] at this
        omega
      have hrt : realHeight (AVLNode.node u l r h id) =
          1 + max (realHeight l) (realHeight r) := rfl
      have hmaxc := max_choice (realHeight l) (realHeight r)
      have hmaxa := le_max_left (realHeight l) (realHeight r)
      have hmaxb := le_max_right (realHeight l) (realHeight r)
      simp only [insertHelper]
      by_cases hv1 : v < u
      · rw [if_pos hv1]
        dsimp only
        obtain ⟨i1, i2, i3, i4, i5, i6, i7, i8⟩ :=
          ihl v s0 (p0 ++ [id]) rot0 evs0 nid hord.2.2.1 hc.2.1 hb.2.2.1 hvl
        have hordm : Ordered (AVLNode.node u
            (insertHelper l v s0 (p0 ++ [id]) rot0 evs0 nid).tree r h id) := by
          refine ⟨?_, hord.2.1, i1, hord.2.2.2⟩
          intro x hx
          rw [i4] at hx
          rcases Multiset.mem_cons.mp hx with hx | hx
          · rw [hx]; exact hv1
          · exact hord.1 x hx
        obtain ⟨r1, r2, r3, r4, r5, r6⟩ :=
          rebalanceIns_spec u (insertHelper l v s0 (p0 ++ [id]) rot0 evs0 nid).tree
            r h id v
            (insertHelper l v s0 (p0 ++ [id]) rot0 evs0 nid).rotation
            (insertHelper l v s0 (p0 ++ [id]) rot0 evs0 nid).rotEvents
            i2 hc.2.2 i3 hb.2.2.2 hordm (by omega) (by omega)
            (fun hgrow => by
              have hgl : realHeight (insertHelper l v s0 (p0 ++ [id]) rot0 evs0
                  nid).tree = realHeight l + 1 := by omega
              have hlne : l ≠ AVLNode.nil :=
                realHeight_pos_ne_nil l (by have := realHeight_nonneg r; omega)
              exact i7 hgl hlne)
            (fun habs => absurd habs (by omega))
        have hmaxc2 := max_choice
          (realHeight (insertHelper l v s0 (p0 ++ [id]) rot0 evs0 nid).tree)
          (realHeight r)
        have hmaxa2 := le_max_left
          (realHeight (insertHelper l v s0 (p0 ++ [id]) rot0 evs0 nid).tree)
          (realHeight r)
        have hmaxb2 := le_max_right
          (realHeight (insertHelper l v s0 (p0 ++ [id]) rot0 evs0 nid).tree)
          (realHeight r)
        by_cases hss : realHeight (insertHelper l v s0 (p0 ++ [id]) rot0 evs0
              nid).tree - realHeight r ≤ 1 ∧
            realHeight r - realHeight (insertHelper l v s0 (p0 ++ [id]) rot0 evs0
              nid).tree ≤ 1
        · have hnoeq := r5 hss.1 hss.2
          have hhh : realHeight (rebalanceIns (AVLNode.node u
              (insertHelper l v s0 (p0 ++ [id]) rot0 evs0 nid).tree r h id) v
              (insertHelper l v s0 (p0 ++ [id]) rot0 evs0 nid).rotation
              (insertHelper l v s0 (p0 ++ [id]) rot0 evs0 nid).rotEvents).1 =
              1 + max (realHeight (insertHelper l v s0 (p0 ++ [id]) rot0 evs0
                nid).tree) (realHeight r) := by
            rw [hnoeq]
            dsimp only
            rw [realHeight_updateHeight]
            rfl
          refine ⟨r1, r2, r3, ?_, by omega, by omega, ?_, ?_⟩
          · rw [r4]
            simp only [valuesM]
            rw [i4]
            ext a
            simp [Multiset.count_cons, Multiset.count_add]
            ring
          · intro hgrew _
            rw [hnoeq]
            dsimp only
            left
            refine ⟨hv1, ?_⟩
            have hL2 : realHeight (leftOf (updateHeight (AVLNode.node u
                (insertHelper l v s0 (p0 ++ [id]) rot0 evs0 nid).tree r h id))) =
                realHeight (insertHelper l v s0 (p0 ++ [id]) rot0 evs0 nid).tree :=
              rfl
            have hR2 : realHeight (rightOf (updateHeight (AVLNode.node u
                (insertHelper l v s0 (p0 ++ [id]) rot0 evs0 nid).tree r h id))) =
                realHeight r := rfl
            rw [hL2, hR2]
            omega
          · intro hgrew _
            refine ⟨fun _ => ?_, fun huv => absurd (show u < v from huv) (by omega)⟩
            rw [hnoeq]
            rfl
        · obtain ⟨hrh, _⟩ := r6 hss
          refine ⟨r1, r2, r3, ?_, by omega, by omega, ?_, ?_⟩
          · rw [r4]
            simp only [valuesM]
            rw [i4]
            ext a
            simp [Multiset.count_cons, Multiset.count_add]
            ring
          · intro hgrew _
            exact absurd hgrew (by omega)
          · intro hgrew _
            exact absurd hgrew (by omega)
      · rw [if_neg hv1]
        by_cases hv2 : u < v
        · rw [if_pos hv2]
          dsimp only
          obtain ⟨i1, i2, i3, i4, i5, i6, i7, i8⟩ :=
            ihr v s0 (p0 ++ [id]) rot0 evs0 nid hord.2.2.2 hc.2.2 hb.2.2.2 hvr
          have hordm : Ordered (AVLNode.node u l
              (insertHelper r v s0 (p0 ++ [id]) rot0 evs0 nid).tree h id) := by
            refine ⟨hord.1, ?_, hord.2.2.1, i1⟩
            intro x hx
            rw [i4] at hx
            rcases Multiset.mem_cons.mp hx with hx | hx
            · rw [hx]; exact hv2
            · exact hord.2.1 x hx
          obtain ⟨r1, r2, r3, r4, r5, r6⟩ :=
            rebalanceIns_spec u l
              (insertHelper r v s0 (p0 ++ [id]) rot0 evs0 nid).tree h id v
              (insertHelper r v s0 (p0 ++ [id]) rot0 evs0 nid).rotation
              (insertHelper r v s0 (p0 ++ [id]) rot0 evs0 nid).rotEvents
              hc.2.1 i2 hb.2.2.1 i3 hordm (by omega) (by omega)
              (fun habs => absurd habs (by omega))
              (fun hgrow => by
                have hgr : realHeight (insertHelper r v s0 (p0 ++ [id]) rot0 evs0
                    nid).tree = realHeight r + 1 := by omega
                have hrne : r ≠ AVLNode.nil :=
                  realHeight_pos_ne_nil r (by have := realHeight_nonneg l; omega)
                rcases i7 hgr hrne with hcase | hcase
                · exact Or.inr hcase
                · exact Or.inl hcase)
          have hmaxc2 := max_choice (realHeight l)
            (realHeight (insertHelper r v s0 (p0 ++ [id]) rot0 evs0 nid).tree)
          have hmaxa2 := le_max_left (realHeight l)
            (realHeight (insertHelper r v s0 (p0 ++ [id]) rot0 evs0 nid).tree)
          have hmaxb2 := le_max_right (realHeight l)
            (realHeight (insertHelper r v s0 (p0 ++ [id]) rot0 evs0 nid).tree)
          by_cases hss : realHeight l - realHeight (insertHelper r v s0 (p0 ++ [id])
                rot0 evs0 nid).tree ≤ 1 ∧
              realHeight (insertHelper r v s0 (p0 ++ [id]) rot0 evs0 nid).tree -
                realHeight l ≤ 1
          · have hnoeq := r5 hss.1 hss.2
            have hhh : realHeight (rebalanceIns (AVLNode.node u l
                (insertHelper r v s0 (p0 ++ [id]) rot0 evs0 nid).tree h id) v
                (insertHelper r v s0 (p0 ++ [id]) rot0 evs0 nid).rotation
                (insertHelper r v s0 (p0 ++ [id]) rot0 evs0 nid).rotEvents).1 =
                1 + max (realHeight l)
                  (realHeight (insertHelper r v s0 (p0 ++ [id]) rot0 evs0
                    nid).tree) := by
              rw [hnoeq]
              dsimp only
              rw [realHeight_updateHeight]
              rfl
            refine ⟨r1, r2, r3, ?_, by omega, by omega, ?_, ?_⟩
            · rw [r4]
              simp only [valuesM]
              rw [i4]
              ext a
              simp [Multiset.count_cons, Multiset.count_add]
              ring
            · intro hgrew _
              rw [hnoeq]
              dsimp only
              right
              refine ⟨hv2, ?_⟩
              have hL2 : realHeight (leftOf (updateHeight (AVLNode.node u l
                  (insertHelper r v s0 (p0 ++ [id]) rot0 evs0 nid).tree h id))) =
                  realHeight l := rfl
              have hR2 : realHeight (rightOf (updateHeight (AVLNode.node u l
                  (insertHelper r v s0 (p0 ++ [id]) rot0 evs0 nid).tree h id))) =
                  realHeight (insertHelper r v s0 (p0 ++ [id]) rot0 evs0
                    nid).tree := rfl
              rw [hL2, hR2]
              omega
            · intro hgrew _
              refine ⟨fun hvu => absurd (show v < u from hvu) (by omega), fun _ => ?_⟩
              rw [hnoeq]
              rfl
          · obtain ⟨hrh, _⟩ := r6 hss
            refine ⟨r1, r2, r3, ?_, by omega, by omega, ?_, ?_⟩
            · rw [r4]
              simp only [valuesM]
              rw [i4]
              ext a
              simp [Multiset.count_cons, Multiset.count_add]
              ring
            · intro hgrew _
              exact absurd hgrew (by omega)
            · intro hgrew _
              exact absurd hgrew (by omega)
        · rw [if_neg hv2]
          exfalso
          apply hnv
          have hvu : v = u := le_antisymm (not_lt.mp hv2) (not_lt.mp hv1)
          rw [hvu]
          exact Multiset.mem_cons_self u _

/-- An ordered tree stores pairwise distinct values. -/
theorem ordered_nodup : ∀ (t : AVLNode), Ordered t → (valuesM t).Nodup := by
  intro t
  induction t with
  | nil => intro _; simp [valuesM]
  | node v l r h id ihl ihr =>
      intro hord
      show Multiset.Nodup (v ::ₘ (valuesM l + valuesM r))
      rw [Multiset.nodup_cons]
      constructor
      · intro hmem
        rcases Multiset.mem_add.mp hmem with hmem | hmem
        · exact absurd (hord.1 v hmem) (lt_irrefl v)
        · exact absurd (hord.2.1 v hmem) (lt_irrefl v)
      · rw [Multiset.nodup_add]
        refine ⟨ihl hord.2.2.1, ihr hord.2.2.2, ?_⟩
        rw [Multiset.disjoint_left]
        intro a hal har
        exact absurd ((hord.1 a hal).trans (hord.2.1 a har)) (lt_irrefl a)

/-- In an ordered tree, `findMin` reaches a value below every stored value. -/
theorem findMin_le : ∀ (t : AVLNode), Ordered t →
    ∀ x ∈ valuesM t, nodeValue (findMin t) ≤ x := by
  intro t
  induction t with
  | nil => intro _ x hx; exact absurd hx (by simp [valuesM])
  | node v l r h id ihl ihr =>
      intro hord x hx
      match l, ihl, hord, hx with
      | AVLNode.nil, _, hord, hx =>
          have hfm : nodeValue (findMin (AVLNode.node v AVLNode.nil r h id)) = v := rfl
          rw [hfm]
          rcases Multiset.mem_cons.mp hx with hx | hx
          · rw [hx]
          · rcases Multiset.mem_add.mp hx with hx | hx
            · exact absurd hx (by simp [valuesM])
            · exact le_of_lt (hord.2.1 x hx)
      | AVLNode.node lv ll lr lh lid, ihl, hord, hx =>
          have hfm : findMin (AVLNode.node v (AVLNode.node lv ll lr lh lid) r h id) =
              findMin (AVLNode.node lv ll lr lh lid) := rfl
          rw [hfm]
          have hmem := findMin_mem (AVLNode.node lv ll lr lh lid)
            (fun he => AVLNode.noConfusion he)
          have hlt : nodeValue (findMin (AVLNode.node lv ll lr lh lid)) < v :=
            hord.1 _ hmem
          rcases Multiset.mem_cons.mp hx with hx | hx
          · rw [hx]; exact le_of_lt hlt
          · rcases Multiset.mem_add.mp hx with hx | hx
            · exact ihl hord.2.2.1 x hx
            · exact le_of_lt (hlt.trans (hord.2.1 x hx))

/-- Full specification of `deleteHelper` on a valid tree: the result is
ordered, height-correct and balanced; when the value is present the result's
values are the old ones with one copy of `v` removed, when absent the tree
is returned unchanged; the height shrinks by at most one. -/
theorem deleteHelper_spec :
    ∀ (t : AVLNode) (v : Int) (s0 : Bool) (p0 : List Nat) (d0 : Option Nat)
      (rot0 : RotationType) (evs0 : List RotationType),
      Ordered t → HeightsCorrect t → BalancedCached t →
      Ordered (deleteHelper t v s0 p0 d0 rot0 evs0).tree ∧
      HeightsCorrect (deleteHelper t v s0 p0 d0 rot0 evs0).tree ∧
      BalancedCached (deleteHelper t v s0 p0 d0 rot0 evs0).tree ∧
      (v ∈ valuesM t → valuesM (deleteHelper t v s0 p0 d0 rot0 evs0).tree =
        (valuesM t).erase v) ∧
      (v ∉ valuesM t → (deleteHelper t v s0 p0 d0 rot0 evs0).tree = t) ∧
      realHeight t - 1 ≤ realHeight (deleteHelper t v s0 p0 d0 rot0 evs0).tree ∧
      realHeight (deleteHelper t v s0 p0 d0 rot0 evs0).tree ≤ realHeight t := by
  intro t
  induction t with
  | nil =>
      intro v s0 p0 d0 rot0 evs0 _ _ _
      simp only [deleteHelper]
      refine ⟨trivial, trivial, trivial, ?_, fun _ => trivial, ?_, ?_⟩
      · intro hmem
        exact absurd hmem (by simp [valuesM])
      · show (0 : Int) - 1 ≤ 0
        norm_num
      · show (0 : Int) ≤ 0
        norm_num
  | node u l r h id ihl ihr =>
      intro v s0 p0 d0 rot0 evs0 hord hc hb
      have hblr1 : realHeight l - realHeight r ≤ 1 := by
        have := hb.2.1
        rw [getHeight_eq l hc.2.1, getHeight_eq r hc.2.2] at this
        omega
      have hblr2 : realHeight r - realHeight l ≤ 1 := by
        have := hb.1
        rw [getHeight_eq l hc.2.1, getHeight_eq r hc.2.2] at this
        omega
      have hrt : realHeight (AVLNode.node u l r h id) =
          1 + max (realHeight l) (realHeight r) := rfl
      have hnn1 := realHeight_nonneg l
      have hnn2 := realHeight_nonneg r
      have hmaxc := max_choice (realHeight l) (realHeight r)
      have hmaxa := le_max_left (realHeight l) (realHeight r)
      have hmaxb := le_max_right (realHeight l) (realHeight r)
      simp only [deleteHelper]
      by_cases hv1 : v < u
      · rw [if_pos hv1]
        dsimp only
        obtain ⟨d1, d2, d3, d4, d5, d6, d7⟩ :=
          ihl v s0 (p0 ++ [id]) d0 rot0 evs0 hord.2.2.1 hc.2.1 hb.2.2.1
        have hsub : ∀ x ∈ valuesM (deleteHelper l v s0 (p0 ++ [id]) d0 rot0
            evs0).tree, x ∈ valuesM l := by
          intro x hx
          by_cases hmem : v ∈ valuesM l
          · rw [d4 hmem] at hx
            exact Multiset.mem_of_mem_erase hx
          · rw [d5 hmem] at hx
            exact hx
        have hordm : Ordered (AVLNode.node u
            (deleteHelper l v s0 (p0 ++ [id]) d0 rot0 evs0).tree r h id) :=
          ⟨fun x hx => hord.1 x (hsub x hx), hord.2.1, d1, hord.2.2.2⟩
        obtain ⟨r1, r2, r3, r4, r5, r6, r7⟩ :=
          rebalanceDel_spec u (deleteHelper l v s0 (p0 ++ [id]) d0 rot0 evs0).tree
            r h id
            (deleteHelper l v s0 (p0 ++ [id]) d0 rot0 evs0).rotation
            (deleteHelper l v s0 (p0 ++ [id]) d0 rot0 evs0).rotEvents
            d2 hc.2.2 d3 hb.2.2.2 hordm (by omega) (by omega)
        have hmaxc2 := max_choice
          (realHeight (deleteHelper l v s0 (p0 ++ [id]) d0 rot0 evs0).tree)
          (realHeight r)
        have hmaxa2 := le_max_left
          (realHeight (deleteHelper l v s0 (p0 ++ [id]) d0 rot0 evs0).tree)
          (realHeight r)
        have hmaxb2 := le_max_right
          (realHeight (deleteHelper l v s0 (p0 ++ [id]) d0 rot0 evs0).tree)
          (realHeight r)
        refine ⟨r1, r2, r3, ?_, ?_, ?_, by omega⟩
        · intro hmem
          have hml : v ∈ valuesM l := by
            rcases Multiset.mem_cons.mp hmem with he | hm
            · exact absurd he (by omega)
            · rcases Multiset.mem_add.mp hm with hm | hm
              · exact hm
              · exact absurd (hord.2.1 v hm) (by omega)
          rw [r4]
          show u ::ₘ (valuesM (deleteHelper l v s0 (p0 ++ [id]) d0 rot0
            evs0).tree + valuesM r) = (u ::ₘ (valuesM l + valuesM r)).erase v
          rw [d4 hml, Multiset.erase_cons_tail _ (by omega),
            Multiset.erase_add_left_pos _ hml]
        · intro hnmem
          have hnl : v ∉ valuesM l := fun hm => hnmem
            (Multiset.mem_cons_of_mem (Multiset.mem_add.mpr (Or.inl hm)))
          have h5 := d5 hnl
          rw [h5, rebalanceDel_noop (AVLNode.node u l r h id) _ _ hb.2.1 hb.1]
          exact updateHeight_self u l r h id hc
        · by_cases hdd : realHeight (deleteHelper l v s0 (p0 ++ [id]) d0 rot0
                evs0).tree - realHeight r ≤ 1 ∧
              realHeight r - realHeight (deleteHelper l v s0 (p0 ++ [id]) d0 rot0
                evs0).tree ≤ 1
          · have heq := r7 hdd.1 hdd.2
            rw [heq]
            dsimp only
            have hh2 : realHeight (updateHeight (AVLNode.node u
                (deleteHelper l v s0 (p0 ++ [id]) d0 rot0 evs0).tree r h id)) =
                1 + max (realHeight (deleteHelper l v s0 (p0 ++ [id]) d0 rot0
                  evs0).tree) (realHeight r) := by
              rw [realHeight_updateHeight]
              rfl
            omega
          · omega
      · rw [if_neg hv1]
        by_cases hv2 : u < v
        · rw [if_pos hv2]
          dsimp only
          obtain ⟨d1, d2, d3, d4, d5, d6, d7⟩ :=
            ihr v s0 (p0 ++ [id]) d0 rot0 evs0 hord.2.2.2 hc.2.2 hb.2.2.2
          have hsub : ∀ x ∈ valuesM (deleteHelper r v s0 (p0 ++ [id]) d0 rot0
              evs0).tree, x ∈ valuesM r := by
            intro x hx
            by_cases hmem : v ∈ valuesM r
            · rw [d4 hmem] at hx
              exact Multiset.mem_of_mem_erase hx
            · rw [d5 hmem] at hx
              exact hx
          have hordm : Ordered (AVLNode.node u l
              (deleteHelper r v s0 (p0 ++ [id]) d0 rot0 evs0).tree h id) :=
            ⟨hord.1, fun x hx => hord.2.1 x (hsub x hx), hord.2.2.1, d1⟩
          obtain ⟨r1, r2, r3, r4, r5, r6, r7⟩ :=
            rebalanceDel_spec u l
              (deleteHelper r v s0 (p0 ++ [id]) d0 rot0 evs0).tree h id
              (deleteHelper r v s0 (p0 ++ [id]) d0 rot0 evs0).rotation
              (deleteHelper r v s0 (p0 ++ [id]) d0 rot0 evs0).rotEvents
              hc.2.1 d2 hb.2.2.1 d3 hordm (by omega) (by omega)
          have hmaxc2 := max_choice (realHeight l)
            (realHeight (deleteHelper r v s0 (p0 ++ [id]) d0 rot0 evs0).tree)
          have hmaxa2 := le_max_left (realHeight l)
            (realHeight (deleteHelper r v s0 (p0 ++ [id]) d0 rot0 evs0).tree)
          have hmaxb2 := le_max_right (realHeight l)
            (realHeight (deleteHelper r v s0 (p0 ++ [id]) d0 rot0 evs0).tree)
          refine ⟨r1, r2, r3, ?_, ?_, ?_, by omega⟩
          · intro hmem
            have hmr : v ∈ valuesM r := by
              rcases Multiset.mem_cons.mp hmem with he | hm
              · exact absurd he (by omega)
              · rcases Multiset.mem_add.mp hm with hm | hm
                · exact absurd (hord.1 v hm) (by omega)
                · exact hm
            rw [r4]
            show u ::ₘ (valuesM l + valuesM (deleteHelper r v s0 (p0 ++ [id]) d0
              rot0 evs0).tree) = (u ::ₘ (valuesM l + valuesM r)).erase v
            rw [d4 hmr, Multiset.erase_cons_tail _ (by omega),
              Multiset.erase_add_right_pos _ hmr]
          · intro hnmem
            have hnr : v ∉ valuesM r := fun hm => hnmem
              (Multiset.mem_cons_of_mem (Multiset.mem_add.mpr (Or.inr hm)))
            have h5 := d5 hnr
            rw [h5, rebalanceDel_noop (AVLNode.node u l r h id) _ _ hb.2.1 hb.1]
            exact updateHeight_self u l r h id hc
          · by_cases hdd : realHeight l - realHeight (deleteHelper r v s0
                  (p0 ++ [id]) d0 rot0 evs0).tree ≤ 1 ∧
                realHeight (deleteHelper r v s0 (p0 ++ [id]) d0 rot0 evs0).tree -
                  realHeight l ≤ 1
            · have heq := r7 hdd.1 hdd.2
              rw [heq]
              dsimp only
              have hh2 : realHeight (updateHeight (AVLNode.node u l
                  (deleteHelper r v s0 (p0 ++ [id]) d0 rot0 evs0).tree h id)) =
                  1 + max (realHeight l)
                    (realHeight (deleteHelper r v s0 (p0 ++ [id]) d0 rot0
                      evs0).tree) := by
                rw [realHeight_updateHeight]
                rfl
              omega
            · omega
        · rw [if_neg hv2]
          have hveq : v = u := le_antisymm (not_lt.mp hv2) (not_lt.mp hv1)
          by_cases h3 : l = AVLNode.nil ∨ r = AVLNode.nil
          · rw [if_pos h3]
            dsimp only
            by_cases hln : l ≠ AVLNode.nil
            · have hrn : r = AVLNode.nil := (h3.resolve_left hln)
              rw [if_pos hln]
              have hr0 : realHeight r = 0 := by rw [hrn]; rfl
              refine ⟨hord.2.2.1, hc.2.1, hb.2.2.1, ?_, ?_, by omega, by omega⟩
              · intro _
                show valuesM l = (u ::ₘ (valuesM l + valuesM r)).erase v
                rw [hveq, Multiset.erase_cons_head, hrn]
                show valuesM l = valuesM l + 0
                rw [add_zero]
              · intro hnmem
                exact absurd (by rw [hveq]; exact Multiset.mem_cons_self u _) hnmem
            · rw [if_neg hln]
              have hl0 : l = AVLNode.nil := not_not.mp hln
              have hl00 : realHeight l = 0 := by rw [hl0]; rfl
              refine ⟨hord.2.2.2, hc.2.2, hb.2.2.2, ?_, ?_, by omega, by omega⟩
              · intro _
                show valuesM r = (u ::ₘ (valuesM l + valuesM r)).erase v
                rw [hveq, Multiset.erase_cons_head, hl0]
                show valuesM r = 0 + valuesM r
                rw [zero_add]
              · intro hnmem
                exact absurd (by rw [hveq]; exact Multiset.mem_cons_self u _) hnmem
          · rw [if_neg h3]
            dsimp only
            have hrn : r ≠ AVLNode.nil := fun he => h3 (Or.inr he)
            have hsv_mem : nodeValue (findMin r) ∈ valuesM r := findMin_mem r hrn
            have hsv_min := findMin_le r hord.2.2.2
            have husv : u < nodeValue (findMin r) := hord.2.1 _ hsv_mem
            obtain ⟨d1, d2, d3, d4, d5, d6, d7⟩ :=
              ihr (nodeValue (findMin r)) s0 (p0 ++ [id]) (some id) rot0 evs0
                hord.2.2.2 hc.2.2 hb.2.2.2
            have hvals : valuesM (deleteHelper r (nodeValue (findMin r)) s0
                (p0 ++ [id]) (some id) rot0 evs0).tree =
                (valuesM r).erase (nodeValue (findMin r)) := d4 hsv_mem
            have hnodupr := ordered_nodup r hord.2.2.2
            have hnsv : nodeValue (findMin r) ∉
                (valuesM r).erase (nodeValue (findMin r)) := by
              intro hmem
              have hcount := Multiset.count_erase_self (nodeValue (findMin r))
                (valuesM r)
              have hle := Multiset.nodup_iff_count_le_one.mp hnodupr
                (nodeValue (findMin r))
              have hpos := Multiset.count_pos.mpr hmem
              omega
            have hordm : Ordered (AVLNode.node (nodeValue (findMin r)) l
                (deleteHelper r (nodeValue (findMin r)) s0 (p0 ++ [id]) (some id)
                  rot0 evs0).tree h id) := by
              refine ⟨?_, ?_, hord.2.2.1, d1⟩
              · intro x hx
                exact (hord.1 x hx).trans husv
              · intro x hx
                rw [hvals] at hx
                have hxr : x ∈ valuesM r := Multiset.mem_of_mem_erase hx
                have hne : x ≠ nodeValue (findMin r) := by
                  intro he
                  rw [he] at hx
                  exact hnsv hx
                exact lt_of_le_of_ne (hsv_min x hxr) (Ne.symm hne)
            obtain ⟨r1, r2, r3, r4, r5, r6, r7⟩ :=
              rebalanceDel_spec (nodeValue (findMin r)) l
                (deleteHelper r (nodeValue (findMin r)) s0 (p0 ++ [id]) (some id)
                  rot0 evs0).tree h id
                (deleteHelper r (nodeValue (findMin r)) s0 (p0 ++ [id]) (some id)
                  rot0 evs0).rotation
                (deleteHelper r (nodeValue (findMin r)) s0 (p0 ++ [id]) (some id)
                  rot0 evs0).rotEvents
                hc.2.1 d2 hb.2.2.1 d3 hordm (by omega) (by omega)
            have hmaxc2 := max_choice (realHeight l)
              (realHeight (deleteHelper r (nodeValue (findMin r)) s0 (p0 ++ [id])
                (some id) rot0 evs0).tree)
            have hmaxa2 := le_max_left (realHeight l)
              (realHeight (deleteHelper r (nodeValue (findMin r)) s0 (p0 ++ [id])
                (some id) rot0 evs0).tree)
            have hmaxb2 := le_max_right (realHeight l)
              (realHeight (deleteHelper r (nodeValue (findMin r)) s0 (p0 ++ [id])
                (some id) rot0 evs0).tree)
            refine ⟨r1, r2, r3, ?_, ?_, ?_, by omega⟩
            · intro _
              rw [r4]
              show nodeValue (findMin r) ::ₘ (valuesM l +
                valuesM (deleteHelper r (nodeValue (findMin r)) s0 (p0 ++ [id])
                  (some id) rot0 evs0).tree) =
                (u ::ₘ (valuesM l + valuesM r)).erase v
              rw [hveq, Multiset.erase_cons_head, hvals,
                ← Multiset.cons_erase hsv_mem]
              ext a
              simp [Multiset.count_cons, Multiset.count_add]
            · intro hnmem
              exact absurd (by rw [hveq]; exact Multiset.mem_cons_self u _) hnmem
            · by_cases hdd : realHeight l - realHeight (deleteHelper r
                    (nodeValue (findMin r)) s0 (p0 ++ [id]) (some id) rot0
                    evs0).tree ≤ 1 ∧
                  realHeight (deleteHelper r (nodeValue (findMin r)) s0
                    (p0 ++ [id]) (some id) rot0 evs0).tree - realHeight l ≤ 1
              · have heq := r7 hdd.1 hdd.2
                rw [heq]
                dsimp only
                have hh2 : realHeight (updateHeight (AVLNode.node
                    (nodeValue (findMin r)) l
                    (deleteHelper r (nodeValue (findMin r)) s0 (p0 ++ [id])
                      (some id) rot0 evs0).tree h id)) =
                    1 + max (realHeight l)
                      (realHeight (deleteHelper r (nodeValue (findMin r)) s0
                        (p0 ++ [id]) (some id) rot0 evs0).tree) := by
                  rw [realHeight_updateHeight]
                  rfl
                omega
              · omega

/-- Every public operation preserves the AVL invariants. -/
theorem applyOp_inv (s : State) (op : Op) (hs : Inv s) : Inv (applyOp s op) := by
  obtain ⟨ho, hc, hb⟩ := hs
  cases op with
  | ins v =>
      show Inv { root := (insertHelper s.root v true [] RotationType.NONE []
        s.nextNodeId).tree, nextNodeId := _ }
      by_cases hmem : v ∈ valuesM s.root
      · obtain ⟨π, n, _, _, _, heq⟩ :=
          insertHelper_dup_avl s.root v ho hc hb hmem true [] RotationType.NONE []
            s.nextNodeId
        rw [heq]
        exact ⟨ho, hc, hb⟩
      · obtain ⟨i1, i2, i3, _⟩ :=
          insertHelper_spec s.root v true [] RotationType.NONE [] s.nextNodeId
            ho hc hb hmem
        exact ⟨i1, i2, i3⟩
  | rem v =>
      obtain ⟨d1, d2, d3, _⟩ :=
        deleteHelper_spec s.root v true [] none RotationType.NONE [] ho hc hb
      exact ⟨d1, d2, d3⟩
  | sea v => exact ⟨ho, hc, hb⟩
  | clr => exact ⟨trivial, trivial, trivial⟩

/-- The invariants hold along any `foldl` of public operations. -/
theorem runOps_inv (ops : List Op) :
    ∀ (s : State), Inv s → Inv (ops.foldl applyOp s) := by
  induction ops with
  | nil => intro s hs; exact hs
  | cons o os ih => intro s hs; exact ih _ (applyOp_inv s o hs)

/-- A tree of recomputed height zero is null. -/
theorem realHeight_eq_zero (t : AVLNode) (h0 : realHeight t = 0) :
    t = AVLNode.nil := by
  cases t with
  | nil => rfl
  | node v l r h id =>
      exfalso
      have h1 := realHeight_nonneg l
      have h2 := realHeight_nonneg r
      have h3 : realHeight (AVLNode.node v l r h id) =
          1 + max (realHeight l) (realHeight r) := rfl
      have h4 := le_max_left (realHeight l) (realHeight r)
      omega

/-- One step of `insertHelper` at a node, descending left. -/
theorem ins_step_left (c : Int) (X Y : AVLNode) (hh : Int) (ii : Nat)
    (v : Int) (s0 : Bool) (p0 : List Nat) (rot0 : RotationType)
    (evs0 : List RotationType) (nid : Nat) (hv : v < c) :
    (insertHelper (AVLNode.node c X Y hh ii) v s0 p0 rot0 evs0 nid).tree =
      (rebalanceIns (AVLNode.node c
        (insertHelper X v s0 (p0 ++ [ii]) rot0 evs0 nid).tree Y hh ii) v
        (insertHelper X v s0 (p0 ++ [ii]) rot0 evs0 nid).rotation
        (insertHelper X v s0 (p0 ++ [ii]) rot0 evs0 nid).rotEvents).1 := by
  simp only [insertHelper]
  rw [if_pos hv]

/-- One step of `insertHelper` at a node, descending right. -/
theorem ins_step_right (c : Int) (X Y : AVLNode) (hh : Int) (ii : Nat)
    (v : Int) (s0 : Bool) (p0 : List Nat) (rot0 : RotationType)
    (evs0 : List RotationType) (nid : Nat) (hv : c < v) :
    (insertHelper (AVLNode.node c X Y hh ii) v s0 p0 rot0 evs0 nid).tree =
      (rebalanceIns (AVLNode.node c X
        (insertHelper Y v s0 (p0 ++ [ii]) rot0 evs0 nid).tree hh ii) v
        (insertHelper Y v s0 (p0 ++ [ii]) rot0 evs0 nid).rotation
        (insertHelper Y v s0 (p0 ++ [ii]) rot0 evs0 nid).rotEvents).1 := by
  simp only [insertHelper]
  rw [if_neg (by omega : ¬ v < c), if_pos hv]

/-- One step of `deleteHelper` descending left when the rebalancing at the
node is a pure height refresh: the resulting height is one plus the larger
of the recomputed children heights. -/
theorem del_left_noop (c : Int) (X Y : AVLNode) (hh : Int) (ii : Nat)
    (v : Int) (s1 : Bool) (p1 : List Nat) (d1 : Option Nat) (rt1 : RotationType)
    (ev1 : List RotationType) (hv : v < c)
    (hcx : HeightsCorrect (deleteHelper X v s1 (p1 ++ [ii]) d1 rt1 ev1).tree)
    (hgy : getHeight Y = realHeight Y)
    (hb1 : realHeight (deleteHelper X v s1 (p1 ++ [ii]) d1 rt1 ev1).tree -
      realHeight Y ≤ 1)
    (hb2 : realHeight Y -
      realHeight (deleteHelper X v s1 (p1 ++ [ii]) d1 rt1 ev1).tree ≤ 1) :
    realHeight (deleteHelper (AVLNode.node c X Y hh ii) v s1 p1 d1 rt1 ev1).tree =
      1 + max (realHeight (deleteHelper X v s1 (p1 ++ [ii]) d1 rt1 ev1).tree)
        (realHeight Y) := by
  simp only [deleteHelper]
  rw [if_pos hv]
  dsimp only
  have hno := rebalanceDel_noop
    (AVLNode.node c (deleteHelper X v s1 (p1 ++ [ii]) d1 rt1 ev1).tree Y hh ii)
    (deleteHelper X v s1 (p1 ++ [ii]) d1 rt1 ev1).rotation
    (deleteHelper X v s1 (p1 ++ [ii]) d1 rt1 ev1).rotEvents
    (by
      show getHeight (deleteHelper X v s1 (p1 ++ [ii]) d1 rt1 ev1).tree -
        getHeight Y ≤ 1
      rw [getHeight_eq _ hcx, hgy]
      omega)
    (by
      show -1 ≤ getHeight (deleteHelper X v s1 (p1 ++ [ii]) d1 rt1 ev1).tree -
        getHeight Y
      rw [getHeight_eq _ hcx, hgy]
      omega)
  rw [hno]
  dsimp only
  rw [realHeight_updateHeight]
  rfl

/-- Mirror of `del_left_noop`, descending right. -/
theorem del_right_noop (c : Int) (X Y : AVLNode) (hh : Int) (ii : Nat)
    (v : Int) (s1 : Bool) (p1 : List Nat) (d1 : Option Nat) (rt1 : RotationType)
    (ev1 : List RotationType) (hv : c < v)
    (hgx : getHeight X = realHeight X)
    (hcy : HeightsCorrect (deleteHelper Y v s1 (p1 ++ [ii]) d1 rt1 ev1).tree)
    (hb1 : realHeight X -
      realHeight (deleteHelper Y v s1 (p1 ++ [ii]) d1 rt1 ev1).tree ≤ 1)
    (hb2 : realHeight (deleteHelper Y v s1 (p1 ++ [ii]) d1 rt1 ev1).tree -
      realHeight X ≤ 1) :
    realHeight (deleteHelper (AVLNode.node c X Y hh ii) v s1 p1 d1 rt1 ev1).tree =
      1 + max (realHeight X)
        (realHeight (deleteHelper Y v s1 (p1 ++ [ii]) d1 rt1 ev1).tree) := by
  simp only [deleteHelper]
  rw [if_neg (by omega : ¬ v < c), if_pos hv]
  dsimp only
  have hno := rebalanceDel_noop
    (AVLNode.node c X (deleteHelper Y v s1 (p1 ++ [ii]) d1 rt1 ev1).tree hh ii)
    (deleteHelper Y v s1 (p1 ++ [ii]) d1 rt1 ev1).rotation
    (deleteHelper Y v s1 (p1 ++ [ii]) d1 rt1 ev1).rotEvents
    (by
      show getHeight X -
        getHeight (deleteHelper Y v s1 (p1 ++ [ii]) d1 rt1 ev1).tree ≤ 1
      rw [getHeight_eq _ hcy, hgx]
      omega)
    (by
      show -1 ≤ getHeight X -
        getHeight (deleteHelper Y v s1 (p1 ++ [ii]) d1 rt1 ev1).tree
      rw [getHeight_eq _ hcy, hgx]
      omega)
  rw [hno]
  dsimp only
  rw [realHeight_updateHeight]
  rfl

/-- C1: for every AVL tree reachable by any sequence of public operations
(insert, remove, search, clear) from a fresh tree, after each operation
returns every node's cached height equals the recomputed height of its
subtree (`height(null) = 0`, leaf `= 1`), and every node's balance factor
lies in `{-1, 0, +1}`. -/
theorem C1_avl_invariants (ops : List Op) :
    HeightsCorrect (runOps ops).root ∧ BalancedCached (runOps ops).root := by
  have h := runOps_inv ops { root := AVLNode.nil, nextNodeId := 0 }
    ⟨trivial, trivial, trivial⟩
  exact ⟨h.2.1, h.2.2⟩

end AVL

end DSAnim
